import Mathlib

/-!
Verification of the Gomoku rule engine and decision core (`gomoku.py`).

The development shallowly embeds the Python class `Gomoku`: the board is a
list of rows of characters ('.', 'X', 'O'), configuration and the mutable
`nodes_expanded` counter live in a `Gomoku` structure, and the mutating
methods are translated into state-passing functions.  Wall-clock readings
(`time.time() - start_time`) are modelled by an explicit stream
`clk : Nat → ℚ` of elapsed times, consumed one index per clock reading in
program order.  Scores are integers; Python's `float('-inf')`/`float('inf')`
sentinels are modelled by `⊥`/`⊤` in `WithBot (WithTop ℤ)`.
-/

set_option autoImplicit false
set_option linter.dupNamespace false

namespace Gomoku

/-- A board is a list of rows of cells, each cell one of '.', 'X', 'O'. -/
abbrev Board := List (List Char)

/-- Extended score values: integers together with `-inf` (`⊥`) and `+inf` (`⊤`),
modelling Python floats used as sentinels in the search. -/
abbrev V := WithBot (WithTop ℤ)

/-- Embed an integer score into the extended value order. -/
def toV (z : ℤ) : V := ((z : WithTop ℤ) : V)

/-- The `Gomoku` object state: configuration plus the mutable board and the
mutable `nodes_expanded` counter. -/
structure Gomoku where
  board_size : Nat
  win_length : Nat
  ai_time_limit : ℚ
  board : Board
  nodes_expanded : Nat
  deriving Repr, DecidableEq

/-- Read a board cell; out-of-range reads give the junk character `'?'`
(which is never `'.'`, `'X'` or `'O'`, so an out-of-range cell is never
empty and never owned). In-range behaviour matches Python's `board[r][c]`. -/
def getCell (b : Board) (r c : Nat) : Char := (b.getD r []).getD c '?'

/-- Write a board cell (`board[r][c] = ch`); out-of-range writes are no-ops. -/
def setCell (b : Board) (r c : Nat) (ch : Char) : Board :=
  b.set r ((b.getD r []).set c ch)

/-- `is_valid_move`: in bounds and cell empty, with short-circuit evaluation
exactly as in the source (`0 <= row < n and 0 <= col < n and cell == '.'`).
Indices are integers, as in Python, where a caller may pass negatives. -/
def is_valid_move (g : Gomoku) (row col : ℤ) : Bool :=
  decide (0 ≤ row) && decide (row < (g.board_size : ℤ)) &&
  decide (0 ≤ col) && decide (col < (g.board_size : ℤ)) &&
  (getCell g.board row.toNat col.toNat == '.')

/-- `make_move`: place `symbol` at `(row, col)` if the move is valid and
return `true`; otherwise leave the state untouched and return `false`. -/
def make_move (g : Gomoku) (symbol : Char) (row col : ℤ) : Gomoku × Bool :=
  if is_valid_move g row col then
    ({ g with board := setCell g.board row.toNat col.toNat symbol }, true)
  else (g, false)

/-- `check_direction`'s loop: count consecutive matches of `symbol` starting
at `(row, col)` and stepping by `(row_delta, col_delta)`, for at most `fuel`
steps, stopping at the first failure (out of bounds or wrong cell). -/
def countRun (g : Gomoku) (symbol : Char) : Nat → ℤ → ℤ → ℤ → ℤ → Nat
  | 0, _, _, _, _ => 0
  | fuel + 1, row, col, dr, dc =>
    if (decide (0 ≤ row) && decide (row < (g.board_size : ℤ)) &&
        decide (0 ≤ col) && decide (col < (g.board_size : ℤ)) &&
        (getCell g.board row.toNat col.toNat == symbol)) then
      countRun g symbol fuel (row + dr) (col + dc) dr dc + 1
    else 0

/-- `check_direction`: is there a run of exactly `win_length` consecutive
`symbol` cells starting at `(row, col)` in direction `(row_delta, col_delta)`? -/
def check_direction (g : Gomoku) (row col row_delta col_delta : ℤ) (symbol : Char) : Bool :=
  countRun g symbol g.win_length row col row_delta col_delta == g.win_length

/-- `check_win`: scan every cell as an origin and the four directions
`(1,0)`, `(0,1)`, `(1,1)`, `(1,-1)` used by the source. -/
def check_win (g : Gomoku) (symbol : Char) : Bool :=
  (List.range g.board_size).any fun row =>
    (List.range g.board_size).any fun col =>
      check_direction g row col 1 0 symbol ||
      check_direction g row col 0 1 symbol ||
      check_direction g row col 1 1 symbol ||
      check_direction g row col 1 (-1) symbol

/-- `is_full`: no row contains an empty cell. -/
def is_full (g : Gomoku) : Bool :=
  g.board.all fun row => !(row.contains '.')

/-- The four axis directions used by `count_aligned` and `potential_extension`. -/
def directions4 : List (ℤ × ℤ) := [(1, 0), (0, 1), (1, 1), (1, -1)]

/-- The eight neighbour offsets used by `count_adjacent_spaces`. -/
def directions8 : List (ℤ × ℤ) :=
  [(1, 0), (0, 1), (1, 1), (1, -1), (-1, -1), (-1, 1), (-1, 0), (0, -1)]

/-- The window offsets `range(-win_length + 1, win_length)` of the source. -/
def windowOffsets (L : Nat) : List ℤ :=
  (List.range (2 * L - 1)).map fun (j : Nat) => (j : ℤ) - ((L : ℤ) - 1)

/-- In-bounds test on integer coordinates. -/
def inB (g : Gomoku) (r c : ℤ) : Bool :=
  decide (0 ≤ r) && decide (r < (g.board_size : ℤ)) &&
  decide (0 ≤ c) && decide (c < (g.board_size : ℤ))

/-- `count_aligned`: over the four axes, count cells equal to `symbol` in the
window of offsets `-win_length+1 .. win_length-1` around `(row, col)`. -/
def count_aligned (g : Gomoku) (row col : ℤ) (symbol : Char) : Nat :=
  (directions4.map fun d =>
    ((windowOffsets g.win_length).map fun i =>
      if (inB g (row + d.1 * i) (col + d.2 * i) &&
          (getCell g.board (row + d.1 * i).toNat (col + d.2 * i).toNat == symbol))
      then 1 else 0).sum).sum

/-- `count_adjacent_spaces`: count empty cells among the eight neighbours. -/
def count_adjacent_spaces (g : Gomoku) (row col : ℤ) : Nat :=
  (directions8.map fun d =>
    if (inB g (row + d.1) (col + d.2) &&
        (getCell g.board (row + d.1).toNat (col + d.2).toNat == '.')) then 1 else 0).sum

/-- `potential_extension`: over the four axes, count in-bounds window cells
holding `symbol` or empty. -/
def potential_extension (g : Gomoku) (row col : ℤ) (symbol : Char) : Nat :=
  (directions4.map fun d =>
    ((windowOffsets g.win_length).map fun i =>
      if (inB g (row + d.1 * i) (col + d.2 * i) &&
          (getCell g.board (row + d.1 * i).toNat (col + d.2 * i).toNat == symbol ||
           getCell g.board (row + d.1 * i).toNat (col + d.2 * i).toNat == '.'))
      then 1 else 0).sum).sum

/-- The opponent symbol as computed by the source:
`'X' if symbol == 'O' else 'O'`. -/
def opponent_of (symbol : Char) : Char := if symbol == 'O' then 'X' else 'O'

/-- `evaluate_board`: signed score from `symbol`'s perspective, summing the
four own-cell heuristics and subtracting the opponent's alignment count. -/
def evaluate_board (g : Gomoku) (symbol : Char) : ℤ :=
  let opponent_symbol := opponent_of symbol
  let center : ℤ := (g.board_size / 2 : Nat)
  ((List.range g.board_size).map fun row =>
    ((List.range g.board_size).map fun col =>
      if getCell g.board row col == symbol then
        (count_aligned g row col symbol : ℤ) +
        max 0 (5 - ((|(row : ℤ) - center|) + (|(col : ℤ) - center|))) +
        (count_adjacent_spaces g row col : ℤ) +
        (potential_extension g row col symbol : ℤ)
      else if getCell g.board row col == opponent_symbol then
        -(count_aligned g row col opponent_symbol : ℤ)
      else 0).sum).sum

/-- Well-formed board: a square grid of exactly `board_size` rows of
`board_size` cells (the invariant established by `__init__`). -/
def WF (g : Gomoku) : Prop :=
  g.board.length = g.board_size ∧ ∀ row ∈ g.board, row.length = g.board_size

instance (g : Gomoku) : Decidable (WF g) := by unfold WF; infer_instance

/-- A concrete well-formed 2×2 game used by witnesses. -/
def gW : Gomoku := ⟨2, 2, 1, [['.', '.'], ['.', '.']], 0⟩

/-- Cell `(r, c)` is on the board and holds `symbol`. -/
def cellIs (g : Gomoku) (symbol : Char) (r c : ℤ) : Prop :=
  inB g r c = true ∧ getCell g.board r.toNat c.toNat = symbol

/-- A forward run of `len` consecutive `symbol` cells from `(r, c)` with step
`(dr, dc)`. -/
def runFrom (g : Gomoku) (symbol : Char) (len : Nat) (r c dr dc : ℤ) : Prop :=
  ∀ i : Nat, i < len → cellIs g symbol (r + dr * i) (c + dc * i)

/-- The four directions named by the specification: right, down, down-right,
up-right. -/
def specDirs : List (ℤ × ℤ) := [(0, 1), (1, 0), (1, 1), (-1, 1)]

/-- Spec-side win predicate: some board cell starts a forward run of
`win_length` consecutive `symbol` cells along one of the four spec directions. -/
def specHasWin (g : Gomoku) (symbol : Char) : Prop :=
  ∃ r c : Nat, r < g.board_size ∧ c < g.board_size ∧
    ∃ d ∈ specDirs, runFrom g symbol g.win_length r c d.1 d.2

instance (g : Gomoku) (symbol : Char) (r c : ℤ) : Decidable (cellIs g symbol r c) := by
  unfold cellIs; infer_instance

/-- Cell `(r, c)` is on the board and holds `symbol` or is empty. -/
def cellIsOrEmpty (g : Gomoku) (symbol : Char) (r c : ℤ) : Prop :=
  inB g r c = true ∧
    (getCell g.board r.toNat c.toNat = symbol ∨ getCell g.board r.toNat c.toNat = '.')

instance (g : Gomoku) (symbol : Char) (r c : ℤ) : Decidable (cellIsOrEmpty g symbol r c) := by
  unfold cellIsOrEmpty; infer_instance

/-- Manhattan distance between two grid points. -/
def manhattanDist (p q : ℤ × ℤ) : ℤ := |p.1 - q.1| + |p.2 - q.2|

/-- The board centre cell `(board_size // 2, board_size // 2)`. -/
def boardCenter (g : Gomoku) : ℤ × ℤ :=
  ((g.board_size / 2 : Nat), (g.board_size / 2 : Nat))

/-- The window of `2 * win_length - 1` offsets centred on a cell. -/
def specWindow (g : Gomoku) : Finset ℤ :=
  Finset.Icc (-(g.win_length : ℤ) + 1) ((g.win_length : ℤ) - 1)

/-- The four board axes: right, down, down-right, up-right. -/
def specAxes : List (ℤ × ℤ) := [(0, 1), (1, 0), (1, 1), (-1, 1)]

/-- Spec term (a): same-symbol marks in the centred window along each axis. -/
def specAlign (g : Gomoku) (symbol : Char) (r c : ℤ) : ℕ :=
  (specAxes.map fun d =>
    ∑ j in specWindow g, if cellIs g symbol (r + d.1 * j) (c + d.2 * j) then 1 else 0).sum

/-- The eight neighbour offsets, in row-major order. -/
def specNeighborOffsets : List (ℤ × ℤ) :=
  [(-1, -1), (-1, 0), (-1, 1), (0, -1), (0, 1), (1, -1), (1, 0), (1, 1)]

/-- Spec term (c): empty cells among the eight neighbours. -/
def specEmptyNeighbors (g : Gomoku) (r c : ℤ) : ℕ :=
  (specNeighborOffsets.map fun o =>
    if cellIs g '.' (r + o.1) (c + o.2) then 1 else 0).sum

/-- Spec term (d): in-bounds window cells that hold `symbol` or are empty. -/
def specExtension (g : Gomoku) (symbol : Char) (r c : ℤ) : ℕ :=
  (specAxes.map fun d =>
    ∑ j in specWindow g, if cellIsOrEmpty g symbol (r + d.1 * j) (c + d.2 * j) then 1 else 0).sum

/-- The claimed closed form of the evaluator: own cells contribute alignment,
centre bonus, empty neighbours and extension potential; opponent cells
subtract only their own alignment count. -/
def specEvaluate (g : Gomoku) (symbol : Char) : ℤ :=
  let opp := opponent_of symbol
  ∑ r in Finset.range g.board_size, ∑ c in Finset.range g.board_size,
    if getCell g.board r c = symbol then
      (specAlign g symbol r c : ℤ) +
      max 0 (5 - manhattanDist ((r : ℤ), (c : ℤ)) (boardCenter g)) +
      (specEmptyNeighbors g r c : ℤ) + (specExtension g symbol r c : ℤ)
    else if getCell g.board r c = opp then -(specAlign g opp r c : ℤ)
    else 0

/-- The row-major scan order of the two nested `for` loops. -/
def rowMajor (n : Nat) : List (Nat × Nat) :=
  ((List.range n).map fun r => (List.range n).map fun c => (r, c)).flatten

/-- Row-major index of a cell. -/
def rmIndex (n : Nat) (x : Nat × Nat) : Nat := x.1 * n + x.2

section ArgFold

variable {α : Type} (valid : α → Bool) (f : α → ℤ)

/-- The accumulator fold of Greedy: keep the strictly better score, so the
first encountered maximiser wins ties. -/
def argmaxFold : List α → Option α × WithBot ℤ → Option α × WithBot ℤ
  | [], st => st
  | x :: xs, (bm, bs) =>
    if valid x then
      if bs < ((f x : ℤ) : WithBot ℤ) then argmaxFold xs (some x, ((f x : ℤ) : WithBot ℤ))
      else argmaxFold xs (bm, bs)
    else argmaxFold xs (bm, bs)

/-- The accumulator fold of Worst: keep the strictly smaller score. -/
def argminFold : List α → Option α × WithTop ℤ → Option α × WithTop ℤ
  | [], st => st
  | x :: xs, (bm, bs) =>
    if valid x then
      if ((f x : ℤ) : WithTop ℤ) < bs then argminFold xs (some x, ((f x : ℤ) : WithTop ℤ))
      else argminFold xs (bm, bs)
    else argminFold xs (bm, bs)

end ArgFold

/-- Place a symbol on the board of `g` (the speculative `self.board[r][c] = s`). -/
def place (g : Gomoku) (r c : Nat) (ch : Char) : Gomoku :=
  { g with board := setCell g.board r c ch }

/-- One-ply score used by Greedy: place `symbol`, evaluate for `symbol`. -/
def greedyScore (g : Gomoku) (symbol : Char) (x : Nat × Nat) : ℤ :=
  evaluate_board (place g x.1 x.2 symbol) symbol

/-- Validity of a cell in the row-major scan, as the loops test it. -/
def validCell (g : Gomoku) (x : Nat × Nat) : Bool :=
  is_valid_move g x.1 x.2

/-- `greedy_ai`'s scan: thread the mutable board through place / evaluate /
retract for each cell, keeping the strictly best score. -/
def greedy_ai_aux (symbol : Char) :
    List (Nat × Nat) → Gomoku → Option (Nat × Nat) → WithBot ℤ →
      Gomoku × Option (Nat × Nat) × WithBot ℤ
  | [], g, best_move, best_score => (g, best_move, best_score)
  | x :: xs, g, best_move, best_score =>
    if is_valid_move g x.1 x.2 then
      greedy_ai_aux symbol xs
        { place g x.1 x.2 symbol with
            board := setCell (place g x.1 x.2 symbol).board x.1 x.2 '.' }
        (if best_score < ((evaluate_board (place g x.1 x.2 symbol) symbol : ℤ) : WithBot ℤ)
          then some x else best_move)
        (if best_score < ((evaluate_board (place g x.1 x.2 symbol) symbol : ℤ) : WithBot ℤ)
          then ((evaluate_board (place g x.1 x.2 symbol) symbol : ℤ) : WithBot ℤ)
          else best_score)
    else greedy_ai_aux symbol xs g best_move best_score

/-- `greedy_ai`: best one-ply move for `symbol`; returns the final object
state (whose board must be restored) and the chosen move. -/
def greedy_ai (g : Gomoku) (symbol : Char) : Gomoku × Option (Nat × Nat) :=
  ((greedy_ai_aux symbol (rowMajor g.board_size) g none ⊥).1,
   (greedy_ai_aux symbol (rowMajor g.board_size) g none ⊥).2.1)

/-- One-ply score used by Worst: place the opponent's symbol, evaluate for
the opponent. -/
def worstScore (g : Gomoku) (opponent_symbol : Char) (x : Nat × Nat) : ℤ :=
  evaluate_board (place g x.1 x.2 opponent_symbol) opponent_symbol

/-- `worst_ai`'s scan: like Greedy but placing and scoring the opponent's
symbol and keeping the strictly smallest score. -/
def worst_ai_aux (opponent_symbol : Char) :
    List (Nat × Nat) → Gomoku → Option (Nat × Nat) → WithTop ℤ →
      Gomoku × Option (Nat × Nat) × WithTop ℤ
  | [], g, worst_move, worst_score => (g, worst_move, worst_score)
  | x :: xs, g, worst_move, worst_score =>
    if is_valid_move g x.1 x.2 then
      worst_ai_aux opponent_symbol xs
        { place g x.1 x.2 opponent_symbol with
            board := setCell (place g x.1 x.2 opponent_symbol).board x.1 x.2 '.' }
        (if ((evaluate_board (place g x.1 x.2 opponent_symbol) opponent_symbol : ℤ) : WithTop ℤ)
            < worst_score then some x else worst_move)
        (if ((evaluate_board (place g x.1 x.2 opponent_symbol) opponent_symbol : ℤ) : WithTop ℤ)
            < worst_score
          then ((evaluate_board (place g x.1 x.2 opponent_symbol) opponent_symbol : ℤ) : WithTop ℤ)
          else worst_score)
    else worst_ai_aux opponent_symbol xs g worst_move worst_score

/-- `worst_ai`: the move minimising the opponent's one-ply score. -/
def worst_ai (g : Gomoku) (opponent_symbol : Char) : Gomoku × Option (Nat × Nat) :=
  ((worst_ai_aux opponent_symbol (rowMajor g.board_size) g none ⊤).1,
   (worst_ai_aux opponent_symbol (rowMajor g.board_size) g none ⊤).2.1)

/-- The empty 15×15 game of the Greedy scenario, `win_length = 5`. -/
def empty15 : Gomoku := ⟨15, 5, 2, List.replicate 15 (List.replicate 15 '.'), 0⟩

/-- In-bounds neighbour count on a bare 15×15 grid. -/
def emptyAdj (r c : ℤ) : ℕ :=
  (specNeighborOffsets.map fun o =>
    if inB empty15 (r + o.1) (c + o.2) = true then 1 else 0).sum

/-- In-bounds window-cell count on a bare 15×15 grid. -/
def emptyExt (r c : ℤ) : ℕ :=
  (specAxes.map fun d =>
    ∑ j in specWindow empty15, if inB empty15 (r + d.1 * j) (c + d.2 * j) = true then 1 else 0).sum

/-- Closed-form one-ply Greedy score on the empty 15×15 board. -/
def emptyScore (x : Nat × Nat) : ℤ :=
  4 + max 0 (5 - (|(x.1 : ℤ) - 7| + |(x.2 : ℤ) - 7|)) + (emptyAdj x.1 x.2 : ℤ) +
    (emptyExt x.1 x.2 : ℤ)

/-- Retract on the state returned by a recursive call (the paired
`self.board[row][col] = '.'`). -/
def retractOn (g : Gomoku) (row col : Nat) : Gomoku :=
  { g with board := setCell g.board row col '.' }

/-- Inner column loop of the maximizing branch of `minimax`: place, recurse,
retract, update `best_value` and `alpha`, then either break on `beta ≤ alpha`
or count the expanded node and continue.  `child` is the recursive call at
depth − 1 with `maximizing = False`. -/
def rowMax (child : Gomoku → V → V → Nat → V × Gomoku × Nat) (symbol : Char) (beta : V)
    (row : Nat) : List Nat → Gomoku × V × V × Nat → Gomoku × V × V × Nat
  | [], st => st
  | col :: cols, (g, best_value, alpha, k) =>
    if is_valid_move g row col then
      if beta ≤ max alpha (child (place g row col symbol) alpha beta k).1 then
        (retractOn (child (place g row col symbol) alpha beta k).2.1 row col,
         max best_value (child (place g row col symbol) alpha beta k).1,
         max alpha (child (place g row col symbol) alpha beta k).1,
         (child (place g row col symbol) alpha beta k).2.2)
      else rowMax child symbol beta row cols
        ({ retractOn (child (place g row col symbol) alpha beta k).2.1 row col with
            nodes_expanded :=
              (retractOn (child (place g row col symbol) alpha beta k).2.1 row col).nodes_expanded
                + 1 },
         max best_value (child (place g row col symbol) alpha beta k).1,
         max alpha (child (place g row col symbol) alpha beta k).1,
         (child (place g row col symbol) alpha beta k).2.2)
    else rowMax child symbol beta row cols (g, best_value, alpha, k)

/-- Outer row loop of the maximizing branch. -/
def rowsMax (child : Gomoku → V → V → Nat → V × Gomoku × Nat) (symbol : Char) (beta : V)
    (size : Nat) : List Nat → Gomoku × V × V × Nat → Gomoku × V × V × Nat
  | [], st => st
  | row :: rows, st =>
    rowsMax child symbol beta size rows (rowMax child symbol beta row (List.range size) st)

/-- Inner column loop of the minimizing branch: places the opponent's symbol,
updates `best_value` and `beta`, breaks on `beta ≤ alpha`. -/
def rowMin (child : Gomoku → V → V → Nat → V × Gomoku × Nat) (opponent_symbol : Char)
    (alpha : V) (row : Nat) : List Nat → Gomoku × V × V × Nat → Gomoku × V × V × Nat
  | [], st => st
  | col :: cols, (g, best_value, beta, k) =>
    if is_valid_move g row col then
      if min beta (child (place g row col opponent_symbol) alpha beta k).1 ≤ alpha then
        (retractOn (child (place g row col opponent_symbol) alpha beta k).2.1 row col,
         min best_value (child (place g row col opponent_symbol) alpha beta k).1,
         min beta (child (place g row col opponent_symbol) alpha beta k).1,
         (child (place g row col opponent_symbol) alpha beta k).2.2)
      else rowMin child opponent_symbol alpha row cols
        ({ retractOn (child (place g row col opponent_symbol) alpha beta k).2.1 row col with
            nodes_expanded :=
              (retractOn (child (place g row col opponent_symbol) alpha beta k).2.1
                row col).nodes_expanded + 1 },
         min best_value (child (place g row col opponent_symbol) alpha beta k).1,
         min beta (child (place g row col opponent_symbol) alpha beta k).1,
         (child (place g row col opponent_symbol) alpha beta k).2.2)
    else rowMin child opponent_symbol alpha row cols (g, best_value, beta, k)

/-- Outer row loop of the minimizing branch. -/
def rowsMin (child : Gomoku → V → V → Nat → V × Gomoku × Nat) (opponent_symbol : Char)
    (alpha : V) (size : Nat) : List Nat → Gomoku × V × V × Nat → Gomoku × V × V × Nat
  | [], st => st
  | row :: rows, st =>
    rowsMin child opponent_symbol alpha size rows
      (rowMin child opponent_symbol alpha row (List.range size) st)

/-- `minimax` with alpha-beta pruning.  The terminal test mirrors the source's
short-circuit `depth == 0 or is_full() or time.time() - start_time > limit`:
the clock stream index `k` advances only when the time is actually read.
Returns the value, the final object state (board restored, node counter
advanced) and the next clock index. -/
def minimax : Nat → Gomoku → V → V → Bool → Char → Char → (Nat → ℚ) → Nat →
    V × Gomoku × Nat
  | 0, g, _, _, _, symbol, _, _, k => (toV (evaluate_board g symbol), g, k)
  | depth + 1, g, alpha, beta, maximizing_player, symbol, opponent_symbol, clk, k =>
    if is_full g then (toV (evaluate_board g symbol), g, k)
    else if clk k > g.ai_time_limit then (toV (evaluate_board g symbol), g, k + 1)
    else if maximizing_player then
      ((rowsMax (fun g' a b k' => minimax depth g' a b false symbol opponent_symbol clk k')
          symbol beta g.board_size (List.range g.board_size) (g, ⊥, alpha, k + 1)).2.1,
       (rowsMax (fun g' a b k' => minimax depth g' a b false symbol opponent_symbol clk k')
          symbol beta g.board_size (List.range g.board_size) (g, ⊥, alpha, k + 1)).1,
       (rowsMax (fun g' a b k' => minimax depth g' a b false symbol opponent_symbol clk k')
          symbol beta g.board_size (List.range g.board_size) (g, ⊥, alpha, k + 1)).2.2.2)
    else
      ((rowsMin (fun g' a b k' => minimax depth g' a b true symbol opponent_symbol clk k')
          opponent_symbol alpha g.board_size (List.range g.board_size) (g, ⊤, beta, k + 1)).2.1,
       (rowsMin (fun g' a b k' => minimax depth g' a b true symbol opponent_symbol clk k')
          opponent_symbol alpha g.board_size (List.range g.board_size) (g, ⊤, beta, k + 1)).1,
       (rowsMin (fun g' a b k' => minimax depth g' a b true symbol opponent_symbol clk k')
          opponent_symbol alpha g.board_size (List.range g.board_size) (g, ⊤, beta, k + 1)).2.2.2)

/-- One sweep of `iterative_deepening` at a given `depth`: for each valid
cell in row-major order, place, call `minimax(depth - 1, -inf, +inf, False)`,
retract, and keep the strictly best `(current_best_move, current_best_score)`. -/
def idSweep (symbol opponent_symbol : Char) (clk : Nat → ℚ) (depth : Nat) :
    List (Nat × Nat) → Gomoku → Nat → Option (Nat × Nat) → V →
      Gomoku × Nat × Option (Nat × Nat) × V
  | [], g, k, cur_move, cur_score => (g, k, cur_move, cur_score)
  | x :: xs, g, k, cur_move, cur_score =>
    if is_valid_move g x.1 x.2 then
      idSweep symbol opponent_symbol clk depth xs
        (retractOn (minimax (depth - 1) (place g x.1 x.2 symbol) ⊥ ⊤ false symbol
          opponent_symbol clk k).2.1 x.1 x.2)
        (minimax (depth - 1) (place g x.1 x.2 symbol) ⊥ ⊤ false symbol
          opponent_symbol clk k).2.2
        (if cur_score < (minimax (depth - 1) (place g x.1 x.2 symbol) ⊥ ⊤ false symbol
          opponent_symbol clk k).1 then some x else cur_move)
        (if cur_score < (minimax (depth - 1) (place g x.1 x.2 symbol) ⊥ ⊤ false symbol
          opponent_symbol clk k).1
         then (minimax (depth - 1) (place g x.1 x.2 symbol) ⊥ ⊤ false symbol
          opponent_symbol clk k).1 else cur_score)
    else idSweep symbol opponent_symbol clk depth xs g k cur_move cur_score

/-- The `while time.time() - start_time < ai_time_limit` loop of
`iterative_deepening`.  Each while test reads the clock (consuming one index);
`fuel` bounds the number of iterations, modelling that real time eventually
exceeds the limit.  A completed sweep commits its move whenever it found one
(`if current_best_move:`). -/
def idLoop (symbol opponent_symbol : Char) (clk : Nat → ℚ) :
    Nat → Gomoku → Nat → Nat → Option (Nat × Nat) → V →
      Option (Nat × Nat) × Gomoku × Nat
  | 0, g, k, _, best_move, _ => (best_move, g, k)
  | fuel + 1, g, k, depth, best_move, best_score =>
    if clk k < g.ai_time_limit then
      idLoop symbol opponent_symbol clk fuel
        (idSweep symbol opponent_symbol clk depth (rowMajor g.board_size) g (k + 1) none ⊥).1
        (idSweep symbol opponent_symbol clk depth (rowMajor g.board_size) g (k + 1) none ⊥).2.1
        (depth + 1)
        (if (idSweep symbol opponent_symbol clk depth (rowMajor g.board_size) g
              (k + 1) none ⊥).2.2.1.isSome
         then (idSweep symbol opponent_symbol clk depth (rowMajor g.board_size) g
              (k + 1) none ⊥).2.2.1 else best_move)
        (if (idSweep symbol opponent_symbol clk depth (rowMajor g.board_size) g
              (k + 1) none ⊥).2.2.1.isSome
         then (idSweep symbol opponent_symbol clk depth (rowMajor g.board_size) g
              (k + 1) none ⊥).2.2.2 else best_score)
    else (best_move, g, k + 1)

/-- `iterative_deepening`: start the clock, then run depth-increasing sweeps
while the elapsed time stays below the limit; return the committed best move
(with the final object state and clock index). -/
def iterative_deepening (g : Gomoku) (symbol opponent_symbol : Char) (clk : Nat → ℚ)
    (fuel : Nat) : Option (Nat × Nat) × Gomoku × Nat :=
  idLoop symbol opponent_symbol clk fuel g 0 1 none ⊥

/-- A player: a mark plus an optional AI strategy tag. -/
structure Player where
  symbol : Char
  ai_type : Option String

/-- The valid moves list built by `random_ai`. -/
def valid_moves_list (g : Gomoku) : List (Nat × Nat) :=
  (rowMajor g.board_size).filter fun x => is_valid_move g x.1 x.2

/-- `random_ai`, with `random.choice` modelled by the oracle `pick`. -/
def random_ai (g : Gomoku) (pick : List (Nat × Nat) → Option (Nat × Nat)) :
    Option (Nat × Nat) :=
  if valid_moves_list g ≠ [] then pick (valid_moves_list g) else none

/-- `get_ai_move`: dispatch on the player's AI type.  Note that `worst_ai`
receives the opponent's symbol while the others receive the player's own.
`pick` models `random.choice`; `clk`, `fuel` parameterise the expert search. -/
def get_ai_move (g : Gomoku) (player opponent : Player)
    (pick : List (Nat × Nat) → Option (Nat × Nat)) (clk : Nat → ℚ) (fuel : Nat) :
    Option (Nat × Nat) × Gomoku :=
  if player.ai_type = some "random" then (random_ai g pick, g)
  else if player.ai_type = some "greedy" then
    ((greedy_ai g player.symbol).2, (greedy_ai g player.symbol).1)
  else if player.ai_type = some "worst" then
    ((worst_ai g opponent.symbol).2, (worst_ai g opponent.symbol).1)
  else if player.ai_type = some "expert" then
    ((iterative_deepening g player.symbol opponent.symbol clk fuel).1,
     (iterative_deepening g player.symbol opponent.symbol clk fuel).2.1)
  else (none, g)

/-- Configuration and board agree (only `nodes_expanded` may differ). -/
def cfgbEq (g g' : Gomoku) : Prop :=
  g'.board_size = g.board_size ∧ g'.win_length = g.win_length ∧
  g'.ai_time_limit = g.ai_time_limit ∧ g'.board = g.board

/-- Instrumented column scan (maximizing): the source scan extended with two
ghost observers, `visited` (cells on which a speculative place was performed)
and `cuts` (cells at which the `beta ≤ alpha` break fired).  The child result
tuple is `(value, state, clock index, visited, cuts)`. -/
def rowMaxI (child : Gomoku → V → V → Nat → Nat → Nat → V × Gomoku × Nat × Nat × Nat)
    (symbol : Char) (beta : V) (row : Nat) :
    List Nat → Gomoku × V × V × Nat × Nat × Nat → Gomoku × V × V × Nat × Nat × Nat
  | [], st => st
  | col :: cols, (g, best_value, alpha, k, vis, cuts) =>
    if is_valid_move g row col then
      if beta ≤ max alpha (child (place g row col symbol) alpha beta k (vis + 1) cuts).1 then
        (retractOn (child (place g row col symbol) alpha beta k (vis + 1) cuts).2.1 row col,
         max best_value (child (place g row col symbol) alpha beta k (vis + 1) cuts).1,
         max alpha (child (place g row col symbol) alpha beta k (vis + 1) cuts).1,
         (child (place g row col symbol) alpha beta k (vis + 1) cuts).2.2.1,
         (child (place g row col symbol) alpha beta k (vis + 1) cuts).2.2.2.1,
         (child (place g row col symbol) alpha beta k (vis + 1) cuts).2.2.2.2 + 1)
      else rowMaxI child symbol beta row cols
        ({ retractOn (child (place g row col symbol) alpha beta k (vis + 1) cuts).2.1 row col with
            nodes_expanded :=
              (retractOn (child (place g row col symbol) alpha beta k (vis + 1) cuts).2.1
                row col).nodes_expanded + 1 },
         max best_value (child (place g row col symbol) alpha beta k (vis + 1) cuts).1,
         max alpha (child (place g row col symbol) alpha beta k (vis + 1) cuts).1,
         (child (place g row col symbol) alpha beta k (vis + 1) cuts).2.2.1,
         (child (place g row col symbol) alpha beta k (vis + 1) cuts).2.2.2.1,
         (child (place g row col symbol) alpha beta k (vis + 1) cuts).2.2.2.2)
    else rowMaxI child symbol beta row cols (g, best_value, alpha, k, vis, cuts)

def rowsMaxI (child : Gomoku → V → V → Nat → Nat → Nat → V × Gomoku × Nat × Nat × Nat)
    (symbol : Char) (beta : V) (size : Nat) :
    List Nat → Gomoku × V × V × Nat × Nat × Nat → Gomoku × V × V × Nat × Nat × Nat
  | [], st => st
  | row :: rows, st =>
    rowsMaxI child symbol beta size rows (rowMaxI child symbol beta row (List.range size) st)

/-- Instrumented column scan (minimizing). -/
def rowMinI (child : Gomoku → V → V → Nat → Nat → Nat → V × Gomoku × Nat × Nat × Nat)
    (opponent_symbol : Char) (alpha : V) (row : Nat) :
    List Nat → Gomoku × V × V × Nat × Nat × Nat → Gomoku × V × V × Nat × Nat × Nat
  | [], st => st
  | col :: cols, (g, best_value, beta, k, vis, cuts) =>
    if is_valid_move g row col then
      if min beta (child (place g row col opponent_symbol) alpha beta k (vis + 1) cuts).1
          ≤ alpha then
        (retractOn (child (place g row col opponent_symbol) alpha beta k
            (vis + 1) cuts).2.1 row col,
         min best_value (child (place g row col opponent_symbol) alpha beta k (vis + 1) cuts).1,
         min beta (child (place g row col opponent_symbol) alpha beta k (vis + 1) cuts).1,
         (child (place g row col opponent_symbol) alpha beta k (vis + 1) cuts).2.2.1,
         (child (place g row col opponent_symbol) alpha beta k (vis + 1) cuts).2.2.2.1,
         (child (place g row col opponent_symbol) alpha beta k (vis + 1) cuts).2.2.2.2 + 1)
      else rowMinI child opponent_symbol alpha row cols
        ({ retractOn (child (place g row col opponent_symbol) alpha beta k
              (vis + 1) cuts).2.1 row col with
            nodes_expanded :=
              (retractOn (child (place g row col opponent_symbol) alpha beta k
                (vis + 1) cuts).2.1 row col).nodes_expanded + 1 },
         min best_value (child (place g row col opponent_symbol) alpha beta k (vis + 1) cuts).1,
         min beta (child (place g row col opponent_symbol) alpha beta k (vis + 1) cuts).1,
         (child (place g row col opponent_symbol) alpha beta k (vis + 1) cuts).2.2.1,
         (child (place g row col opponent_symbol) alpha beta k (vis + 1) cuts).2.2.2.1,
         (child (place g row col opponent_symbol) alpha beta k (vis + 1) cuts).2.2.2.2)
    else rowMinI child opponent_symbol alpha row cols (g, best_value, beta, k, vis, cuts)

def rowsMinI (child : Gomoku → V → V → Nat → Nat → Nat → V × Gomoku × Nat × Nat × Nat)
    (opponent_symbol : Char) (alpha : V) (size : Nat) :
    List Nat → Gomoku × V × V × Nat × Nat × Nat → Gomoku × V × V × Nat × Nat × Nat
  | [], st => st
  | row :: rows, st =>
    rowsMinI child opponent_symbol alpha size rows
      (rowMinI child opponent_symbol alpha row (List.range size) st)

/-- `minimax` with the two ghost observers threaded through; identical to the
source otherwise (agreement is proved in `minimaxI_agree`). -/
def minimaxI : Nat → Gomoku → V → V → Bool → Char → Char → (Nat → ℚ) → Nat → Nat → Nat →
    V × Gomoku × Nat × Nat × Nat
  | 0, g, _, _, _, symbol, _, _, k, vis, cuts => (toV (evaluate_board g symbol), g, k, vis, cuts)
  | depth + 1, g, alpha, beta, maximizing_player, symbol, opponent_symbol, clk, k, vis, cuts =>
    if is_full g then (toV (evaluate_board g symbol), g, k, vis, cuts)
    else if clk k > g.ai_time_limit then (toV (evaluate_board g symbol), g, k + 1, vis, cuts)
    else if maximizing_player then
      ((rowsMaxI (fun g' a b k' v c => minimaxI depth g' a b false symbol opponent_symbol clk k' v c)
          symbol beta g.board_size (List.range g.board_size) (g, ⊥, alpha, k + 1, vis, cuts)).2.1,
       (rowsMaxI (fun g' a b k' v c => minimaxI depth g' a b false symbol opponent_symbol clk k' v c)
          symbol beta g.board_size (List.range g.board_size) (g, ⊥, alpha, k + 1, vis, cuts)).1,
       (rowsMaxI (fun g' a b k' v c => minimaxI depth g' a b false symbol opponent_symbol clk k' v c)
          symbol beta g.board_size (List.range g.board_size) (g, ⊥, alpha, k + 1, vis, cuts)).2.2.2)
    else
      ((rowsMinI (fun g' a b k' v c => minimaxI depth g' a b true symbol opponent_symbol clk k' v c)
          opponent_symbol alpha g.board_size (List.range g.board_size)
          (g, ⊤, beta, k + 1, vis, cuts)).2.1,
       (rowsMinI (fun g' a b k' v c => minimaxI depth g' a b true symbol opponent_symbol clk k' v c)
          opponent_symbol alpha g.board_size (List.range g.board_size)
          (g, ⊤, beta, k + 1, vis, cuts)).1,
       (rowsMinI (fun g' a b k' v c => minimaxI depth g' a b true symbol opponent_symbol clk k' v c)
          opponent_symbol alpha g.board_size (List.range g.board_size)
          (g, ⊤, beta, k + 1, vis, cuts)).2.2.2)

/-- A bare game state wrapping a board with a given configuration (time limit
and node counter irrelevant to pure search values). -/
def G0 (size L : Nat) (b : Board) : Gomoku := ⟨size, L, 0, b, 0⟩

/-- Well-formedness of a bare board. -/
def WFb (size : Nat) (b : Board) : Prop :=
  b.length = size ∧ ∀ row ∈ b, row.length = size

section PureSearch

variable (size L : Nat) (symbol opponent_symbol : Char)

/-- Pure column scan of a maximizing alpha-beta node (the value/window part
of `rowMax`, with the board fixed since children restore it). -/
def abRowMax (child : Board → V → V → V) (b : Board) (row : Nat) (beta : V) :
    List Nat → V → V → V × V
  | [], best, alpha => (best, alpha)
  | col :: cols, best, alpha =>
    if is_valid_move (G0 size L b) row col then
      if beta ≤ max alpha (child (setCell b row col symbol) alpha beta) then
        (max best (child (setCell b row col symbol) alpha beta),
         max alpha (child (setCell b row col symbol) alpha beta))
      else abRowMax child b row beta cols
        (max best (child (setCell b row col symbol) alpha beta))
        (max alpha (child (setCell b row col symbol) alpha beta))
    else abRowMax child b row beta cols best alpha

def abRowsMax (child : Board → V → V → V) (b : Board) (beta : V) :
    List Nat → V × V → V × V
  | [], st => st
  | row :: rows, st =>
    abRowsMax child b beta rows (abRowMax size L symbol child b row beta (List.range size) st.1 st.2)

/-- Pure column scan of a minimizing alpha-beta node. -/
def abRowMin (child : Board → V → V → V) (b : Board) (row : Nat) (alpha : V) :
    List Nat → V → V → V × V
  | [], best, beta => (best, beta)
  | col :: cols, best, beta =>
    if is_valid_move (G0 size L b) row col then
      if min beta (child (setCell b row col opponent_symbol) alpha beta) ≤ alpha then
        (min best (child (setCell b row col opponent_symbol) alpha beta),
         min beta (child (setCell b row col opponent_symbol) alpha beta))
      else abRowMin child b row alpha cols
        (min best (child (setCell b row col opponent_symbol) alpha beta))
        (min beta (child (setCell b row col opponent_symbol) alpha beta))
    else abRowMin child b row alpha cols best beta

def abRowsMin (child : Board → V → V → V) (b : Board) (alpha : V) :
    List Nat → V × V → V × V
  | [], st => st
  | row :: rows, st =>
    abRowsMin child b alpha rows
      (abRowMin size L opponent_symbol child b row alpha (List.range size) st.1 st.2)

/-- The pure value of the source's pruned minimax (clock never expired,
node counter and board threading erased). -/
def abm : Nat → Board → V → V → Bool → V
  | 0, b, _, _, _ => toV (evaluate_board (G0 size L b) symbol)
  | d + 1, b, alpha, beta, maxi =>
    if is_full (G0 size L b) then toV (evaluate_board (G0 size L b) symbol)
    else if maxi then
      (abRowsMax size L symbol (fun b' a bb => abm d b' a bb false) b beta
        (List.range size) (⊥, alpha)).1
    else
      (abRowsMin size L opponent_symbol (fun b' a bb => abm d b' a bb true) b alpha
        (List.range size) (⊤, beta)).1

/-- Unpruned spec-side scans: plain max/min folds over valid cells. -/
def mmRowMax (child : Board → V) (b : Board) (row : Nat) : List Nat → V → V
  | [], acc => acc
  | col :: cols, acc =>
    if is_valid_move (G0 size L b) row col then
      mmRowMax child b row cols (max acc (child (setCell b row col symbol)))
    else mmRowMax child b row cols acc

def mmRowsMax (child : Board → V) (b : Board) : List Nat → V → V
  | [], acc => acc
  | row :: rows, acc =>
    mmRowsMax child b rows (mmRowMax size L symbol child b row (List.range size) acc)

def mmRowMin (child : Board → V) (b : Board) (row : Nat) : List Nat → V → V
  | [], acc => acc
  | col :: cols, acc =>
    if is_valid_move (G0 size L b) row col then
      mmRowMin child b row cols (min acc (child (setCell b row col opponent_symbol)))
    else mmRowMin child b row cols acc

def mmRowsMin (child : Board → V) (b : Board) : List Nat → V → V
  | [], acc => acc
  | row :: rows, acc =>
    mmRowsMin child b rows (mmRowMin size L opponent_symbol child b row (List.range size) acc)

/-- The unpruned minimax value of the specification: at a maximizing node the
maximum of the child values over all valid cells (in row-major order), at a
minimizing node the minimum, with the same terminal evaluation. -/
def mm : Nat → Board → Bool → V
  | 0, b, _ => toV (evaluate_board (G0 size L b) symbol)
  | d + 1, b, maxi =>
    if is_full (G0 size L b) then toV (evaluate_board (G0 size L b) symbol)
    else if maxi then mmRowsMax size L symbol (fun b' => mm d b' false) b (List.range size) ⊥
    else mmRowsMin size L opponent_symbol (fun b' => mm d b' true) b (List.range size) ⊤

end PureSearch

section SelFold

variable {α : Type} (valid : α → Bool) (f : α → V)

/-- The root sweep selection fold: keep the strictly better score, so the
first encountered maximiser wins ties.  Used as the spec-side comparator for
the unpruned root sweep. -/
def selFold : List α → Option α → V → Option α × V
  | [], cur, sc => (cur, sc)
  | x :: xs, cur, sc =>
    if valid x then
      selFold xs (if sc < f x then some x else cur) (if sc < f x then f x else sc)
    else selFold xs cur sc

end SelFold

/-- The value the spec's UNPRUNED minimax of the same depth assigns to a root
sweep cell: place `symbol` at the cell and take the unpruned minimizing value
at depth `depth - 1` (exactly the recursion the sweep performs, without
pruning). -/
def rootVal (size L : Nat) (symbol opponent_symbol : Char) (depth : Nat) (b : Board)
    (x : Nat × Nat) : V :=
  mm size L symbol opponent_symbol (depth - 1) (setCell b x.1 x.2 symbol) false

section ListLemmas

variable {α : Type} (d : α)

theorem getD_eq_default_of_len_le : ∀ (l : List α) (i : Nat), l.length ≤ i → l.getD i d = d
  | [], _, _ => rfl
  | _ :: l, i + 1, h => getD_eq_default_of_len_le l i (Nat.le_of_succ_le_succ h)

theorem lt_length_of_getD_ne (l : List α) (i : Nat) (h : l.getD i d ≠ d) : i < l.length := by
  by_contra hlt
  exact h (getD_eq_default_of_len_le d l i (Nat.le_of_not_lt hlt))

theorem set_of_len_le : ∀ (l : List α) (i : Nat) (a : α), l.length ≤ i → l.set i a = l
  | [], _, _, _ => rfl
  | _ :: _, 0, _, h => absurd h (Nat.not_succ_le_zero _)
  | x :: l, i + 1, a, h => by
    simp only [List.set]
    rw [set_of_len_le l i a (Nat.le_of_succ_le_succ h)]

theorem getD_set_self : ∀ (l : List α) (i : Nat) (a : α), i < l.length →
    (l.set i a).getD i d = a
  | _ :: _, 0, _, _ => rfl
  | _ :: l, i + 1, a, h => getD_set_self l i a (Nat.lt_of_succ_lt_succ h)

theorem getD_set_ne : ∀ (l : List α) (i j : Nat) (a : α), i ≠ j →
    (l.set i a).getD j d = l.getD j d
  | [], _, _, _, _ => rfl
  | _ :: _, 0, 0, _, h => absurd rfl h
  | _ :: _, 0, _ + 1, _, _ => rfl
  | _ :: _, _ + 1, 0, _, _ => rfl
  | _ :: l, i + 1, j + 1, a, h =>
    getD_set_ne l i j a (fun e => h (congrArg Nat.succ e))

theorem set_set_same : ∀ (l : List α) (i : Nat) (a b : α), (l.set i a).set i b = l.set i b
  | [], _, _, _ => rfl
  | _ :: _, 0, _, _ => rfl
  | x :: l, i + 1, a, b => by
    simp only [List.set]
    rw [set_set_same l i a b]

theorem set_getD_self : ∀ (l : List α) (i : Nat), i < l.length → l.set i (l.getD i d) = l
  | _ :: _, 0, _ => rfl
  | x :: l, i + 1, h => by
    show x :: l.set i ((x :: l).getD (i + 1) d) = x :: l
    have h2 : (x :: l).getD (i + 1) d = l.getD i d := rfl
    rw [h2, set_getD_self l i (Nat.lt_of_succ_lt_succ h)]

end ListLemmas

/-- Undoing a write: if the cell held `ch` before, writing anything there and
then writing `ch` back restores the board exactly. -/
theorem setCell_setCell_cancel (b : Board) (r c : Nat) (x ch : Char)
    (h : getCell b r c = ch) : setCell (setCell b r c x) r c ch = b := by
  unfold getCell at h
  unfold setCell
  by_cases hr : r < b.length
  · have hrow : (b.set r ((b.getD r []).set c x)).getD r [] = (b.getD r []).set c x :=
      getD_set_self _ b r _ hr
    rw [hrow, set_set_same, set_set_same]
    by_cases hc : c < (b.getD r []).length
    · rw [← h, set_getD_self _ _ _ hc, set_getD_self _ _ _ hr]
    · rw [set_of_len_le _ _ _ (Nat.le_of_not_lt hc), set_getD_self _ _ _ hr]
  · have hb : ∀ (row : List Char), b.set r row = b :=
      fun row => set_of_len_le b r row (Nat.le_of_not_lt hr)
    simp only [hb]

/-- Reading back a freshly written in-range cell gives the written value. -/
theorem getCell_setCell_self (b : Board) (r c : Nat) (ch : Char)
    (hr : r < b.length) (hc : c < (b.getD r []).length) :
    getCell (setCell b r c ch) r c = ch := by
  unfold getCell setCell
  rw [getD_set_self _ b r _ hr, getD_set_self _ _ c _ hc]

/-- Writing one cell leaves every other cell unchanged. -/
theorem getCell_setCell_ne (b : Board) (r c r' c' : Nat) (ch : Char)
    (h : r' ≠ r ∨ c' ≠ c) : getCell (setCell b r c ch) r' c' = getCell b r' c' := by
  unfold getCell setCell
  by_cases hrr : r' = r
  · subst hrr
    have hcc : c' ≠ c := h.resolve_left (fun hne => hne rfl)
    by_cases hr : r' < b.length
    · rw [getD_set_self _ b r' _ hr, getD_set_ne _ _ c c' ch (fun e => hcc e.symm)]
    · rw [set_of_len_le b r' _ (Nat.le_of_not_lt hr)]
  · rw [getD_set_ne _ b r r' _ (fun e => hrr e.symm)]

/-- A valid move addresses a cell that physically exists in the list-of-lists
representation (since an out-of-range read never yields `'.'`). -/
theorem valid_in_list_range (g : Gomoku) (row col : ℤ)
    (h : is_valid_move g row col = true) :
    getCell g.board row.toNat col.toNat = '.' ∧
    row.toNat < g.board.length ∧ col.toNat < (g.board.getD row.toNat []).length := by
  unfold is_valid_move at h
  simp only [Bool.and_eq_true, beq_iff_eq, decide_eq_true_eq] at h
  refine ⟨h.2, ?_, ?_⟩
  · refine lt_length_of_getD_ne [] g.board row.toNat ?_
    intro he
    unfold getCell at h
    rw [he] at h
    simp at h
  · refine lt_length_of_getD_ne '?' _ col.toNat ?_
    intro he
    unfold getCell at h
    rw [he] at h
    simp at h

/-- C8: `is_valid_move(row, col)` is true iff `(row, col)` is in bounds and
the cell is empty, for arbitrary integer coordinates; `make_move` places the
symbol (visibly, leaving all other cells unchanged) and returns `true`
exactly when `is_valid_move` holds, and otherwise returns `false` leaving
the whole state unchanged. -/
theorem C8_valid_move_and_make_move (g : Gomoku) (symbol : Char) (row col : ℤ) :
    ((make_move g symbol row col).2 = is_valid_move g row col) ∧
    (is_valid_move g row col = true ↔
      0 ≤ row ∧ row < (g.board_size : ℤ) ∧ 0 ≤ col ∧ col < (g.board_size : ℤ) ∧
      getCell g.board row.toNat col.toNat = '.') ∧
    (is_valid_move g row col = true →
      (make_move g symbol row col).1.board = setCell g.board row.toNat col.toNat symbol ∧
      getCell (make_move g symbol row col).1.board row.toNat col.toNat = symbol ∧
      ∀ r' c' : Nat, (r' ≠ row.toNat ∨ c' ≠ col.toNat) →
        getCell (make_move g symbol row col).1.board r' c' = getCell g.board r' c') ∧
    (is_valid_move g row col = false → (make_move g symbol row col).1 = g) := by
  refine ⟨?_, ?_, ?_, ?_⟩
  · unfold make_move
    by_cases h : is_valid_move g row col = true
    · rw [if_pos h, h]
    · rw [if_neg h, Bool.eq_false_iff.mpr h]
  · unfold is_valid_move
    simp only [Bool.and_eq_true, decide_eq_true_eq, beq_iff_eq]
    tauto
  · intro h
    obtain ⟨hdot, hr, hc⟩ := valid_in_list_range g row col h
    have hb : (make_move g symbol row col).1.board =
        setCell g.board row.toNat col.toNat symbol := by
      unfold make_move
      rw [if_pos h]
    refine ⟨hb, ?_, ?_⟩
    · rw [hb]
      exact getCell_setCell_self g.board _ _ symbol hr hc
    · intro r' c' hne
      rw [hb]
      exact getCell_setCell_ne g.board _ _ r' c' symbol
        (by rcases hne with h1 | h1
            · exact Or.inl h1
            · exact Or.inr h1)
  · intro h
    unfold make_move
    rw [if_neg (by rw [h]; exact Bool.false_ne_true)]

/-- C8 witness at a concrete input. -/
theorem C8_valid_move_and_make_move_witness :
    is_valid_move gW (-1) 0 = false ∧
    getCell (make_move gW 'X' 0 0).1.board 0 0 = 'X' := by
  constructor
  · decide
  · exact ((C8_valid_move_and_make_move gW 'X' 0 0).2.2.1 (by decide)).2.1

/-- C9: a successful `place` (`make_move`) followed by the source's retract
(`self.board[row][col] = '.'`) at the same cell restores the board exactly. -/
theorem C9_place_retract_roundtrip (g : Gomoku) (symbol : Char) (row col : ℤ)
    (h : (make_move g symbol row col).2 = true) :
    setCell (make_move g symbol row col).1.board row.toNat col.toNat '.' = g.board := by
  have hv : is_valid_move g row col = true := by
    by_contra hv
    unfold make_move at h
    rw [if_neg hv] at h
    exact Bool.false_ne_true h
  have hdot := (valid_in_list_range g row col hv).1
  unfold make_move
  rw [if_pos hv]
  exact setCell_setCell_cancel g.board _ _ symbol '.' hdot

/-- C9 witness at a concrete input. -/
theorem C9_place_retract_roundtrip_witness :
    (make_move gW 'X' 0 1).2 = true ∧
    setCell (make_move gW 'X' 0 1).1.board 0 1 '.' = gW.board :=
  ⟨by decide, C9_place_retract_roundtrip gW 'X' 0 1 (by decide)⟩

theorem countRun_eq_iff (g : Gomoku) (symbol : Char) (dr dc : ℤ) :
    ∀ (L : Nat) (r c : ℤ),
      (countRun g symbol L r c dr dc = L ↔ runFrom g symbol L r c dr dc)
  | 0, r, c => by
    constructor
    · intro _ i hi
      exact absurd hi (Nat.not_lt_zero i)
    · intro _
      rfl
  | L + 1, r, c => by
    unfold countRun
    by_cases hQ : (decide (0 ≤ r) && decide (r < (g.board_size : ℤ)) &&
        decide (0 ≤ c) && decide (c < (g.board_size : ℤ)) &&
        (getCell g.board r.toNat c.toNat == symbol)) = true
    · rw [if_pos hQ]
      have h0 : cellIs g symbol r c := by
        simp only [Bool.and_eq_true, beq_iff_eq] at hQ
        exact ⟨by unfold inB; simp only [Bool.and_eq_true]; tauto, hQ.2⟩
      have IH := countRun_eq_iff g symbol dr dc L (r + dr) (c + dc)
      constructor
      · intro h
        have hL : countRun g symbol L (r + dr) (c + dc) dr dc = L :=
          Nat.succ_injective h
        intro i hi
        match i with
        | 0 => simpa using h0
        | j + 1 =>
          have := (IH.mp hL) j (Nat.lt_of_succ_lt_succ hi)
          have harith : ∀ a da : ℤ, a + da + da * j = a + da * ((j : ℤ) + 1) := by
            intro a da; ring
          simpa [Nat.cast_add, Nat.cast_one, harith] using this
      · intro h
        have hL : runFrom g symbol L (r + dr) (c + dc) dr dc := by
          intro j hj
          have := h (j + 1) (Nat.succ_lt_succ hj)
          have harith : ∀ a da : ℤ, a + da * ((j : ℤ) + 1) = a + da + da * j := by
            intro a da; ring
          simpa [Nat.cast_add, Nat.cast_one, harith] using this
        rw [IH.mpr hL]
    · rw [if_neg hQ]
      constructor
      · intro h; exact absurd h.symm (Nat.succ_ne_zero L)
      · intro h
        exfalso
        have h0 := h 0 (Nat.succ_pos L)
        simp only [Nat.cast_zero, mul_zero, add_zero] at h0
        apply hQ
        obtain ⟨hb, hcell⟩ := h0
        unfold inB at hb
        simp only [Bool.and_eq_true] at hb ⊢
        exact ⟨⟨⟨⟨hb.1.1.1, hb.1.1.2⟩, hb.1.2⟩, hb.2⟩, beq_iff_eq.mpr hcell⟩

theorem check_direction_iff (g : Gomoku) (symbol : Char) (r c dr dc : ℤ) :
    check_direction g r c dr dc symbol = true ↔
      runFrom g symbol g.win_length r c dr dc := by
  unfold check_direction
  rw [beq_iff_eq]
  exact countRun_eq_iff g symbol dr dc g.win_length r c

/-- Reversing a run: a forward run with step `(dr, dc)` read backwards from
its last cell is a forward run with step `(-dr, -dc)`. -/
theorem runFrom_reverse (g : Gomoku) (symbol : Char) (L : Nat) (r c dr dc : ℤ)
    (h : runFrom g symbol L r c dr dc) :
    runFrom g symbol L (r + dr * ((L : ℤ) - 1)) (c + dc * ((L : ℤ) - 1)) (-dr) (-dc) := by
  intro i hi
  have h1 : (L : ℤ) - 1 - (i : ℤ) = ((L - 1 - i : Nat) : ℤ) := by
    have hL : 1 ≤ L := Nat.one_le_iff_ne_zero.mpr (by rintro rfl; exact Nat.not_lt_zero i hi)
    have hiL : i ≤ L - 1 := Nat.le_sub_one_of_lt hi
    push_cast [Nat.cast_sub hiL, Nat.cast_sub hL]
    ring
  have h2 := h (L - 1 - i) (by omega)
  have e1 : r + dr * ((L : ℤ) - 1) + -dr * (i : ℤ) = r + dr * ((L : ℤ) - 1 - (i : ℤ)) := by ring
  have e2 : c + dc * ((L : ℤ) - 1) + -dc * (i : ℤ) = c + dc * ((L : ℤ) - 1 - (i : ℤ)) := by ring
  rw [e1, e2, h1]
  exact h2

/-- Package a run into the existential with natural-number origin, given the
origin is a board cell. -/
theorem origin_bounds (g : Gomoku) (symbol : Char) (L : Nat) (hL : 0 < L)
    (r c dr dc : ℤ) (h : runFrom g symbol L r c dr dc) :
    ∃ rn cn : Nat, rn < g.board_size ∧ cn < g.board_size ∧
      (rn : ℤ) = r ∧ (cn : ℤ) = c := by
  have h0 := h 0 hL
  simp only [Nat.cast_zero, mul_zero, add_zero] at h0
  obtain ⟨hb, _⟩ := h0
  unfold inB at hb
  simp only [Bool.and_eq_true, decide_eq_true_eq] at hb
  obtain ⟨⟨⟨hr0, hrs⟩, hc0⟩, hcs⟩ := hb
  refine ⟨r.toNat, c.toNat, ?_, ?_, Int.toNat_of_nonneg hr0, Int.toNat_of_nonneg hc0⟩
  · omega
  · omega

/-- C5: `check_win(symbol)` is true iff some board cell starts a forward run
of `win_length` consecutive `symbol` cells along one of the four directions
right, down, down-right, up-right.  The source scans step `(1, -1)` instead
of up-right `(-1, 1)`; the two describe the same lines read from opposite
ends, which the proof mediates by reversing runs. -/
theorem C5_check_win_iff_run (g : Gomoku) (symbol : Char) :
    check_win g symbol = true ↔ specHasWin g symbol := by
  have hspec : ∀ r c : Nat, r < g.board_size → c < g.board_size →
      ∀ d ∈ specDirs, runFrom g symbol g.win_length r c d.1 d.2 →
      specHasWin g symbol := fun r c hr hc d hd hrun => ⟨r, c, hr, hc, d, hd, hrun⟩
  unfold check_win
  simp only [List.any_eq_true, List.mem_range, Bool.or_eq_true]
  constructor
  · rintro ⟨r, hr, c, hc, hcase⟩
    rcases hcase with ((h1 | h2) | h3) | h4
    · exact hspec r c hr hc (1, 0) (by simp [specDirs])
        ((check_direction_iff g symbol r c 1 0).mp h1)
    · exact hspec r c hr hc (0, 1) (by simp [specDirs])
        ((check_direction_iff g symbol r c 0 1).mp h2)
    · exact hspec r c hr hc (1, 1) (by simp [specDirs])
        ((check_direction_iff g symbol r c 1 1).mp h3)
    · -- source direction (1, -1): reverse the run into spec direction (-1, 1)
      have hrun := (check_direction_iff g symbol r c 1 (-1)).mp h4
      rcases Nat.eq_zero_or_pos g.win_length with hL | hL
      · exact ⟨r, c, hr, hc, (0, 1), by simp [specDirs],
          fun i hi => absurd hi (by rw [hL]; exact Nat.not_lt_zero i)⟩
      · have hrev := runFrom_reverse g symbol g.win_length r c 1 (-1) hrun
        obtain ⟨rn, cn, hrn, hcn, her, hec⟩ :=
          origin_bounds g symbol g.win_length hL _ _ (-1) (1 : ℤ) (by
            have e : -(-1 : ℤ) = 1 := by norm_num
            simpa [e] using hrev)
        refine hspec rn cn hrn hcn (-1, 1) (by simp [specDirs]) ?_
        rw [show ((-1 : ℤ), (1 : ℤ)).1 = -1 from rfl, show ((-1 : ℤ), (1 : ℤ)).2 = 1 from rfl,
          her, hec]
        simpa using hrev
  · rintro ⟨r, c, hr, hc, d, hd, hrun⟩
    simp only [specDirs, List.mem_cons, List.not_mem_nil, or_false] at hd
    rcases hd with rfl | rfl | rfl | rfl
    · exact ⟨r, hr, c, hc, Or.inl (Or.inl (Or.inr
        ((check_direction_iff g symbol r c 0 1).mpr hrun)))⟩
    · exact ⟨r, hr, c, hc, Or.inl (Or.inl (Or.inl
        ((check_direction_iff g symbol r c 1 0).mpr hrun)))⟩
    · exact ⟨r, hr, c, hc, Or.inl (Or.inr
        ((check_direction_iff g symbol r c 1 1).mpr hrun))⟩
    · -- spec direction (-1, 1): reverse into the source's (1, -1)
      rcases Nat.eq_zero_or_pos g.win_length with hL | hL
      · refine ⟨r, hr, c, hc, Or.inl (Or.inl (Or.inr
          ((check_direction_iff g symbol r c 0 1).mpr ?_)))⟩
        intro i hi
        exact absurd hi (by rw [hL]; exact Nat.not_lt_zero i)
      · have hrev := runFrom_reverse g symbol g.win_length r c (-1) 1 hrun
        obtain ⟨rn, cn, hrn, hcn, her, hec⟩ :=
          origin_bounds g symbol g.win_length hL _ _ (1 : ℤ) (-1 : ℤ) (by
            have e : -(1 : ℤ) = -1 := by norm_num
            simpa [e] using hrev)
        refine ⟨rn, hrn, cn, hcn, Or.inr ((check_direction_iff g symbol rn cn 1 (-1)).mpr ?_)⟩
        rw [her, hec]
        simpa using hrev

/-- C5 witness: a concrete diagonal win recognised through the theorem. -/
theorem C5_check_win_iff_run_witness :
    check_win ⟨2, 2, 1, [['X', '.'], ['.', 'X']], 0⟩ 'X' = true :=
  (C5_check_win_iff_run ⟨2, 2, 1, [['X', '.'], ['.', 'X']], 0⟩ 'X').mpr
    ⟨0, 0, by decide, by decide, (1, 1), by simp [specDirs], by
      intro i hi
      interval_cases i <;> exact ⟨by decide, by decide⟩⟩

section SumBridges

variable {M : Type} [AddCommMonoid M]

theorem sum_map_range (f : Nat → M) : ∀ n : Nat,
    ((List.range n).map f).sum = ∑ i in Finset.range n, f i
  | 0 => by simp
  | n + 1 => by
    rw [List.range_succ, List.map_append, List.sum_append, Finset.sum_range_succ,
      sum_map_range f n]
    simp

theorem windowOffsets_map_sum (L : Nat) (f : ℤ → M) :
    ((windowOffsets L).map f).sum =
      ∑ j in Finset.Icc (-(L : ℤ) + 1) ((L : ℤ) - 1), f j := by
  unfold windowOffsets
  rw [List.map_map, sum_map_range]
  rcases Nat.eq_zero_or_pos L with rfl | hL
  · rw [Finset.Icc_eq_empty (by norm_num)]
    simp
  · refine Finset.sum_nbij' (fun i => (i : ℤ) - ((L : ℤ) - 1))
      (fun j => (j + ((L : ℤ) - 1)).toNat) ?_ ?_ ?_ ?_ ?_
    · intro a ha
      simp only [Finset.mem_range] at ha
      simp only [Finset.mem_Icc]
      omega
    · intro b hb
      simp only [Finset.mem_Icc] at hb
      simp only [Finset.mem_range]
      omega
    · intro a ha
      simp only [Finset.mem_range] at ha
      show ((((a : ℤ) - ((L : ℤ) - 1)) + ((L : ℤ) - 1)).toNat) = a
      omega
    · intro b hb
      simp only [Finset.mem_Icc] at hb
      show (((b + ((L : ℤ) - 1)).toNat : ℤ)) - ((L : ℤ) - 1) = b
      omega
    · intro a _
      simp [Function.comp]

theorem sum_Icc_neg_arg (k : ℤ) (f : ℤ → M) :
    ∑ j in Finset.Icc (-k) k, f (-j) = ∑ j in Finset.Icc (-k) k, f j := by
  refine Finset.sum_nbij' (fun j => -j) (fun j => -j) ?_ ?_ ?_ ?_ ?_
  · intro a ha
    simp only [Finset.mem_Icc] at ha ⊢
    omega
  · intro b hb
    simp only [Finset.mem_Icc] at hb ⊢
    omega
  · intro a _
    simp
  · intro b _
    simp
  · intro a _
    rfl

end SumBridges

theorem cell_indicator_eq (g : Gomoku) (symbol : Char) (r c : ℤ) :
    (if (inB g r c && (getCell g.board r.toNat c.toNat == symbol)) = true
      then (1 : ℕ) else 0) = (if cellIs g symbol r c then 1 else 0) := by
  refine if_congr ?_ rfl rfl
  unfold cellIs
  simp [Bool.and_eq_true, beq_iff_eq]

theorem cellOr_indicator_eq (g : Gomoku) (symbol : Char) (r c : ℤ) :
    (if (inB g r c && (getCell g.board r.toNat c.toNat == symbol ||
        getCell g.board r.toNat c.toNat == '.')) = true
      then (1 : ℕ) else 0) = (if cellIsOrEmpty g symbol r c then 1 else 0) := by
  refine if_congr ?_ rfl rfl
  unfold cellIsOrEmpty
  simp [Bool.and_eq_true, Bool.or_eq_true, beq_iff_eq]

theorem count_aligned_eq_spec (g : Gomoku) (symbol : Char) (r c : ℤ) :
    count_aligned g r c symbol = specAlign g symbol r c := by
  unfold count_aligned specAlign directions4 specAxes
  simp only [List.map_cons, List.map_nil, List.sum_cons, List.sum_nil]
  have hw : ∀ dr dc : ℤ,
      ((windowOffsets g.win_length).map fun i =>
        if (inB g (r + dr * i) (c + dc * i) &&
           (getCell g.board (r + dr * i).toNat (c + dc * i).toNat == symbol)) = true
        then (1 : ℕ) else 0).sum =
      ∑ j in specWindow g, if cellIs g symbol (r + dr * j) (c + dc * j) then 1 else 0 := by
    intro dr dc
    rw [windowOffsets_map_sum]
    unfold specWindow
    refine Finset.sum_congr rfl ?_
    intro j _
    exact cell_indicator_eq g symbol (r + dr * j) (c + dc * j)
  rw [hw 1 0, hw 0 1, hw 1 1, hw 1 (-1)]
  have hdiag :
      (∑ j in specWindow g, if cellIs g symbol (r + 1 * j) (c + (-1) * j) then (1 : ℕ) else 0) =
      ∑ j in specWindow g, if cellIs g symbol (r + (-1) * j) (c + 1 * j) then 1 else 0 := by
    unfold specWindow
    rcases Nat.eq_zero_or_pos g.win_length with hL | hL
    · rw [hL]
      norm_num
    · have hIcc : Finset.Icc (-(g.win_length : ℤ) + 1) ((g.win_length : ℤ) - 1) =
          Finset.Icc (-((g.win_length : ℤ) - 1)) ((g.win_length : ℤ) - 1) := by
        congr 1
        ring
      rw [hIcc]
      rw [← sum_Icc_neg_arg ((g.win_length : ℤ) - 1)
        (fun j => if cellIs g symbol (r + (-1) * j) (c + 1 * j) then (1 : ℕ) else 0)]
      refine Finset.sum_congr rfl ?_
      intro j _
      rw [show r + (-1) * -j = r + 1 * j from by ring, show c + 1 * -j = c + (-1) * j from by ring]
  rw [hdiag]
  omega

theorem count_adjacent_spaces_eq_spec (g : Gomoku) (r c : ℤ) :
    count_adjacent_spaces g r c = specEmptyNeighbors g r c := by
  unfold count_adjacent_spaces specEmptyNeighbors directions8 specNeighborOffsets
  simp only [List.map_cons, List.map_nil, List.sum_cons, List.sum_nil]
  simp only [cell_indicator_eq g '.']
  omega

theorem potential_extension_eq_spec (g : Gomoku) (symbol : Char) (r c : ℤ) :
    potential_extension g r c symbol = specExtension g symbol r c := by
  unfold potential_extension specExtension directions4 specAxes
  simp only [List.map_cons, List.map_nil, List.sum_cons, List.sum_nil]
  have hw : ∀ dr dc : ℤ,
      ((windowOffsets g.win_length).map fun i =>
        if (inB g (r + dr * i) (c + dc * i) &&
           (getCell g.board (r + dr * i).toNat (c + dc * i).toNat == symbol ||
            getCell g.board (r + dr * i).toNat (c + dc * i).toNat == '.')) = true
        then (1 : ℕ) else 0).sum =
      ∑ j in specWindow g, if cellIsOrEmpty g symbol (r + dr * j) (c + dc * j) then 1 else 0 := by
    intro dr dc
    rw [windowOffsets_map_sum]
    unfold specWindow
    refine Finset.sum_congr rfl ?_
    intro j _
    exact cellOr_indicator_eq g symbol (r + dr * j) (c + dc * j)
  rw [hw 1 0, hw 0 1, hw 1 1, hw 1 (-1)]
  have hdiag :
      (∑ j in specWindow g,
        if cellIsOrEmpty g symbol (r + 1 * j) (c + (-1) * j) then (1 : ℕ) else 0) =
      ∑ j in specWindow g, if cellIsOrEmpty g symbol (r + (-1) * j) (c + 1 * j) then 1 else 0 := by
    unfold specWindow
    rcases Nat.eq_zero_or_pos g.win_length with hL | hL
    · rw [hL]
      norm_num
    · have hIcc : Finset.Icc (-(g.win_length : ℤ) + 1) ((g.win_length : ℤ) - 1) =
          Finset.Icc (-((g.win_length : ℤ) - 1)) ((g.win_length : ℤ) - 1) := by
        congr 1
        ring
      rw [hIcc]
      rw [← sum_Icc_neg_arg ((g.win_length : ℤ) - 1)
        (fun j => if cellIsOrEmpty g symbol (r + (-1) * j) (c + 1 * j) then (1 : ℕ) else 0)]
      refine Finset.sum_congr rfl ?_
      intro j _
      rw [show r + (-1) * -j = r + 1 * j from by ring, show c + 1 * -j = c + (-1) * j from by ring]
  rw [hdiag]
  omega

theorem evaluate_board_eq_specEvaluate (g : Gomoku) (symbol : Char) :
    evaluate_board g symbol = specEvaluate g symbol := by
  simp only [evaluate_board, specEvaluate]
  rw [sum_map_range]
  refine Finset.sum_congr rfl ?_
  intro row _
  rw [sum_map_range]
  refine Finset.sum_congr rfl ?_
  intro col _
  rcases eq_or_ne (getCell g.board row col) symbol with hs | hs
  · rw [if_pos (beq_iff_eq.mpr hs), if_pos hs, count_aligned_eq_spec,
      count_adjacent_spaces_eq_spec, potential_extension_eq_spec]
    rfl
  · rw [if_neg (by simpa using hs), if_neg hs]
    rcases eq_or_ne (getCell g.board row col) (opponent_of symbol) with ho | ho
    · rw [if_pos (beq_iff_eq.mpr ho), if_pos ho, count_aligned_eq_spec]
    · rw [if_neg (by simpa using ho), if_neg ho]

/-- C4: `evaluate_board(symbol)` equals the claimed sum: over own cells, the
axis-window alignment count, the centre bonus `max(0, 5 - manhattan)`, the
empty-neighbour count and the extension potential; over opponent cells, minus
the opponent's own alignment count only. -/
theorem C4_evaluate_board_formula (g : Gomoku) (symbol : Char) :
    evaluate_board g symbol = specEvaluate g symbol :=
  evaluate_board_eq_specEvaluate g symbol

theorem mem_rowMajor (n : Nat) (x : Nat × Nat) :
    x ∈ rowMajor n ↔ x.1 < n ∧ x.2 < n := by
  unfold rowMajor
  rcases x with ⟨r, c⟩
  simp only [List.mem_flatten, List.mem_map, List.mem_range]
  constructor
  · rintro ⟨l, ⟨r', hr', rfl⟩, hm⟩
    simp only [List.mem_map, List.mem_range] at hm
    obtain ⟨c', hc', he⟩ := hm
    obtain ⟨rfl, rfl⟩ := Prod.mk.injEq .. ▸ he
    injection he with h1 h2
    refine ⟨?_, ?_⟩ <;> omega
  · rintro ⟨hr, hc⟩
    exact ⟨(List.range n).map fun c => (r, c), ⟨r, hr, rfl⟩, by
      simp only [List.mem_map, List.mem_range]
      exact ⟨c, hc, rfl⟩⟩

theorem rowMajor_pairwise (n : Nat) :
    (rowMajor n).Pairwise (fun a b => rmIndex n a < rmIndex n b) := by
  unfold rowMajor
  rw [List.pairwise_flatten]
  refine ⟨?_, ?_⟩
  · intro l hl
    simp only [List.mem_map, List.mem_range] at hl
    obtain ⟨r, _, rfl⟩ := hl
    rw [List.pairwise_map]
    refine (List.pairwise_lt_range n).imp ?_
    intro c c' h
    unfold rmIndex
    simpa using h
  · rw [List.pairwise_map]
    refine (List.pairwise_lt_range n).imp ?_
    intro r r' h x hx y hy
    simp only [List.mem_map, List.mem_range] at hx hy
    obtain ⟨c, hc, rfl⟩ := hx
    obtain ⟨c', hc', rfl⟩ := hy
    unfold rmIndex
    simp only
    calc r * n + c < r * n + n := by omega
    _ = (r + 1) * n := by ring
    _ ≤ r' * n + c' := by
      have : r + 1 ≤ r' := h
      calc (r + 1) * n ≤ r' * n := Nat.mul_le_mul_right n this
      _ ≤ r' * n + c' := Nat.le_add_right _ _

theorem pairwise_decomp {α : Type} {R : α → α → Prop} :
    ∀ (l₁ : List α) (m : α) (l₂ : List α), (l₁ ++ m :: l₂).Pairwise R →
      ∀ x ∈ l₂, R m x := by
  intro l₁ m l₂ h x hx
  have h2 : (m :: l₂).Pairwise R := (List.pairwise_append.mp h).2.1
  exact (List.pairwise_cons.mp h2).1 x hx

section ArgFold

variable {α : Type} (valid : α → Bool) (f : α → ℤ)

theorem argmaxFold_spec : ∀ (xs : List α) (bm : Option α) (bs : WithBot ℤ),
    (argmaxFold valid f xs (bm, bs) = (bm, bs) ∧
      ∀ x ∈ xs, valid x = true → ((f x : ℤ) : WithBot ℤ) ≤ bs) ∨
    (∃ l₁ m l₂, xs = l₁ ++ m :: l₂ ∧
      argmaxFold valid f xs (bm, bs) = (some m, ((f m : ℤ) : WithBot ℤ)) ∧
      valid m = true ∧ bs < ((f m : ℤ) : WithBot ℤ) ∧
      (∀ x ∈ l₁, valid x = true → ((f x : ℤ) : WithBot ℤ) < ((f m : ℤ) : WithBot ℤ)) ∧
      (∀ x ∈ l₂, valid x = true → ((f x : ℤ) : WithBot ℤ) ≤ ((f m : ℤ) : WithBot ℤ)))
  | [], bm, bs => Or.inl ⟨rfl, by simp⟩
  | x :: xs, bm, bs => by
    by_cases hv : valid x = true
    · by_cases hlt : bs < ((f x : ℤ) : WithBot ℤ)
      · rw [show argmaxFold valid f (x :: xs) (bm, bs) =
            argmaxFold valid f xs (some x, ((f x : ℤ) : WithBot ℤ)) by
          simp only [argmaxFold]; rw [if_pos hv, if_pos hlt]]
        rcases argmaxFold_spec xs (some x) ((f x : ℤ) : WithBot ℤ) with ⟨heq, hall⟩ |
          ⟨l₁, m, l₂, rfl, heq, hvm, hgt, hl₁, hl₂⟩
        · exact Or.inr ⟨[], x, xs, rfl, heq, hv, hlt, by simp, hall⟩
        · exact Or.inr ⟨x :: l₁, m, l₂, rfl, heq, hvm, lt_trans hlt hgt, by
            intro y hy hvy
            rcases List.mem_cons.mp hy with rfl | hy'
            · exact hgt
            · exact hl₁ y hy' hvy, hl₂⟩
      · rw [show argmaxFold valid f (x :: xs) (bm, bs) = argmaxFold valid f xs (bm, bs) by
          simp only [argmaxFold]; rw [if_pos hv, if_neg hlt]]
        rcases argmaxFold_spec xs bm bs with ⟨heq, hall⟩ |
          ⟨l₁, m, l₂, rfl, heq, hvm, hgt, hl₁, hl₂⟩
        · refine Or.inl ⟨heq, ?_⟩
          intro y hy hvy
          rcases List.mem_cons.mp hy with rfl | hy'
          · exact not_lt.mp hlt
          · exact hall y hy' hvy
        · exact Or.inr ⟨x :: l₁, m, l₂, rfl, heq, hvm, hgt, by
            intro y hy hvy
            rcases List.mem_cons.mp hy with rfl | hy'
            · exact lt_of_le_of_lt (not_lt.mp hlt) hgt
            · exact hl₁ y hy' hvy, hl₂⟩
    · rw [show argmaxFold valid f (x :: xs) (bm, bs) = argmaxFold valid f xs (bm, bs) by
        simp only [argmaxFold]; rw [if_neg hv]]
      rcases argmaxFold_spec xs bm bs with ⟨heq, hall⟩ |
        ⟨l₁, m, l₂, rfl, heq, hvm, hgt, hl₁, hl₂⟩
      · refine Or.inl ⟨heq, ?_⟩
        intro y hy hvy
        rcases List.mem_cons.mp hy with rfl | hy'
        · exact absurd hvy hv
        · exact hall y hy' hvy
      · exact Or.inr ⟨x :: l₁, m, l₂, rfl, heq, hvm, hgt, by
          intro y hy hvy
          rcases List.mem_cons.mp hy with rfl | hy'
          · exact absurd hvy hv
          · exact hl₁ y hy' hvy, hl₂⟩

theorem argminFold_spec : ∀ (xs : List α) (bm : Option α) (bs : WithTop ℤ),
    (argminFold valid f xs (bm, bs) = (bm, bs) ∧
      ∀ x ∈ xs, valid x = true → bs ≤ ((f x : ℤ) : WithTop ℤ)) ∨
    (∃ l₁ m l₂, xs = l₁ ++ m :: l₂ ∧
      argminFold valid f xs (bm, bs) = (some m, ((f m : ℤ) : WithTop ℤ)) ∧
      valid m = true ∧ ((f m : ℤ) : WithTop ℤ) < bs ∧
      (∀ x ∈ l₁, valid x = true → ((f m : ℤ) : WithTop ℤ) < ((f x : ℤ) : WithTop ℤ)) ∧
      (∀ x ∈ l₂, valid x = true → ((f m : ℤ) : WithTop ℤ) ≤ ((f x : ℤ) : WithTop ℤ)))
  | [], bm, bs => Or.inl ⟨rfl, by simp⟩
  | x :: xs, bm, bs => by
    by_cases hv : valid x = true
    · by_cases hlt : ((f x : ℤ) : WithTop ℤ) < bs
      · rw [show argminFold valid f (x :: xs) (bm, bs) =
            argminFold valid f xs (some x, ((f x : ℤ) : WithTop ℤ)) by
          simp only [argminFold]; rw [if_pos hv, if_pos hlt]]
        rcases argminFold_spec xs (some x) ((f x : ℤ) : WithTop ℤ) with ⟨heq, hall⟩ |
          ⟨l₁, m, l₂, rfl, heq, hvm, hgt, hl₁, hl₂⟩
        · exact Or.inr ⟨[], x, xs, rfl, heq, hv, hlt, by simp, hall⟩
        · exact Or.inr ⟨x :: l₁, m, l₂, rfl, heq, hvm, lt_trans hgt hlt, by
            intro y hy hvy
            rcases List.mem_cons.mp hy with rfl | hy'
            · exact hgt
            · exact hl₁ y hy' hvy, hl₂⟩
      · rw [show argminFold valid f (x :: xs) (bm, bs) = argminFold valid f xs (bm, bs) by
          simp only [argminFold]; rw [if_pos hv, if_neg hlt]]
        rcases argminFold_spec xs bm bs with ⟨heq, hall⟩ |
          ⟨l₁, m, l₂, rfl, heq, hvm, hgt, hl₁, hl₂⟩
        · refine Or.inl ⟨heq, ?_⟩
          intro y hy hvy
          rcases List.mem_cons.mp hy with rfl | hy'
          · exact not_lt.mp hlt
          · exact hall y hy' hvy
        · exact Or.inr ⟨x :: l₁, m, l₂, rfl, heq, hvm, hgt, by
            intro y hy hvy
            rcases List.mem_cons.mp hy with rfl | hy'
            · exact lt_of_lt_of_le hgt (not_lt.mp hlt)
            · exact hl₁ y hy' hvy, hl₂⟩
    · rw [show argminFold valid f (x :: xs) (bm, bs) = argminFold valid f xs (bm, bs) by
        simp only [argminFold]; rw [if_neg hv]]
      rcases argminFold_spec xs bm bs with ⟨heq, hall⟩ |
        ⟨l₁, m, l₂, rfl, heq, hvm, hgt, hl₁, hl₂⟩
      · refine Or.inl ⟨heq, ?_⟩
        intro y hy hvy
        rcases List.mem_cons.mp hy with rfl | hy'
        · exact absurd hvy hv
        · exact hall y hy' hvy
      · exact Or.inr ⟨x :: l₁, m, l₂, rfl, heq, hvm, hgt, by
          intro y hy hvy
          rcases List.mem_cons.mp hy with rfl | hy'
          · exact absurd hvy hv
          · exact hl₁ y hy' hvy, hl₂⟩

end ArgFold

/-- A valid cell's speculative place is undone exactly by the retract. -/
theorem place_retract (g : Gomoku) (x : Nat × Nat) (ch : Char)
    (h : is_valid_move g x.1 x.2 = true) :
    { place g x.1 x.2 ch with board := setCell (place g x.1 x.2 ch).board x.1 x.2 '.' } = g := by
  have hdot := (valid_in_list_range g x.1 x.2 h).1
  simp only [Int.toNat_natCast] at hdot
  unfold place
  have : setCell (setCell g.board x.1 x.2 ch) x.1 x.2 '.' = g.board :=
    setCell_setCell_cancel g.board x.1 x.2 ch '.' hdot
  simp only [this]

/-- The Greedy scan equals the pure accumulator fold and restores the board. -/
theorem greedy_ai_aux_eq (symbol : Char) :
    ∀ (xs : List (Nat × Nat)) (g : Gomoku) (bm : Option (Nat × Nat)) (bs : WithBot ℤ),
      greedy_ai_aux symbol xs g bm bs =
        (g, argmaxFold (validCell g) (greedyScore g symbol) xs (bm, bs))
  | [], g, bm, bs => rfl
  | x :: xs, g, bm, bs => by
    by_cases hv : is_valid_move g x.1 x.2 = true
    · simp only [greedy_ai_aux, if_pos hv, place_retract g x symbol hv,
        greedy_ai_aux_eq symbol xs g]
      simp only [argmaxFold, validCell, hv, if_pos, greedyScore]
      by_cases hlt : bs < ((evaluate_board (place g x.1 x.2 symbol) symbol : ℤ) : WithBot ℤ)
      · rw [if_pos hlt, if_pos hlt, if_pos hlt]
      · rw [if_neg hlt, if_neg hlt, if_neg hlt]
    · simp only [greedy_ai_aux, if_neg hv, greedy_ai_aux_eq symbol xs g]
      simp only [argmaxFold, validCell]
      rw [if_neg (by simpa using hv)]

/-- The Worst scan equals the pure accumulator fold and restores the board. -/
theorem worst_ai_aux_eq (opponent_symbol : Char) :
    ∀ (xs : List (Nat × Nat)) (g : Gomoku) (bm : Option (Nat × Nat)) (bs : WithTop ℤ),
      worst_ai_aux opponent_symbol xs g bm bs =
        (g, argminFold (validCell g) (worstScore g opponent_symbol) xs (bm, bs))
  | [], g, bm, bs => rfl
  | x :: xs, g, bm, bs => by
    by_cases hv : is_valid_move g x.1 x.2 = true
    · simp only [worst_ai_aux, if_pos hv, place_retract g x opponent_symbol hv,
        worst_ai_aux_eq opponent_symbol xs g]
      simp only [argminFold, validCell, hv, if_pos, worstScore]
      by_cases hlt :
          ((evaluate_board (place g x.1 x.2 opponent_symbol) opponent_symbol : ℤ) : WithTop ℤ) < bs
      · rw [if_pos hlt, if_pos hlt, if_pos hlt]
      · rw [if_neg hlt, if_neg hlt, if_neg hlt]
    · simp only [worst_ai_aux, if_neg hv, worst_ai_aux_eq opponent_symbol xs g]
      simp only [argminFold, validCell]
      rw [if_neg (by simpa using hv)]

theorem getD_replicate {α : Type} (a d : α) : ∀ (n i : Nat), i < n →
    (List.replicate n a).getD i d = a
  | _ + 1, 0, _ => rfl
  | n + 1, i + 1, h => getD_replicate a d n i (Nat.lt_of_succ_lt_succ h)

theorem getCell_empty15 (row col : Nat) (hr : row < 15) (hc : col < 15) :
    getCell empty15.board row col = '.' := by
  unfold getCell empty15
  simp only
  rw [getD_replicate _ _ 15 row hr, getD_replicate _ _ 15 col hc]

theorem getCell_single (r c : Nat) (hr : r < 15) (hc : c < 15) (row col : Nat)
    (hrow : row < 15) (hcol : col < 15) :
    getCell (setCell empty15.board r c 'X') row col =
      if row = r ∧ col = c then 'X' else '.' := by
  by_cases he : row = r ∧ col = c
  · obtain ⟨rfl, rfl⟩ := he
    rw [if_pos ⟨rfl, rfl⟩]
    refine getCell_setCell_self _ _ _ _ ?_ ?_
    · show row < (List.replicate 15 (List.replicate 15 '.')).length
      simp
      omega
    · show col < ((List.replicate 15 (List.replicate 15 '.')).getD row []).length
      rw [getD_replicate _ _ 15 row hrow]
      simp
      omega
  · rw [if_neg he, getCell_setCell_ne _ _ _ _ _ _ (by tauto),
      getCell_empty15 row col hrow hcol]

/-- On the empty board every in-range cell is a valid move. -/
theorem valid_empty15 (x : Nat × Nat) (h1 : x.1 < 15) (h2 : x.2 < 15) :
    is_valid_move empty15 x.1 x.2 = true := by
  unfold is_valid_move
  have : getCell empty15.board ((x.1 : ℤ)).toNat ((x.2 : ℤ)).toNat = '.' := by
    simp only [Int.toNat_natCast]
    exact getCell_empty15 x.1 x.2 h1 h2
  simp only [this]
  simp only [Bool.and_eq_true, decide_eq_true_eq, beq_self_eq_true, and_true]
  unfold empty15
  constructor
  · constructor
    · constructor
      · exact Int.natCast_nonneg x.1
      · exact_mod_cast h1
    · exact Int.natCast_nonneg x.2
  · exact_mod_cast h2

theorem single_specAlign (r c : Nat) (hr : r < 15) (hc : c < 15) :
    specAlign (place empty15 r c 'X') 'X' r c = 4 := by
  have hb : (place empty15 r c 'X').board_size = 15 := rfl
  have hcell : ∀ a b : ℤ, cellIs (place empty15 r c 'X') 'X' a b ↔ a = r ∧ b = c := by
    intro a b
    unfold cellIs
    constructor
    · rintro ⟨hin, hget⟩
      unfold inB at hin
      simp only [Bool.and_eq_true, decide_eq_true_eq, hb] at hin
      obtain ⟨⟨⟨ha0, ha15⟩, hb0⟩, hb15⟩ := hin
      rw [show (place empty15 r c 'X').board = setCell empty15.board r c 'X' from rfl,
        getCell_single r c hr hc a.toNat b.toNat (by omega) (by omega)] at hget
      by_cases he : a.toNat = r ∧ b.toNat = c
      · omega
      · rw [if_neg he] at hget
        exact absurd hget (by decide)
    · rintro ⟨rfl, rfl⟩
      refine ⟨?_, ?_⟩
      · unfold inB
        simp only [Bool.and_eq_true, decide_eq_true_eq, hb]
        refine ⟨⟨⟨Int.natCast_nonneg r, by exact_mod_cast hr⟩, Int.natCast_nonneg c⟩,
          by exact_mod_cast hc⟩
      · rw [show (place empty15 r c 'X').board = setCell empty15.board r c 'X' from rfl]
        simp only [Int.toNat_natCast]
        rw [getCell_single r c hr hc r c hr hc, if_pos ⟨rfl, rfl⟩]
  unfold specAlign specAxes
  simp only [List.map_cons, List.map_nil, List.sum_cons, List.sum_nil]
  have hone : ∀ d1 d2 : ℤ, ¬(d1 = 0 ∧ d2 = 0) →
      (∑ j in specWindow (place empty15 r c 'X'),
        if cellIs (place empty15 r c 'X') 'X' ((r : ℤ) + d1 * j) ((c : ℤ) + d2 * j)
        then (1 : ℕ) else 0) = 1 := by
    intro d1 d2 hd
    rw [Finset.sum_eq_single 0]
    · rw [if_pos ((hcell _ _).mpr (by constructor <;> ring))]
    · intro j _ hj
      rw [if_neg]
      intro hmem
      obtain ⟨h1, h2⟩ := (hcell _ _).mp hmem
      have e1 : d1 * j = 0 := by omega
      have e2 : d2 * j = 0 := by omega
      rcases mul_eq_zero.mp e1 with hd1 | rfl
      · rcases mul_eq_zero.mp e2 with hd2 | rfl
        · exact hd ⟨hd1, hd2⟩
        · exact hj rfl
      · exact hj rfl
    · intro h0
      exfalso
      apply h0
      unfold specWindow
      simp only [Finset.mem_Icc]
      constructor <;> norm_num [show (place empty15 r c 'X').win_length = 5 from rfl]
  rw [hone 0 1 (by norm_num), hone 1 0 (by norm_num), hone 1 1 (by norm_num),
    hone (-1) 1 (by norm_num)]
  rfl

theorem single_off_center (r c : Nat) (hr : r < 15) (hc : c < 15) (a b : ℤ)
    (hne : ¬(a = (r : ℤ) ∧ b = (c : ℤ))) (hin : inB empty15 a b = true) :
    getCell (place empty15 r c 'X').board a.toNat b.toNat = '.' := by
  unfold inB at hin
  simp only [Bool.and_eq_true, decide_eq_true_eq,
    show empty15.board_size = 15 from rfl] at hin
  obtain ⟨⟨⟨ha0, ha15⟩, hb0⟩, hb15⟩ := hin
  rw [show (place empty15 r c 'X').board = setCell empty15.board r c 'X' from rfl,
    getCell_single r c hr hc a.toNat b.toNat (by omega) (by omega)]
  rw [if_neg (by omega)]

theorem single_specAdjacent (r c : Nat) (hr : r < 15) (hc : c < 15) :
    specEmptyNeighbors (place empty15 r c 'X') r c = emptyAdj r c := by
  unfold specEmptyNeighbors emptyAdj
  refine congrArg List.sum (List.map_congr_left ?_)
  intro o ho
  have hoff : ¬(o.1 = 0 ∧ o.2 = 0) := by
    unfold specNeighborOffsets at ho
    simp only [List.mem_cons, List.not_mem_nil, or_false] at ho
    rcases ho with rfl | rfl | rfl | rfl | rfl | rfl | rfl | rfl <;> norm_num
  have hinB : inB (place empty15 r c 'X') = inB empty15 := rfl
  by_cases hin : inB empty15 ((r : ℤ) + o.1) ((c : ℤ) + o.2) = true
  · rw [if_pos ?_, if_pos hin]
    unfold cellIs
    rw [hinB]
    refine ⟨hin, ?_⟩
    exact single_off_center r c hr hc _ _ (by
      rintro ⟨h1, h2⟩
      exact hoff ⟨by omega, by omega⟩) hin
  · rw [if_neg ?_, if_neg hin]
    unfold cellIs
    rw [hinB]
    tauto

theorem single_specExtension (r c : Nat) (hr : r < 15) (hc : c < 15) :
    specExtension (place empty15 r c 'X') 'X' r c = emptyExt r c := by
  unfold specExtension emptyExt
  have hWin : specWindow (place empty15 r c 'X') = specWindow empty15 := rfl
  refine congrArg List.sum (List.map_congr_left ?_)
  intro d _
  rw [hWin]
  refine Finset.sum_congr rfl ?_
  intro j _
  have hinB : inB (place empty15 r c 'X') = inB empty15 := rfl
  by_cases hin : inB empty15 ((r : ℤ) + d.1 * j) ((c : ℤ) + d.2 * j) = true
  · rw [if_pos ?_, if_pos hin]
    unfold cellIsOrEmpty
    rw [hinB]
    refine ⟨hin, ?_⟩
    by_cases he : ((r : ℤ) + d.1 * j) = (r : ℤ) ∧ ((c : ℤ) + d.2 * j) = (c : ℤ)
    · left
      unfold inB at hin
      simp only [Bool.and_eq_true, decide_eq_true_eq,
        show empty15.board_size = 15 from rfl] at hin
      rw [show (place empty15 r c 'X').board = setCell empty15.board r c 'X' from rfl,
        getCell_single r c hr hc _ _ (by omega) (by omega), if_pos (by omega)]
    · right
      exact single_off_center r c hr hc _ _ he hin
  · rw [if_neg ?_, if_neg hin]
    unfold cellIsOrEmpty
    rw [hinB]
    tauto

/-- Closed form for the one-ply Greedy score on the empty 15×15 board. -/
theorem greedyScore_empty15 (x : Nat × Nat) (h1 : x.1 < 15) (h2 : x.2 < 15) :
    greedyScore empty15 'X' x = emptyScore x := by
  obtain ⟨r, c⟩ := x
  simp only at h1 h2
  unfold greedyScore
  rw [evaluate_board_eq_specEvaluate]
  unfold specEvaluate
  simp only [show (place empty15 r c 'X').board_size = 15 from rfl]
  have hget : ∀ row col : Nat, row < 15 → col < 15 →
      getCell (place empty15 r c 'X').board row col = if row = r ∧ col = c then 'X' else '.' :=
    fun row col hrow hcol => getCell_single r c h1 h2 row col hrow hcol
  have hzero : ∀ row col : Nat, row < 15 → col < 15 → ¬(row = r ∧ col = c) →
      (if getCell (place empty15 r c 'X').board row col = 'X' then
        (specAlign (place empty15 r c 'X') 'X' row col : ℤ) +
        max 0 (5 - manhattanDist ((row : ℤ), (col : ℤ)) (boardCenter (place empty15 r c 'X'))) +
        (specEmptyNeighbors (place empty15 r c 'X') row col : ℤ) +
        (specExtension (place empty15 r c 'X') 'X' row col : ℤ)
      else if getCell (place empty15 r c 'X').board row col = opponent_of 'X' then
        -(specAlign (place empty15 r c 'X') (opponent_of 'X') row col : ℤ)
      else 0) = 0 := by
    intro row col hrow hcol hne
    have hdot : getCell (place empty15 r c 'X').board row col = '.' := by
      rw [hget row col hrow hcol, if_neg hne]
    rw [hdot]
    rw [if_neg (by decide), if_neg (by rw [show opponent_of 'X' = 'O' from rfl]; decide)]
  rw [Finset.sum_eq_single_of_mem r (Finset.mem_range.mpr h1)]
  · rw [Finset.sum_eq_single_of_mem c (Finset.mem_range.mpr h2)]
    · have hgc : getCell (place empty15 r c 'X').board r c = 'X' := by
        rw [hget r c h1 h2, if_pos ⟨rfl, rfl⟩]
      rw [hgc, if_pos rfl]
      rw [single_specAlign r c h1 h2, single_specAdjacent r c h1 h2,
        single_specExtension r c h1 h2]
      unfold emptyScore manhattanDist boardCenter
      simp only [show (place empty15 r c 'X').board_size = 15 from rfl]
      norm_num
    · intro col hcol hne
      exact hzero r col h1 (Finset.mem_range.mp hcol) (by tauto)
  · intro row hrow hne
    refine Finset.sum_eq_zero ?_
    intro col hcol
    exact hzero row col (Finset.mem_range.mp hrow) (Finset.mem_range.mp hcol) (by tauto)

set_option maxRecDepth 10000 in
theorem emptyScore_strict_max : ∀ x ∈ rowMajor 15, x ≠ (7, 7) → emptyScore x < 53 := by
  decide

theorem emptyScore_center : emptyScore (7, 7) = 53 := by decide

/-- The Greedy result characterised through the accumulator-fold lemma. -/
theorem greedy_ai_char (g : Gomoku) (symbol : Char)
    (h : ∃ v : Nat × Nat, v.1 < g.board_size ∧ v.2 < g.board_size ∧
      is_valid_move g v.1 v.2 = true) :
    ∃ m : Nat × Nat, (greedy_ai g symbol).2 = some m ∧
      m.1 < g.board_size ∧ m.2 < g.board_size ∧ is_valid_move g m.1 m.2 = true ∧
      ∀ x : Nat × Nat, x.1 < g.board_size → x.2 < g.board_size →
        is_valid_move g x.1 x.2 = true →
        greedyScore g symbol x ≤ greedyScore g symbol m ∧
        (greedyScore g symbol x = greedyScore g symbol m →
          rmIndex g.board_size m ≤ rmIndex g.board_size x) := by
  obtain ⟨v, hv1, hv2, hvv⟩ := h
  have hrw : (greedy_ai g symbol).2 =
      (argmaxFold (validCell g) (greedyScore g symbol) (rowMajor g.board_size) (none, ⊥)).1 := by
    unfold greedy_ai
    rw [greedy_ai_aux_eq]
  rcases argmaxFold_spec (validCell g) (greedyScore g symbol) (rowMajor g.board_size) none ⊥ with
    ⟨heq, hall⟩ | ⟨l₁, m, l₂, hdec, heq, hvm, _, hl₁, hl₂⟩
  · exfalso
    have hmem : v ∈ rowMajor g.board_size := (mem_rowMajor _ _).mpr ⟨hv1, hv2⟩
    have := hall v hmem (by unfold validCell; exact hvv)
    exact absurd this (by simp)
  · have hmmem : m ∈ rowMajor g.board_size := by
      rw [hdec]
      exact List.mem_append_right _ (List.mem_cons_self _ _)
    obtain ⟨hm1, hm2⟩ := (mem_rowMajor _ _).mp hmmem
    refine ⟨m, by rw [hrw, heq], hm1, hm2, by unfold validCell at hvm; exact hvm, ?_⟩
    intro x hx1 hx2 hxv
    have hxmem : x ∈ rowMajor g.board_size := (mem_rowMajor _ _).mpr ⟨hx1, hx2⟩
    rw [hdec] at hxmem
    have hvx : validCell g x = true := by unfold validCell; exact hxv
    rcases List.mem_append.mp hxmem with hx | hx
    · have := hl₁ x hx hvx
      have hlt : greedyScore g symbol x < greedyScore g symbol m := by exact_mod_cast this
      exact ⟨le_of_lt hlt, fun he => absurd he (ne_of_lt hlt)⟩
    · rcases List.mem_cons.mp hx with rfl | hx
      · exact ⟨le_refl _, fun _ => le_refl _⟩
      · have := hl₂ x hx hvx
        have hle : greedyScore g symbol x ≤ greedyScore g symbol m := by exact_mod_cast this
        refine ⟨hle, fun _ => le_of_lt ?_⟩
        exact pairwise_decomp l₁ m l₂ (hdec ▸ rowMajor_pairwise g.board_size) x hx

/-- C7: Greedy returns the valid cell maximising `evaluate(symbol)` after a
speculative place of `symbol` (ties to the first cell in row-major order),
and on the empty 15×15 board with `win_length = 5` Greedy for 'X' picks the
exact centre `(7, 7)`. -/
theorem C7_greedy_maximises_and_center :
    (∀ (g : Gomoku) (symbol : Char),
      (∃ v : Nat × Nat, v.1 < g.board_size ∧ v.2 < g.board_size ∧
        is_valid_move g v.1 v.2 = true) →
      ∃ m : Nat × Nat, (greedy_ai g symbol).2 = some m ∧
        m.1 < g.board_size ∧ m.2 < g.board_size ∧ is_valid_move g m.1 m.2 = true ∧
        ∀ x : Nat × Nat, x.1 < g.board_size → x.2 < g.board_size →
          is_valid_move g x.1 x.2 = true →
          greedyScore g symbol x ≤ greedyScore g symbol m ∧
          (greedyScore g symbol x = greedyScore g symbol m →
            rmIndex g.board_size m ≤ rmIndex g.board_size x)) ∧
    (greedy_ai empty15 'X').2 = some (7, 7) := by
  refine ⟨greedy_ai_char, ?_⟩
  have h77 : ((7, 7) : Nat × Nat).1 < empty15.board_size ∧
      ((7, 7) : Nat × Nat).2 < empty15.board_size ∧
      is_valid_move empty15 7 7 = true := by
    refine ⟨by decide, by decide, valid_empty15 (7, 7) (by decide) (by decide)⟩
  obtain ⟨m, hres, hm1, hm2, hmv, hbest⟩ :=
    greedy_ai_char empty15 'X' ⟨(7, 7), h77.1, h77.2.1, h77.2.2⟩
  have hmm : m = (7, 7) := by
    by_contra hne
    have hsm : emptyScore m < 53 :=
      emptyScore_strict_max m ((mem_rowMajor 15 m).mpr ⟨hm1, hm2⟩) hne
    have h1 : greedyScore empty15 'X' (7, 7) ≤ greedyScore empty15 'X' m :=
      (hbest (7, 7) h77.1 h77.2.1 h77.2.2).1
    rw [greedyScore_empty15 (7, 7) (by decide) (by decide),
      greedyScore_empty15 m hm1 hm2, emptyScore_center] at h1
    omega
  rw [hmm] at hres
  exact hres

/-- C7 witness: a concrete input discharging the existence hypothesis. -/
theorem C7_greedy_maximises_and_center_witness :
    ∃ m : Nat × Nat, (greedy_ai gW 'X').2 = some m ∧
      m.1 < gW.board_size ∧ m.2 < gW.board_size ∧ is_valid_move gW m.1 m.2 = true ∧
      ∀ x : Nat × Nat, x.1 < gW.board_size → x.2 < gW.board_size →
        is_valid_move gW x.1 x.2 = true →
        greedyScore gW 'X' x ≤ greedyScore gW 'X' m ∧
        (greedyScore gW 'X' x = greedyScore gW 'X' m →
          rmIndex gW.board_size m ≤ rmIndex gW.board_size x) :=
  C7_greedy_maximises_and_center.1 gW 'X' ⟨(0, 0), by decide, by decide, by decide⟩

theorem cfgbEq_refl (g : Gomoku) : cfgbEq g g := ⟨rfl, rfl, rfl, rfl⟩

theorem cfgbEq_trans {g1 g2 g3 : Gomoku} (h1 : cfgbEq g1 g2) (h2 : cfgbEq g2 g3) :
    cfgbEq g1 g3 := by
  obtain ⟨a1, b1, c1, d1⟩ := h1
  obtain ⟨a2, b2, c2, d2⟩ := h2
  exact ⟨a2.trans a1, b2.trans b1, c2.trans c1, d2.trans d1⟩

/-- The speculative place followed by a retract restores `cfgbEq`, through
any intermediate state that preserved configuration and board. -/
theorem cfgbEq_place_retract (g g2 : Gomoku) (row col : Nat) (symbol : Char)
    (hv : is_valid_move g row col = true)
    (h2 : cfgbEq (place g row col symbol) g2) :
    cfgbEq g (retractOn g2 row col) := by
  obtain ⟨a2, b2, c2, d2⟩ := h2
  refine ⟨a2, b2, c2, ?_⟩
  show setCell g2.board row col '.' = g.board
  rw [d2]
  show setCell (setCell g.board row col symbol) row col '.' = g.board
  have hdot := (valid_in_list_range g row col hv).1
  simp only [Int.toNat_natCast] at hdot
  exact setCell_setCell_cancel g.board row col symbol '.' hdot

/-- Bumping the node counter preserves `cfgbEq`. -/
theorem cfgbEq_nodes {g g' : Gomoku} (h : cfgbEq g g') (n : Nat) :
    cfgbEq g { g' with nodes_expanded := n } := h

theorem rowMax_pres (child : Gomoku → V → V → Nat → V × Gomoku × Nat) (symbol : Char)
    (beta : V) (row : Nat)
    (hchild : ∀ (g' : Gomoku) (a b : V) (k' : Nat), cfgbEq g' (child g' a b k').2.1) :
    ∀ (cols : List Nat) (g : Gomoku) (best alpha : V) (k : Nat),
      cfgbEq g (rowMax child symbol beta row cols (g, best, alpha, k)).1
  | [], g, best, alpha, k => cfgbEq_refl g
  | col :: cols, g, best, alpha, k => by
    simp only [rowMax]
    by_cases hv : is_valid_move g row col = true
    · rw [if_pos hv]
      have hg3 := cfgbEq_place_retract g (child (place g row col symbol) alpha beta k).2.1
        row col symbol hv (hchild _ _ _ _)
      by_cases hb : beta ≤ max alpha (child (place g row col symbol) alpha beta k).1
      · rw [if_pos hb]
        exact hg3
      · rw [if_neg hb]
        exact cfgbEq_trans (cfgbEq_nodes hg3 _)
          (rowMax_pres child symbol beta row hchild cols _ _ _ _)
    · rw [if_neg hv]
      exact rowMax_pres child symbol beta row hchild cols g best alpha k

theorem rowsMax_pres (child : Gomoku → V → V → Nat → V × Gomoku × Nat) (symbol : Char)
    (beta : V) (size : Nat)
    (hchild : ∀ (g' : Gomoku) (a b : V) (k' : Nat), cfgbEq g' (child g' a b k').2.1) :
    ∀ (rows : List Nat) (g : Gomoku) (best alpha : V) (k : Nat),
      cfgbEq g (rowsMax child symbol beta size rows (g, best, alpha, k)).1
  | [], g, best, alpha, k => cfgbEq_refl g
  | row :: rows, g, best, alpha, k => by
    simp only [rowsMax]
    have h1 := rowMax_pres child symbol beta row hchild (List.range size) g best alpha k
    exact cfgbEq_trans h1 (rowsMax_pres child symbol beta size hchild rows _ _ _ _)

theorem rowMin_pres (child : Gomoku → V → V → Nat → V × Gomoku × Nat)
    (opponent_symbol : Char) (alpha : V) (row : Nat)
    (hchild : ∀ (g' : Gomoku) (a b : V) (k' : Nat), cfgbEq g' (child g' a b k').2.1) :
    ∀ (cols : List Nat) (g : Gomoku) (best beta : V) (k : Nat),
      cfgbEq g (rowMin child opponent_symbol alpha row cols (g, best, beta, k)).1
  | [], g, best, beta, k => cfgbEq_refl g
  | col :: cols, g, best, beta, k => by
    simp only [rowMin]
    by_cases hv : is_valid_move g row col = true
    · rw [if_pos hv]
      have hg3 := cfgbEq_place_retract g
        (child (place g row col opponent_symbol) alpha beta k).2.1
        row col opponent_symbol hv (hchild _ _ _ _)
      by_cases hb : min beta (child (place g row col opponent_symbol) alpha beta k).1 ≤ alpha
      · rw [if_pos hb]
        exact hg3
      · rw [if_neg hb]
        exact cfgbEq_trans (cfgbEq_nodes hg3 _)
          (rowMin_pres child opponent_symbol alpha row hchild cols _ _ _ _)
    · rw [if_neg hv]
      exact rowMin_pres child opponent_symbol alpha row hchild cols g best beta k

theorem rowsMin_pres (child : Gomoku → V → V → Nat → V × Gomoku × Nat)
    (opponent_symbol : Char) (alpha : V) (size : Nat)
    (hchild : ∀ (g' : Gomoku) (a b : V) (k' : Nat), cfgbEq g' (child g' a b k').2.1) :
    ∀ (rows : List Nat) (g : Gomoku) (best beta : V) (k : Nat),
      cfgbEq g (rowsMin child opponent_symbol alpha size rows (g, best, beta, k)).1
  | [], g, best, beta, k => cfgbEq_refl g
  | row :: rows, g, best, beta, k => by
    simp only [rowsMin]
    have h1 := rowMin_pres child opponent_symbol alpha row hchild (List.range size) g best beta k
    exact cfgbEq_trans h1 (rowsMin_pres child opponent_symbol alpha size hchild rows _ _ _ _)

/-- `minimax` restores the board and configuration of its argument state;
only `nodes_expanded` may change. -/
theorem minimax_pres : ∀ (depth : Nat) (g : Gomoku) (alpha beta : V)
    (maximizing_player : Bool) (symbol opponent_symbol : Char) (clk : Nat → ℚ) (k : Nat),
    cfgbEq g (minimax depth g alpha beta maximizing_player symbol opponent_symbol clk k).2.1
  | 0, g, _, _, _, _, _, _, _ => cfgbEq_refl g
  | depth + 1, g, alpha, beta, maxi, symbol, opponent_symbol, clk, k => by
    simp only [minimax]
    by_cases hf : is_full g = true
    · rw [if_pos hf]
      exact cfgbEq_refl g
    · rw [if_neg hf]
      by_cases ht : clk k > g.ai_time_limit
      · rw [if_pos ht]
        exact cfgbEq_refl g
      · rw [if_neg ht]
        by_cases hm : maxi = true
        · rw [if_pos hm]
          exact rowsMax_pres _ symbol beta g.board_size
            (fun g' a b k' => minimax_pres depth g' a b false symbol opponent_symbol clk k')
            (List.range g.board_size) g ⊥ alpha (k + 1)
        · rw [if_neg hm]
          exact rowsMin_pres _ opponent_symbol alpha g.board_size
            (fun g' a b k' => minimax_pres depth g' a b true symbol opponent_symbol clk k')
            (List.range g.board_size) g ⊤ beta (k + 1)

theorem idSweep_pres (symbol opponent_symbol : Char) (clk : Nat → ℚ) (depth : Nat) :
    ∀ (xs : List (Nat × Nat)) (g : Gomoku) (k : Nat) (cur_move : Option (Nat × Nat))
      (cur_score : V),
      cfgbEq g (idSweep symbol opponent_symbol clk depth xs g k cur_move cur_score).1
  | [], g, k, cur_move, cur_score => cfgbEq_refl g
  | x :: xs, g, k, cur_move, cur_score => by
    simp only [idSweep]
    by_cases hv : is_valid_move g x.1 x.2 = true
    · rw [if_pos hv]
      have hg3 := cfgbEq_place_retract g
        (minimax (depth - 1) (place g x.1 x.2 symbol) ⊥ ⊤ false symbol
          opponent_symbol clk k).2.1 x.1 x.2 symbol hv
        (minimax_pres (depth - 1) (place g x.1 x.2 symbol) ⊥ ⊤ false symbol
          opponent_symbol clk k)
      exact cfgbEq_trans hg3 (idSweep_pres symbol opponent_symbol clk depth xs _ _ _ _)
    · rw [if_neg hv]
      exact idSweep_pres symbol opponent_symbol clk depth xs g k cur_move cur_score

theorem idLoop_pres (symbol opponent_symbol : Char) (clk : Nat → ℚ) :
    ∀ (fuel : Nat) (g : Gomoku) (k depth : Nat) (best_move : Option (Nat × Nat))
      (best_score : V),
      cfgbEq g (idLoop symbol opponent_symbol clk fuel g k depth best_move best_score).2.1
  | 0, g, k, depth, best_move, best_score => cfgbEq_refl g
  | fuel + 1, g, k, depth, best_move, best_score => by
    simp only [idLoop]
    by_cases ht : clk k < g.ai_time_limit
    · rw [if_pos ht]
      exact cfgbEq_trans
        (idSweep_pres symbol opponent_symbol clk depth (rowMajor g.board_size) g (k + 1) none ⊥)
        (idLoop_pres symbol opponent_symbol clk fuel _ _ _ _ _)
    · rw [if_neg ht]
      exact cfgbEq_refl g

/-- C10: every strategy and search call returns with the board (and the
configuration) exactly as at entry: Greedy and Worst return the entry state
itself, and `minimax` / `iterative_deepening` change at most the node
counter, never the board — every speculative place is paired with a retract
on every exit path, including alpha-beta cutoffs. -/
theorem C10_strategies_restore_board (g : Gomoku) (symbol opponent_symbol : Char)
    (depth : Nat) (alpha beta : V) (maximizing_player : Bool) (clk : Nat → ℚ)
    (k fuel : Nat) :
    (greedy_ai g symbol).1 = g ∧
    (worst_ai g opponent_symbol).1 = g ∧
    cfgbEq g (minimax depth g alpha beta maximizing_player symbol opponent_symbol clk k).2.1 ∧
    cfgbEq g (iterative_deepening g symbol opponent_symbol clk fuel).2.1 := by
  refine ⟨?_, ?_, ?_, ?_⟩
  · unfold greedy_ai
    rw [greedy_ai_aux_eq]
  · unfold worst_ai
    rw [worst_ai_aux_eq]
  · exact minimax_pres depth g alpha beta maximizing_player symbol opponent_symbol clk k
  · exact idLoop_pres symbol opponent_symbol clk fuel g 0 1 none ⊥

/-- The Worst result characterised through the accumulator-fold lemma. -/
theorem worst_ai_char (g : Gomoku) (opponent_symbol : Char)
    (h : ∃ v : Nat × Nat, v.1 < g.board_size ∧ v.2 < g.board_size ∧
      is_valid_move g v.1 v.2 = true) :
    ∃ m : Nat × Nat, (worst_ai g opponent_symbol).2 = some m ∧
      m.1 < g.board_size ∧ m.2 < g.board_size ∧ is_valid_move g m.1 m.2 = true ∧
      ∀ x : Nat × Nat, x.1 < g.board_size → x.2 < g.board_size →
        is_valid_move g x.1 x.2 = true →
        worstScore g opponent_symbol m ≤ worstScore g opponent_symbol x ∧
        (worstScore g opponent_symbol x = worstScore g opponent_symbol m →
          rmIndex g.board_size m ≤ rmIndex g.board_size x) := by
  obtain ⟨v, hv1, hv2, hvv⟩ := h
  have hrw : (worst_ai g opponent_symbol).2 =
      (argminFold (validCell g) (worstScore g opponent_symbol)
        (rowMajor g.board_size) (none, ⊤)).1 := by
    unfold worst_ai
    rw [worst_ai_aux_eq]
  rcases argminFold_spec (validCell g) (worstScore g opponent_symbol)
      (rowMajor g.board_size) none ⊤ with
    ⟨heq, hall⟩ | ⟨l₁, m, l₂, hdec, heq, hvm, _, hl₁, hl₂⟩
  · exfalso
    have hmem : v ∈ rowMajor g.board_size := (mem_rowMajor _ _).mpr ⟨hv1, hv2⟩
    have := hall v hmem (by unfold validCell; exact hvv)
    exact absurd this (by simp)
  · have hmmem : m ∈ rowMajor g.board_size := by
      rw [hdec]
      exact List.mem_append_right _ (List.mem_cons_self _ _)
    obtain ⟨hm1, hm2⟩ := (mem_rowMajor _ _).mp hmmem
    refine ⟨m, by rw [hrw, heq], hm1, hm2, by unfold validCell at hvm; exact hvm, ?_⟩
    intro x hx1 hx2 hxv
    have hxmem : x ∈ rowMajor g.board_size := (mem_rowMajor _ _).mpr ⟨hx1, hx2⟩
    rw [hdec] at hxmem
    have hvx : validCell g x = true := by unfold validCell; exact hxv
    rcases List.mem_append.mp hxmem with hx | hx
    · have := hl₁ x hx hvx
      have hlt : worstScore g opponent_symbol m < worstScore g opponent_symbol x := by
        exact_mod_cast this
      exact ⟨le_of_lt hlt, fun he => absurd he (ne_of_gt hlt)⟩
    · rcases List.mem_cons.mp hx with rfl | hx
      · exact ⟨le_refl _, fun _ => le_refl _⟩
      · have := hl₂ x hx hvx
        have hle : worstScore g opponent_symbol m ≤ worstScore g opponent_symbol x := by
          exact_mod_cast this
        refine ⟨hle, fun _ => le_of_lt ?_⟩
        exact pairwise_decomp l₁ m l₂ (hdec ▸ rowMajor_pairwise g.board_size) x hx

/-- C6: the Worst strategy is dispatched with the *opponent's* symbol, places
and evaluates that symbol at every valid cell (retracting each time), and
returns the cell minimising the opponent's score, ties to the first cell in
row-major order. -/
theorem C6_worst_minimises_opponent (g : Gomoku) (player opponent : Player)
    (pick : List (Nat × Nat) → Option (Nat × Nat)) (clk : Nat → ℚ) (fuel : Nat)
    (hp : player.ai_type = some "worst")
    (h : ∃ v : Nat × Nat, v.1 < g.board_size ∧ v.2 < g.board_size ∧
      is_valid_move g v.1 v.2 = true) :
    (get_ai_move g player opponent pick clk fuel).1 = (worst_ai g opponent.symbol).2 ∧
    ∃ m : Nat × Nat, (worst_ai g opponent.symbol).2 = some m ∧
      m.1 < g.board_size ∧ m.2 < g.board_size ∧ is_valid_move g m.1 m.2 = true ∧
      ∀ x : Nat × Nat, x.1 < g.board_size → x.2 < g.board_size →
        is_valid_move g x.1 x.2 = true →
        worstScore g opponent.symbol m ≤ worstScore g opponent.symbol x ∧
        (worstScore g opponent.symbol x = worstScore g opponent.symbol m →
          rmIndex g.board_size m ≤ rmIndex g.board_size x) := by
  constructor
  · unfold get_ai_move
    rw [hp]
    rw [if_neg (by decide), if_neg (by decide), if_pos rfl]
  · exact worst_ai_char g opponent.symbol h

/-- C6 witness at a concrete input. -/
theorem C6_worst_minimises_opponent_witness :
    (get_ai_move gW ⟨'X', some "worst"⟩ ⟨'O', none⟩ (fun _ => none) (fun _ => 0) 0).1 =
      (worst_ai gW 'O').2 ∧
    ∃ m : Nat × Nat, (worst_ai gW 'O').2 = some m ∧
      m.1 < gW.board_size ∧ m.2 < gW.board_size ∧ is_valid_move gW m.1 m.2 = true ∧
      ∀ x : Nat × Nat, x.1 < gW.board_size → x.2 < gW.board_size →
        is_valid_move gW x.1 x.2 = true →
        worstScore gW 'O' m ≤ worstScore gW 'O' x ∧
        (worstScore gW 'O' x = worstScore gW 'O' m →
          rmIndex gW.board_size m ≤ rmIndex gW.board_size x) :=
  C6_worst_minimises_opponent gW ⟨'X', some "worst"⟩ ⟨'O', none⟩ (fun _ => none)
    (fun _ => 0) 0 rfl ⟨(0, 0), by decide, by decide, by decide⟩

/-- A depth-1 sweep turns the accumulator `some` as soon as it meets a valid
cell, and keeps it `some` afterwards (depth-1 `minimax` calls return finite
evaluations, which beat the initial `-inf`). -/
theorem idSweep1_some (symbol opponent_symbol : Char) (clk : Nat → ℚ) :
    ∀ (xs : List (Nat × Nat)) (g : Gomoku) (k : Nat) (cur : Option (Nat × Nat)) (s : V),
      (cur.isSome = true ∨ (s = ⊥ ∧ ∃ x ∈ xs, is_valid_move g x.1 x.2 = true)) →
      ((idSweep symbol opponent_symbol clk 1 xs g k cur s).2.2.1).isSome = true
  | [], g, k, cur, s, h => by
    rcases h with h | ⟨_, x, hx, _⟩
    · exact h
    · exact absurd hx (List.not_mem_nil x)
  | x :: xs, g, k, cur, s, h => by
    simp only [idSweep]
    by_cases hv : is_valid_move g x.1 x.2 = true
    · rw [if_pos hv]
      rcases h with h | ⟨rfl, _⟩
      · refine idSweep1_some symbol opponent_symbol clk xs _ _ _ _ (Or.inl ?_)
        by_cases hlt : s <
            (minimax (1 - 1) (place g x.1 x.2 symbol) ⊥ ⊤ false symbol
              opponent_symbol clk k).1
        · rw [if_pos hlt]
          rfl
        · rw [if_neg hlt]
          exact h
      · refine idSweep1_some symbol opponent_symbol clk xs _ _ _ _ (Or.inl ?_)
        have hbot : (⊥ : V) <
            (minimax (1 - 1) (place g x.1 x.2 symbol) ⊥ ⊤ false symbol
              opponent_symbol clk k).1 := by
          show (⊥ : V) < toV (evaluate_board (place g x.1 x.2 symbol) symbol)
          exact WithBot.bot_lt_coe _
        rw [if_pos hbot]
        rfl
    · rw [if_neg hv]
      refine idSweep1_some symbol opponent_symbol clk xs g k cur s ?_
      rcases h with h | ⟨rfl, v, hv', hvv⟩
      · exact Or.inl h
      · rcases List.mem_cons.mp hv' with rfl | hmem
        · exact absurd hvv hv
        · exact Or.inr ⟨rfl, v, hmem, hvv⟩

/-- A committed best move is never lost by later loop iterations. -/
theorem idLoop_keeps_some (symbol opponent_symbol : Char) (clk : Nat → ℚ) :
    ∀ (fuel : Nat) (g : Gomoku) (k depth : Nat) (best : Option (Nat × Nat)) (s : V),
      best.isSome = true →
      ((idLoop symbol opponent_symbol clk fuel g k depth best s).1).isSome = true
  | 0, g, k, depth, best, s, h => h
  | fuel + 1, g, k, depth, best, s, h => by
    simp only [idLoop]
    by_cases ht : clk k < g.ai_time_limit
    · rw [if_pos ht]
      refine idLoop_keeps_some symbol opponent_symbol clk fuel _ _ _ _ _ ?_
      by_cases hs : (idSweep symbol opponent_symbol clk depth (rowMajor g.board_size) g
          (k + 1) none ⊥).2.2.1.isSome = true
      · rw [if_pos hs]
        exact hs
      · rw [if_neg hs]
        exact h
    · rw [if_neg ht]
      exact h

/-- C1 counterexample: on a 2×2 board full of valid moves but with
`ai_time_limit = 0`, `iterative_deepening` returns `none` — the while
condition `elapsed < 0` is already false at the first test, so not even the
depth-1 sweep runs. -/
theorem C1_counterexample_time_limit_zero :
    is_valid_move (⟨2, 2, 0, [['.', '.'], ['.', '.']], 0⟩ : Gomoku) 0 0 = true ∧
    (iterative_deepening (⟨2, 2, 0, [['.', '.'], ['.', '.']], 0⟩ : Gomoku) 'X' 'O'
      (fun _ => 0) 5).1 = none := by
  constructor
  · decide
  · rfl

/-- C1 amended: with `ai_time_limit ≤ 0` (and a non-negative clock) no sweep
runs and `none` is returned; conversely, whenever the clock has not reached
the limit at the first while test and a valid move exists, the depth-1 sweep
runs to completion — regardless of how the clock advances afterwards, i.e.
even if the deadline passes mid-sweep — and its move is committed and
returned. -/
theorem C1_amended_iterative_deepening (g : Gomoku) (symbol opponent_symbol : Char)
    (clk : Nat → ℚ) (fuel : Nat) :
    (g.ai_time_limit ≤ 0 → (∀ j, 0 ≤ clk j) →
      (iterative_deepening g symbol opponent_symbol clk fuel).1 = none) ∧
    (0 < fuel → clk 0 < g.ai_time_limit →
      (∃ v : Nat × Nat, v.1 < g.board_size ∧ v.2 < g.board_size ∧
        is_valid_move g v.1 v.2 = true) →
      (iterative_deepening g symbol opponent_symbol clk fuel).1 ≠ none) := by
  constructor
  · intro hlim hclk
    unfold iterative_deepening
    match fuel with
    | 0 => rfl
    | fuel + 1 =>
      simp only [idLoop]
      rw [if_neg (by
        intro hlt
        exact absurd (lt_of_le_of_lt (hclk 0) hlt) (not_lt.mpr hlim))]
  · intro hfuel hclk hval
    unfold iterative_deepening
    match fuel, hfuel with
    | fuel + 1, _ =>
      simp only [idLoop]
      rw [if_pos hclk]
      intro hnone
      have hsome : ((idSweep symbol opponent_symbol clk 1 (rowMajor g.board_size) g 1
          none ⊥).2.2.1).isSome = true := by
        refine idSweep1_some symbol opponent_symbol clk _ g 1 none ⊥ (Or.inr ⟨rfl, ?_⟩)
        obtain ⟨v, h1, h2, h3⟩ := hval
        exact ⟨v, (mem_rowMajor _ _).mpr ⟨h1, h2⟩, h3⟩
      have hkeep := idLoop_keeps_some symbol opponent_symbol clk fuel
        (idSweep symbol opponent_symbol clk 1 (rowMajor g.board_size) g 1 none ⊥).1
        (idSweep symbol opponent_symbol clk 1 (rowMajor g.board_size) g 1 none ⊥).2.1
        2
        (if (idSweep symbol opponent_symbol clk 1 (rowMajor g.board_size) g 1
            none ⊥).2.2.1.isSome
         then (idSweep symbol opponent_symbol clk 1 (rowMajor g.board_size) g 1 none ⊥).2.2.1
         else none)
        (if (idSweep symbol opponent_symbol clk 1 (rowMajor g.board_size) g 1
            none ⊥).2.2.1.isSome
         then (idSweep symbol opponent_symbol clk 1 (rowMajor g.board_size) g 1 none ⊥).2.2.2
         else ⊥)
        (by rw [if_pos hsome]; exact hsome)
      rw [hnone] at hkeep
      exact Bool.false_ne_true hkeep

/-- C1 amended witness: both regimes exercised at concrete inputs. -/
theorem C1_amended_iterative_deepening_witness :
    (iterative_deepening (⟨2, 2, 0, [['.', '.'], ['.', '.']], 0⟩ : Gomoku) 'O' 'X'
      (fun _ => 1) 3).1 = none ∧
    (iterative_deepening gW 'X' 'O' (fun _ => 0) 1).1 ≠ none :=
  ⟨(C1_amended_iterative_deepening _ 'O' 'X' (fun _ => 1) 3).1 (le_refl 0)
      (fun _ => by norm_num),
   (C1_amended_iterative_deepening gW 'X' 'O' (fun _ => 0) 1).2 (by decide)
      (by norm_num [gW]) ⟨(0, 0), by decide, by decide, by decide⟩⟩

section Instrumented

variable (childI : Gomoku → V → V → Nat → Nat → Nat → V × Gomoku × Nat × Nat × Nat)
variable (child : Gomoku → V → V → Nat → V × Gomoku × Nat)

theorem rowMaxI_agree (symbol : Char) (beta : V) (row : Nat)
    (h1 : ∀ (g' : Gomoku) (a b : V) (k' v c : Nat),
      (childI g' a b k' v c).1 = (child g' a b k').1)
    (h2 : ∀ (g' : Gomoku) (a b : V) (k' v c : Nat),
      (childI g' a b k' v c).2.1 = (child g' a b k').2.1)
    (h3 : ∀ (g' : Gomoku) (a b : V) (k' v c : Nat),
      (childI g' a b k' v c).2.2.1 = (child g' a b k').2.2) :
    ∀ (cols : List Nat) (g : Gomoku) (best alpha : V) (k vis cuts : Nat),
      (rowMaxI childI symbol beta row cols (g, best, alpha, k, vis, cuts)).1 =
        (rowMax child symbol beta row cols (g, best, alpha, k)).1 ∧
      (rowMaxI childI symbol beta row cols (g, best, alpha, k, vis, cuts)).2.1 =
        (rowMax child symbol beta row cols (g, best, alpha, k)).2.1 ∧
      (rowMaxI childI symbol beta row cols (g, best, alpha, k, vis, cuts)).2.2.1 =
        (rowMax child symbol beta row cols (g, best, alpha, k)).2.2.1 ∧
      (rowMaxI childI symbol beta row cols (g, best, alpha, k, vis, cuts)).2.2.2.1 =
        (rowMax child symbol beta row cols (g, best, alpha, k)).2.2.2
  | [], g, best, alpha, k, vis, cuts => ⟨rfl, rfl, rfl, rfl⟩
  | col :: cols, g, best, alpha, k, vis, cuts => by
    simp only [rowMaxI, rowMax, h1, h2, h3]
    split_ifs with hv hb
    · exact ⟨rfl, rfl, rfl, rfl⟩
    · exact rowMaxI_agree symbol beta row h1 h2 h3 cols _ _ _ _ _ _
    · exact rowMaxI_agree symbol beta row h1 h2 h3 cols g best alpha k vis cuts

theorem rowsMaxI_agree (symbol : Char) (beta : V) (size : Nat)
    (h1 : ∀ (g' : Gomoku) (a b : V) (k' v c : Nat),
      (childI g' a b k' v c).1 = (child g' a b k').1)
    (h2 : ∀ (g' : Gomoku) (a b : V) (k' v c : Nat),
      (childI g' a b k' v c).2.1 = (child g' a b k').2.1)
    (h3 : ∀ (g' : Gomoku) (a b : V) (k' v c : Nat),
      (childI g' a b k' v c).2.2.1 = (child g' a b k').2.2) :
    ∀ (rows : List Nat) (g : Gomoku) (best alpha : V) (k vis cuts : Nat),
      (rowsMaxI childI symbol beta size rows (g, best, alpha, k, vis, cuts)).1 =
        (rowsMax child symbol beta size rows (g, best, alpha, k)).1 ∧
      (rowsMaxI childI symbol beta size rows (g, best, alpha, k, vis, cuts)).2.1 =
        (rowsMax child symbol beta size rows (g, best, alpha, k)).2.1 ∧
      (rowsMaxI childI symbol beta size rows (g, best, alpha, k, vis, cuts)).2.2.1 =
        (rowsMax child symbol beta size rows (g, best, alpha, k)).2.2.1 ∧
      (rowsMaxI childI symbol beta size rows (g, best, alpha, k, vis, cuts)).2.2.2.1 =
        (rowsMax child symbol beta size rows (g, best, alpha, k)).2.2.2
  | [], g, best, alpha, k, vis, cuts => ⟨rfl, rfl, rfl, rfl⟩
  | row :: rows, g, best, alpha, k, vis, cuts => by
    simp only [rowsMaxI, rowsMax]
    obtain ⟨e1, e2, e3, e4⟩ :=
      rowMaxI_agree childI child symbol beta row h1 h2 h3 (List.range size) g best alpha k vis cuts
    rw [show rowMax child symbol beta row (List.range size) (g, best, alpha, k) =
        ((rowMaxI childI symbol beta row (List.range size) (g, best, alpha, k, vis, cuts)).1,
         (rowMaxI childI symbol beta row (List.range size) (g, best, alpha, k, vis, cuts)).2.1,
         (rowMaxI childI symbol beta row (List.range size) (g, best, alpha, k, vis, cuts)).2.2.1,
         (rowMaxI childI symbol beta row (List.range size)
           (g, best, alpha, k, vis, cuts)).2.2.2.1) from by rw [e1, e2, e3, e4]]
    exact rowsMaxI_agree symbol beta size h1 h2 h3 rows _ _ _ _ _ _

theorem rowMinI_agree (opponent_symbol : Char) (alpha : V) (row : Nat)
    (h1 : ∀ (g' : Gomoku) (a b : V) (k' v c : Nat),
      (childI g' a b k' v c).1 = (child g' a b k').1)
    (h2 : ∀ (g' : Gomoku) (a b : V) (k' v c : Nat),
      (childI g' a b k' v c).2.1 = (child g' a b k').2.1)
    (h3 : ∀ (g' : Gomoku) (a b : V) (k' v c : Nat),
      (childI g' a b k' v c).2.2.1 = (child g' a b k').2.2) :
    ∀ (cols : List Nat) (g : Gomoku) (best beta : V) (k vis cuts : Nat),
      (rowMinI childI opponent_symbol alpha row cols (g, best, beta, k, vis, cuts)).1 =
        (rowMin child opponent_symbol alpha row cols (g, best, beta, k)).1 ∧
      (rowMinI childI opponent_symbol alpha row cols (g, best, beta, k, vis, cuts)).2.1 =
        (rowMin child opponent_symbol alpha row cols (g, best, beta, k)).2.1 ∧
      (rowMinI childI opponent_symbol alpha row cols (g, best, beta, k, vis, cuts)).2.2.1 =
        (rowMin child opponent_symbol alpha row cols (g, best, beta, k)).2.2.1 ∧
      (rowMinI childI opponent_symbol alpha row cols (g, best, beta, k, vis, cuts)).2.2.2.1 =
        (rowMin child opponent_symbol alpha row cols (g, best, beta, k)).2.2.2
  | [], g, best, beta, k, vis, cuts => ⟨rfl, rfl, rfl, rfl⟩
  | col :: cols, g, best, beta, k, vis, cuts => by
    simp only [rowMinI, rowMin, h1, h2, h3]
    split_ifs with hv hb
    · exact ⟨rfl, rfl, rfl, rfl⟩
    · exact rowMinI_agree opponent_symbol alpha row h1 h2 h3 cols _ _ _ _ _ _
    · exact rowMinI_agree opponent_symbol alpha row h1 h2 h3 cols g best beta k vis cuts

theorem rowsMinI_agree (opponent_symbol : Char) (alpha : V) (size : Nat)
    (h1 : ∀ (g' : Gomoku) (a b : V) (k' v c : Nat),
      (childI g' a b k' v c).1 = (child g' a b k').1)
    (h2 : ∀ (g' : Gomoku) (a b : V) (k' v c : Nat),
      (childI g' a b k' v c).2.1 = (child g' a b k').2.1)
    (h3 : ∀ (g' : Gomoku) (a b : V) (k' v c : Nat),
      (childI g' a b k' v c).2.2.1 = (child g' a b k').2.2) :
    ∀ (rows : List Nat) (g : Gomoku) (best beta : V) (k vis cuts : Nat),
      (rowsMinI childI opponent_symbol alpha size rows (g, best, beta, k, vis, cuts)).1 =
        (rowsMin child opponent_symbol alpha size rows (g, best, beta, k)).1 ∧
      (rowsMinI childI opponent_symbol alpha size rows (g, best, beta, k, vis, cuts)).2.1 =
        (rowsMin child opponent_symbol alpha size rows (g, best, beta, k)).2.1 ∧
      (rowsMinI childI opponent_symbol alpha size rows (g, best, beta, k, vis, cuts)).2.2.1 =
        (rowsMin child opponent_symbol alpha size rows (g, best, beta, k)).2.2.1 ∧
      (rowsMinI childI opponent_symbol alpha size rows (g, best, beta, k, vis, cuts)).2.2.2.1 =
        (rowsMin child opponent_symbol alpha size rows (g, best, beta, k)).2.2.2
  | [], g, best, beta, k, vis, cuts => ⟨rfl, rfl, rfl, rfl⟩
  | row :: rows, g, best, beta, k, vis, cuts => by
    simp only [rowsMinI, rowsMin]
    obtain ⟨e1, e2, e3, e4⟩ :=
      rowMinI_agree childI child opponent_symbol alpha row h1 h2 h3 (List.range size)
        g best beta k vis cuts
    rw [show rowMin child opponent_symbol alpha row (List.range size) (g, best, beta, k) =
        ((rowMinI childI opponent_symbol alpha row (List.range size)
           (g, best, beta, k, vis, cuts)).1,
         (rowMinI childI opponent_symbol alpha row (List.range size)
           (g, best, beta, k, vis, cuts)).2.1,
         (rowMinI childI opponent_symbol alpha row (List.range size)
           (g, best, beta, k, vis, cuts)).2.2.1,
         (rowMinI childI opponent_symbol alpha row (List.range size)
           (g, best, beta, k, vis, cuts)).2.2.2.1) from by rw [e1, e2, e3, e4]]
    exact rowsMinI_agree opponent_symbol alpha size h1 h2 h3 rows _ _ _ _ _ _

end Instrumented

/-- The instrumented search agrees with the source search on value, state
and clock index. -/
theorem minimaxI_agree : ∀ (depth : Nat) (g : Gomoku) (alpha beta : V)
    (maxi : Bool) (symbol opponent_symbol : Char) (clk : Nat → ℚ) (k vis cuts : Nat),
    (minimaxI depth g alpha beta maxi symbol opponent_symbol clk k vis cuts).1 =
      (minimax depth g alpha beta maxi symbol opponent_symbol clk k).1 ∧
    (minimaxI depth g alpha beta maxi symbol opponent_symbol clk k vis cuts).2.1 =
      (minimax depth g alpha beta maxi symbol opponent_symbol clk k).2.1 ∧
    (minimaxI depth g alpha beta maxi symbol opponent_symbol clk k vis cuts).2.2.1 =
      (minimax depth g alpha beta maxi symbol opponent_symbol clk k).2.2
  | 0, g, alpha, beta, maxi, symbol, opponent_symbol, clk, k, vis, cuts => ⟨rfl, rfl, rfl⟩
  | depth + 1, g, alpha, beta, maxi, symbol, opponent_symbol, clk, k, vis, cuts => by
    simp only [minimaxI, minimax]
    split_ifs with hf ht hm
    · exact ⟨rfl, rfl, rfl⟩
    · exact ⟨rfl, rfl, rfl⟩
    · obtain ⟨e1, e2, e3, e4⟩ := rowsMaxI_agree
        (fun g' a b k' v c => minimaxI depth g' a b false symbol opponent_symbol clk k' v c)
        (fun g' a b k' => minimax depth g' a b false symbol opponent_symbol clk k')
        symbol beta g.board_size
        (fun g' a b k' v c => (minimaxI_agree depth g' a b false symbol opponent_symbol clk k' v c).1)
        (fun g' a b k' v c => (minimaxI_agree depth g' a b false symbol opponent_symbol clk k' v c).2.1)
        (fun g' a b k' v c => (minimaxI_agree depth g' a b false symbol opponent_symbol clk k' v c).2.2)
        (List.range g.board_size) g ⊥ alpha (k + 1) vis cuts
      exact ⟨e2, e1, by rw [show (rowsMaxI
        (fun g' a b k' v c => minimaxI depth g' a b false symbol opponent_symbol clk k' v c)
        symbol beta g.board_size (List.range g.board_size)
        (g, ⊥, alpha, k + 1, vis, cuts)).2.2.2.1 = _ from e4]⟩
    · obtain ⟨e1, e2, e3, e4⟩ := rowsMinI_agree
        (fun g' a b k' v c => minimaxI depth g' a b true symbol opponent_symbol clk k' v c)
        (fun g' a b k' => minimax depth g' a b true symbol opponent_symbol clk k')
        opponent_symbol alpha g.board_size
        (fun g' a b k' v c => (minimaxI_agree depth g' a b true symbol opponent_symbol clk k' v c).1)
        (fun g' a b k' v c => (minimaxI_agree depth g' a b true symbol opponent_symbol clk k' v c).2.1)
        (fun g' a b k' v c => (minimaxI_agree depth g' a b true symbol opponent_symbol clk k' v c).2.2)
        (List.range g.board_size) g ⊤ beta (k + 1) vis cuts
      exact ⟨e2, e1, by rw [show (rowsMinI
        (fun g' a b k' v c => minimaxI depth g' a b true symbol opponent_symbol clk k' v c)
        opponent_symbol alpha g.board_size (List.range g.board_size)
        (g, ⊤, beta, k + 1, vis, cuts)).2.2.2.1 = _ from e4]⟩

section Accounting

variable (childI : Gomoku → V → V → Nat → Nat → Nat → V × Gomoku × Nat × Nat × Nat)

/-- Node accounting for one instrumented row scan: the counter gains one per
visited cell except at cut cells. -/
theorem rowMaxI_count (symbol : Char) (beta : V) (row : Nat)
    (hchild : ∀ (g' : Gomoku) (a b : V) (k' v c : Nat),
      (childI g' a b k' v c).2.1.nodes_expanded + (childI g' a b k' v c).2.2.2.2 + v =
        g'.nodes_expanded + (childI g' a b k' v c).2.2.2.1 + c) :
    ∀ (cols : List Nat) (g : Gomoku) (best alpha : V) (k vis cuts : Nat),
      (rowMaxI childI symbol beta row cols (g, best, alpha, k, vis, cuts)).1.nodes_expanded +
        (rowMaxI childI symbol beta row cols (g, best, alpha, k, vis, cuts)).2.2.2.2.2 + vis =
      g.nodes_expanded +
        (rowMaxI childI symbol beta row cols (g, best, alpha, k, vis, cuts)).2.2.2.2.1 + cuts
  | [], g, best, alpha, k, vis, cuts => by simp only [rowMaxI]; omega
  | col :: cols, g, best, alpha, k, vis, cuts => by
    simp only [rowMaxI]
    split_ifs with hv hb
    · have h := hchild (place g row col symbol) alpha beta k (vis + 1) cuts
      simp only [show (place g row col symbol).nodes_expanded = g.nodes_expanded from rfl] at h
      simp only [show ∀ g' : Gomoku, (retractOn g' row col).nodes_expanded =
        g'.nodes_expanded from fun _ => rfl]
      omega
    · have h := hchild (place g row col symbol) alpha beta k (vis + 1) cuts
      simp only [show (place g row col symbol).nodes_expanded = g.nodes_expanded from rfl] at h
      have hrec := rowMaxI_count symbol beta row hchild cols
        ({ retractOn (childI (place g row col symbol) alpha beta k (vis + 1) cuts).2.1
            row col with
          nodes_expanded :=
            (retractOn (childI (place g row col symbol) alpha beta k (vis + 1) cuts).2.1
              row col).nodes_expanded + 1 })
        (max best (childI (place g row col symbol) alpha beta k (vis + 1) cuts).1)
        (max alpha (childI (place g row col symbol) alpha beta k (vis + 1) cuts).1)
        ((childI (place g row col symbol) alpha beta k (vis + 1) cuts).2.2.1)
        ((childI (place g row col symbol) alpha beta k (vis + 1) cuts).2.2.2.1)
        ((childI (place g row col symbol) alpha beta k (vis + 1) cuts).2.2.2.2)
      simp only [show ∀ g' : Gomoku, ∀ n : Nat, ({ g' with nodes_expanded := n } :
        Gomoku).nodes_expanded = n from fun _ _ => rfl,
        show ∀ g' : Gomoku, (retractOn g' row col).nodes_expanded =
          g'.nodes_expanded from fun _ => rfl] at hrec ⊢
      omega
    · exact rowMaxI_count symbol beta row hchild cols g best alpha k vis cuts

theorem rowsMaxI_count (symbol : Char) (beta : V) (size : Nat)
    (hchild : ∀ (g' : Gomoku) (a b : V) (k' v c : Nat),
      (childI g' a b k' v c).2.1.nodes_expanded + (childI g' a b k' v c).2.2.2.2 + v =
        g'.nodes_expanded + (childI g' a b k' v c).2.2.2.1 + c) :
    ∀ (rows : List Nat) (g : Gomoku) (best alpha : V) (k vis cuts : Nat),
      (rowsMaxI childI symbol beta size rows (g, best, alpha, k, vis, cuts)).1.nodes_expanded +
        (rowsMaxI childI symbol beta size rows (g, best, alpha, k, vis, cuts)).2.2.2.2.2 + vis =
      g.nodes_expanded +
        (rowsMaxI childI symbol beta size rows (g, best, alpha, k, vis, cuts)).2.2.2.2.1 + cuts
  | [], g, best, alpha, k, vis, cuts => by simp only [rowsMaxI]; omega
  | row :: rows, g, best, alpha, k, vis, cuts => by
    simp only [rowsMaxI]
    have h1 := rowMaxI_count childI symbol beta row hchild (List.range size) g best alpha k vis cuts
    have h2 := rowsMaxI_count symbol beta size hchild rows
      (rowMaxI childI symbol beta row (List.range size) (g, best, alpha, k, vis, cuts)).1
      (rowMaxI childI symbol beta row (List.range size) (g, best, alpha, k, vis, cuts)).2.1
      (rowMaxI childI symbol beta row (List.range size) (g, best, alpha, k, vis, cuts)).2.2.1
      (rowMaxI childI symbol beta row (List.range size) (g, best, alpha, k, vis, cuts)).2.2.2.1
      (rowMaxI childI symbol beta row (List.range size) (g, best, alpha, k, vis, cuts)).2.2.2.2.1
      (rowMaxI childI symbol beta row (List.range size) (g, best, alpha, k, vis, cuts)).2.2.2.2.2
    rw [show ((rowMaxI childI symbol beta row (List.range size)
          (g, best, alpha, k, vis, cuts)).1,
        (rowMaxI childI symbol beta row (List.range size) (g, best, alpha, k, vis, cuts)).2.1,
        (rowMaxI childI symbol beta row (List.range size) (g, best, alpha, k, vis, cuts)).2.2.1,
        (rowMaxI childI symbol beta row (List.range size) (g, best, alpha, k, vis, cuts)).2.2.2.1,
        (rowMaxI childI symbol beta row (List.range size)
          (g, best, alpha, k, vis, cuts)).2.2.2.2.1,
        (rowMaxI childI symbol beta row (List.range size)
          (g, best, alpha, k, vis, cuts)).2.2.2.2.2) =
      rowMaxI childI symbol beta row (List.range size) (g, best, alpha, k, vis, cuts)
      from rfl] at h2
    omega

theorem rowMinI_count (opponent_symbol : Char) (alpha : V) (row : Nat)
    (hchild : ∀ (g' : Gomoku) (a b : V) (k' v c : Nat),
      (childI g' a b k' v c).2.1.nodes_expanded + (childI g' a b k' v c).2.2.2.2 + v =
        g'.nodes_expanded + (childI g' a b k' v c).2.2.2.1 + c) :
    ∀ (cols : List Nat) (g : Gomoku) (best beta : V) (k vis cuts : Nat),
      (rowMinI childI opponent_symbol alpha row cols
          (g, best, beta, k, vis, cuts)).1.nodes_expanded +
        (rowMinI childI opponent_symbol alpha row cols
          (g, best, beta, k, vis, cuts)).2.2.2.2.2 + vis =
      g.nodes_expanded +
        (rowMinI childI opponent_symbol alpha row cols
          (g, best, beta, k, vis, cuts)).2.2.2.2.1 + cuts
  | [], g, best, beta, k, vis, cuts => by simp only [rowMinI]; omega
  | col :: cols, g, best, beta, k, vis, cuts => by
    simp only [rowMinI]
    split_ifs with hv hb
    · have h := hchild (place g row col opponent_symbol) alpha beta k (vis + 1) cuts
      simp only [show (place g row col opponent_symbol).nodes_expanded =
        g.nodes_expanded from rfl] at h
      simp only [show ∀ g' : Gomoku, (retractOn g' row col).nodes_expanded =
        g'.nodes_expanded from fun _ => rfl]
      omega
    · have h := hchild (place g row col opponent_symbol) alpha beta k (vis + 1) cuts
      simp only [show (place g row col opponent_symbol).nodes_expanded =
        g.nodes_expanded from rfl] at h
      have hrec := rowMinI_count opponent_symbol alpha row hchild cols
        ({ retractOn (childI (place g row col opponent_symbol) alpha beta k
            (vis + 1) cuts).2.1 row col with
          nodes_expanded :=
            (retractOn (childI (place g row col opponent_symbol) alpha beta k
              (vis + 1) cuts).2.1 row col).nodes_expanded + 1 })
        (min best (childI (place g row col opponent_symbol) alpha beta k (vis + 1) cuts).1)
        (min beta (childI (place g row col opponent_symbol) alpha beta k (vis + 1) cuts).1)
        ((childI (place g row col opponent_symbol) alpha beta k (vis + 1) cuts).2.2.1)
        ((childI (place g row col opponent_symbol) alpha beta k (vis + 1) cuts).2.2.2.1)
        ((childI (place g row col opponent_symbol) alpha beta k (vis + 1) cuts).2.2.2.2)
      simp only [show ∀ g' : Gomoku, ∀ n : Nat, ({ g' with nodes_expanded := n } :
        Gomoku).nodes_expanded = n from fun _ _ => rfl,
        show ∀ g' : Gomoku, (retractOn g' row col).nodes_expanded =
          g'.nodes_expanded from fun _ => rfl] at hrec ⊢
      omega
    · exact rowMinI_count opponent_symbol alpha row hchild cols g best beta k vis cuts

theorem rowsMinI_count (opponent_symbol : Char) (alpha : V) (size : Nat)
    (hchild : ∀ (g' : Gomoku) (a b : V) (k' v c : Nat),
      (childI g' a b k' v c).2.1.nodes_expanded + (childI g' a b k' v c).2.2.2.2 + v =
        g'.nodes_expanded + (childI g' a b k' v c).2.2.2.1 + c) :
    ∀ (rows : List Nat) (g : Gomoku) (best beta : V) (k vis cuts : Nat),
      (rowsMinI childI opponent_symbol alpha size rows
          (g, best, beta, k, vis, cuts)).1.nodes_expanded +
        (rowsMinI childI opponent_symbol alpha size rows
          (g, best, beta, k, vis, cuts)).2.2.2.2.2 + vis =
      g.nodes_expanded +
        (rowsMinI childI opponent_symbol alpha size rows
          (g, best, beta, k, vis, cuts)).2.2.2.2.1 + cuts
  | [], g, best, beta, k, vis, cuts => by simp only [rowsMinI]; omega
  | row :: rows, g, best, beta, k, vis, cuts => by
    simp only [rowsMinI]
    have h1 := rowMinI_count childI opponent_symbol alpha row hchild (List.range size)
      g best beta k vis cuts
    have h2 := rowsMinI_count opponent_symbol alpha size hchild rows
      (rowMinI childI opponent_symbol alpha row (List.range size) (g, best, beta, k, vis, cuts)).1
      (rowMinI childI opponent_symbol alpha row (List.range size)
        (g, best, beta, k, vis, cuts)).2.1
      (rowMinI childI opponent_symbol alpha row (List.range size)
        (g, best, beta, k, vis, cuts)).2.2.1
      (rowMinI childI opponent_symbol alpha row (List.range size)
        (g, best, beta, k, vis, cuts)).2.2.2.1
      (rowMinI childI opponent_symbol alpha row (List.range size)
        (g, best, beta, k, vis, cuts)).2.2.2.2.1
      (rowMinI childI opponent_symbol alpha row (List.range size)
        (g, best, beta, k, vis, cuts)).2.2.2.2.2
    rw [show ((rowMinI childI opponent_symbol alpha row (List.range size)
          (g, best, beta, k, vis, cuts)).1,
        (rowMinI childI opponent_symbol alpha row (List.range size)
          (g, best, beta, k, vis, cuts)).2.1,
        (rowMinI childI opponent_symbol alpha row (List.range size)
          (g, best, beta, k, vis, cuts)).2.2.1,
        (rowMinI childI opponent_symbol alpha row (List.range size)
          (g, best, beta, k, vis, cuts)).2.2.2.1,
        (rowMinI childI opponent_symbol alpha row (List.range size)
          (g, best, beta, k, vis, cuts)).2.2.2.2.1,
        (rowMinI childI opponent_symbol alpha row (List.range size)
          (g, best, beta, k, vis, cuts)).2.2.2.2.2) =
      rowMinI childI opponent_symbol alpha row (List.range size) (g, best, beta, k, vis, cuts)
      from rfl] at h2
    omega

end Accounting

/-- Global node accounting: across a whole (sub)search, the node counter
gains exactly the number of visited cells minus the number of cells at which
the prune fired. -/
theorem minimaxI_count : ∀ (depth : Nat) (g : Gomoku) (alpha beta : V)
    (maxi : Bool) (symbol opponent_symbol : Char) (clk : Nat → ℚ) (k vis cuts : Nat),
    (minimaxI depth g alpha beta maxi symbol opponent_symbol clk k vis cuts).2.1.nodes_expanded +
      (minimaxI depth g alpha beta maxi symbol opponent_symbol clk k vis cuts).2.2.2.2 + vis =
    g.nodes_expanded +
      (minimaxI depth g alpha beta maxi symbol opponent_symbol clk k vis cuts).2.2.2.1 + cuts
  | 0, g, alpha, beta, maxi, symbol, opponent_symbol, clk, k, vis, cuts => by
    simp only [minimaxI]
    omega
  | depth + 1, g, alpha, beta, maxi, symbol, opponent_symbol, clk, k, vis, cuts => by
    simp only [minimaxI]
    split_ifs with hf ht hm
    · dsimp only
      omega
    · dsimp only
      omega
    · exact rowsMaxI_count
        (fun g' a b k' v c => minimaxI depth g' a b false symbol opponent_symbol clk k' v c)
        symbol beta g.board_size
        (fun g' a b k' v c =>
          minimaxI_count depth g' a b false symbol opponent_symbol clk k' v c)
        (List.range g.board_size) g ⊥ alpha (k + 1) vis cuts
    · exact rowsMinI_count
        (fun g' a b k' v c => minimaxI depth g' a b true symbol opponent_symbol clk k' v c)
        opponent_symbol alpha g.board_size
        (fun g' a b k' v c =>
          minimaxI_count depth g' a b true symbol opponent_symbol clk k' v c)
        (List.range g.board_size) g ⊤ beta (k + 1) vis cuts

/-- C3 counterexample: on the empty 2×2 board at depth 2, the search visits
15 cells but the node counter only reaches 13, because the increment sits
*after* the `beta ≤ alpha` check and the two prune-trigger cells are
skipped — refuting "the cell at which pruning triggers is still counted". -/
theorem C3_counterexample_prune_cell_not_counted :
    (minimax 2 (⟨2, 2, 100, [['.', '.'], ['.', '.']], 0⟩ : Gomoku) ⊥ ⊤ true 'X' 'O'
      (fun _ => 0) 0).2.1.nodes_expanded = 13 ∧
    (minimaxI 2 (⟨2, 2, 100, [['.', '.'], ['.', '.']], 0⟩ : Gomoku) ⊥ ⊤ true 'X' 'O'
      (fun _ => 0) 0 0 0).2.2.2.1 = 15 ∧
    (minimaxI 2 (⟨2, 2, 100, [['.', '.'], ['.', '.']], 0⟩ : Gomoku) ⊥ ⊤ true 'X' 'O'
      (fun _ => 0) 0 0 0).2.2.2.2 = 2 ∧
    (13 : Nat) ≠ 0 + 15 := by
  refine ⟨by decide, by decide, by decide, by decide⟩

/-- C3 amended: the node counter is incremented exactly once per visited cell
*except* the cell at which `beta ≤ alpha` fires — the increment sits after
the prune check, so prune-trigger cells are not counted.  Stated via the
instrumented search, which agrees with the source search on value, state and
clock. -/
theorem C3_amended_nodes_expanded (depth : Nat) (g : Gomoku) (alpha beta : V)
    (maxi : Bool) (symbol opponent_symbol : Char) (clk : Nat → ℚ) (k : Nat) :
    (minimaxI depth g alpha beta maxi symbol opponent_symbol clk k 0 0).1 =
      (minimax depth g alpha beta maxi symbol opponent_symbol clk k).1 ∧
    (minimaxI depth g alpha beta maxi symbol opponent_symbol clk k 0 0).2.1 =
      (minimax depth g alpha beta maxi symbol opponent_symbol clk k).2.1 ∧
    (minimax depth g alpha beta maxi symbol opponent_symbol clk k).2.1.nodes_expanded +
        (minimaxI depth g alpha beta maxi symbol opponent_symbol clk k 0 0).2.2.2.2 =
      g.nodes_expanded +
        (minimaxI depth g alpha beta maxi symbol opponent_symbol clk k 0 0).2.2.2.1 := by
  obtain ⟨e1, e2, e3⟩ := minimaxI_agree depth g alpha beta maxi symbol opponent_symbol clk k 0 0
  have hc := minimaxI_count depth g alpha beta maxi symbol opponent_symbol clk k 0 0
  rw [e2] at hc
  exact ⟨e1, e2, by omega⟩

section MaxScanLemmas

variable (size L : Nat) (symbol : Char)
variable (childAB : Board → V → V → V) (childMM : Board → V)
variable (b : Board) (beta : V)

theorem mmRowMax_hoist (row : Nat) : ∀ (cols : List Nat) (acc : V),
    mmRowMax size L symbol childMM b row cols acc =
      max acc (mmRowMax size L symbol childMM b row cols ⊥)
  | [], acc => by
    simp only [mmRowMax]
    exact (max_eq_left bot_le).symm
  | col :: cols, acc => by
    simp only [mmRowMax]
    by_cases hv : is_valid_move (G0 size L b) row col = true
    · rw [if_pos hv, if_pos hv]
      rw [mmRowMax_hoist row cols (max acc (childMM (setCell b row col symbol))),
        mmRowMax_hoist row cols (max ⊥ (childMM (setCell b row col symbol))),
        max_eq_right (bot_le : (⊥ : V) ≤ _), max_assoc]
    · rw [if_neg hv, if_neg hv]
      exact mmRowMax_hoist row cols acc

theorem mmRowsMax_hoist : ∀ (rows : List Nat) (acc : V),
    mmRowsMax size L symbol childMM b rows acc =
      max acc (mmRowsMax size L symbol childMM b rows ⊥)
  | [], acc => by
    simp only [mmRowsMax]
    exact (max_eq_left bot_le).symm
  | row :: rows, acc => by
    simp only [mmRowsMax]
    rw [mmRowsMax_hoist rows (mmRowMax size L symbol childMM b row (List.range size) acc),
      mmRowsMax_hoist rows (mmRowMax size L symbol childMM b row (List.range size) ⊥),
      mmRowMax_hoist size L symbol childMM b row (List.range size) acc, max_assoc]

theorem mmRowMax_mem_le (row : Nat) : ∀ (cols : List Nat) (acc : V) (col : Nat),
    col ∈ cols → is_valid_move (G0 size L b) row col = true →
    childMM (setCell b row col symbol) ≤ mmRowMax size L symbol childMM b row cols acc
  | [], _, col, hmem, _ => absurd hmem (List.not_mem_nil col)
  | c :: cols, acc, col, hmem, hval => by
    simp only [mmRowMax]
    rcases List.mem_cons.mp hmem with rfl | hmem'
    · rw [if_pos hval, mmRowMax_hoist]
      exact le_max_of_le_left (le_max_right _ _)
    · by_cases hv : is_valid_move (G0 size L b) row c = true
      · rw [if_pos hv]
        exact mmRowMax_mem_le row cols _ col hmem' hval
      · rw [if_neg hv]
        exact mmRowMax_mem_le row cols acc col hmem' hval

theorem mmRowsMax_mem_le : ∀ (rows : List Nat) (acc : V) (row col : Nat),
    row ∈ rows → col ∈ List.range size → is_valid_move (G0 size L b) row col = true →
    childMM (setCell b row col symbol) ≤ mmRowsMax size L symbol childMM b rows acc
  | [], _, row, _, hmem, _, _ => absurd hmem (List.not_mem_nil row)
  | r :: rows, acc, row, col, hmem, hcol, hval => by
    simp only [mmRowsMax]
    rcases List.mem_cons.mp hmem with rfl | hmem'
    · rw [mmRowsMax_hoist]
      exact le_max_of_le_left (mmRowMax_mem_le size L symbol childMM b row _ acc col hcol hval)
    · exact mmRowsMax_mem_le rows _ row col hmem' hcol hval

theorem mmRowMax_le_of (row : Nat) (c : V) : ∀ (cols : List Nat) (acc : V),
    (∀ col ∈ cols, is_valid_move (G0 size L b) row col = true →
      childMM (setCell b row col symbol) ≤ c) → acc ≤ c →
    mmRowMax size L symbol childMM b row cols acc ≤ c
  | [], acc, _, hacc => hacc
  | col :: cols, acc, hall, hacc => by
    simp only [mmRowMax]
    by_cases hv : is_valid_move (G0 size L b) row col = true
    · rw [if_pos hv]
      exact mmRowMax_le_of row c cols _ (fun c' hc' => hall c' (List.mem_cons_of_mem _ hc'))
        (max_le hacc (hall col (List.mem_cons_self _ _) hv))
    · rw [if_neg hv]
      exact mmRowMax_le_of row c cols acc (fun c' hc' => hall c' (List.mem_cons_of_mem _ hc')) hacc

theorem mmRowsMax_le_of (c : V) : ∀ (rows : List Nat) (acc : V),
    (∀ row ∈ rows, ∀ col ∈ List.range size, is_valid_move (G0 size L b) row col = true →
      childMM (setCell b row col symbol) ≤ c) → acc ≤ c →
    mmRowsMax size L symbol childMM b rows acc ≤ c
  | [], acc, _, hacc => hacc
  | row :: rows, acc, hall, hacc => by
    simp only [mmRowsMax]
    refine mmRowsMax_le_of c rows _ (fun r hr => hall r (List.mem_cons_of_mem _ hr)) ?_
    exact mmRowMax_le_of size L symbol childMM b row c (List.range size) acc
      (fun col hcol => hall row (List.mem_cons_self _ _) col hcol) hacc

theorem abRowMax_mono (row : Nat) : ∀ (cols : List Nat) (best alpha : V),
    best ≤ (abRowMax size L symbol childAB b row beta cols best alpha).1 ∧
    alpha ≤ (abRowMax size L symbol childAB b row beta cols best alpha).2
  | [], best, alpha => ⟨le_refl _, le_refl _⟩
  | col :: cols, best, alpha => by
    simp only [abRowMax]
    by_cases hv : is_valid_move (G0 size L b) row col = true
    · rw [if_pos hv]
      by_cases hb : beta ≤ max alpha (childAB (setCell b row col symbol) alpha beta)
      · rw [if_pos hb]
        exact ⟨le_max_left _ _, le_max_left _ _⟩
      · rw [if_neg hb]
        obtain ⟨h1, h2⟩ := abRowMax_mono row cols
          (max best (childAB (setCell b row col symbol) alpha beta))
          (max alpha (childAB (setCell b row col symbol) alpha beta))
        exact ⟨le_trans (le_max_left _ _) h1, le_trans (le_max_left _ _) h2⟩
    · rw [if_neg hv]
      exact abRowMax_mono row cols best alpha

theorem abRowsMax_mono : ∀ (rows : List Nat) (st : V × V),
    st.1 ≤ (abRowsMax size L symbol childAB b beta rows st).1 ∧
    st.2 ≤ (abRowsMax size L symbol childAB b beta rows st).2
  | [], st => ⟨le_refl _, le_refl _⟩
  | row :: rows, st => by
    simp only [abRowsMax]
    obtain ⟨h1, h2⟩ := abRowMax_mono size L symbol childAB b beta row (List.range size) st.1 st.2
    obtain ⟨h3, h4⟩ := abRowsMax_mono rows
      (abRowMax size L symbol childAB b row beta (List.range size) st.1 st.2)
    exact ⟨le_trans h1 h3, le_trans h2 h4⟩

theorem abRowMax_inv (row : Nat) : ∀ (cols : List Nat) (best alpha : V),
    (beta ≤ alpha → beta ≤ best) →
    (beta ≤ (abRowMax size L symbol childAB b row beta cols best alpha).2 →
      beta ≤ (abRowMax size L symbol childAB b row beta cols best alpha).1)
  | [], best, alpha, hinv => hinv
  | col :: cols, best, alpha, hinv => by
    simp only [abRowMax]
    by_cases hv : is_valid_move (G0 size L b) row col = true
    · rw [if_pos hv]
      by_cases hb : beta ≤ max alpha (childAB (setCell b row col symbol) alpha beta)
      · rw [if_pos hb]
        intro _
        rcases le_max_iff.mp hb with h | h
        · exact le_max_of_le_left (hinv h)
        · exact le_max_of_le_right h
      · rw [if_neg hb]
        refine abRowMax_inv row cols _ _ ?_
        intro h
        exact absurd h hb
    · rw [if_neg hv]
      exact abRowMax_inv row cols best alpha hinv

theorem abRowsMax_inv : ∀ (rows : List Nat) (st : V × V),
    (beta ≤ st.2 → beta ≤ st.1) →
    (beta ≤ (abRowsMax size L symbol childAB b beta rows st).2 →
      beta ≤ (abRowsMax size L symbol childAB b beta rows st).1)
  | [], st, hinv => hinv
  | row :: rows, st, hinv => by
    simp only [abRowsMax]
    refine abRowsMax_inv rows _ ?_
    intro h2
    have := abRowMax_inv size L symbol childAB b beta row (List.range size) st.1 st.2 ?_ h2
    · exact this
    · intro hba
      exact hinv hba

theorem abRowMax_p1 (row : Nat) (M : V)
    (HM : ∀ r c : Nat, is_valid_move (G0 size L b) r c = true →
      childMM (setCell b r c symbol) ≤ M)
    (HFS1 : ∀ (b' : Board) (a : V), a < beta → beta ≤ childAB b' a beta →
      beta ≤ childMM b') :
    ∀ (cols : List Nat) (best alpha : V),
    (beta ≤ alpha → beta ≤ M) → (beta ≤ best → beta ≤ M) →
    (beta ≤ (abRowMax size L symbol childAB b row beta cols best alpha).1 → beta ≤ M) ∧
    (beta ≤ (abRowMax size L symbol childAB b row beta cols best alpha).2 → beta ≤ M)
  | [], best, alpha, hA, hB => ⟨hB, hA⟩
  | col :: cols, best, alpha, hA, hB => by
    simp only [abRowMax]
    by_cases hv : is_valid_move (G0 size L b) row col = true
    · simp only [if_pos hv]
      have hkeyA : beta ≤ max alpha (childAB (setCell b row col symbol) alpha beta) →
          beta ≤ M := by
        intro h
        rcases le_max_iff.mp h with h' | h'
        · exact hA h'
        · by_cases ha : beta ≤ alpha
          · exact hA ha
          · exact le_trans (HFS1 (setCell b row col symbol) alpha (not_le.mp ha) h')
              (HM row col hv)
      have hkeyB : beta ≤ max best (childAB (setCell b row col symbol) alpha beta) →
          beta ≤ M := by
        intro h
        rcases le_max_iff.mp h with h' | h'
        · exact hB h'
        · by_cases ha : beta ≤ alpha
          · exact hA ha
          · exact le_trans (HFS1 (setCell b row col symbol) alpha (not_le.mp ha) h')
              (HM row col hv)
      by_cases hb : beta ≤ max alpha (childAB (setCell b row col symbol) alpha beta)
      · simp only [if_pos hb]
        exact ⟨hkeyB, hkeyA⟩
      · simp only [if_neg hb]
        exact abRowMax_p1 row M HM HFS1 cols _ _ hkeyA hkeyB
    · simp only [if_neg hv]
      exact abRowMax_p1 row M HM HFS1 cols best alpha hA hB

theorem abRowsMax_p1 (M : V)
    (HM : ∀ r c : Nat, is_valid_move (G0 size L b) r c = true →
      childMM (setCell b r c symbol) ≤ M)
    (HFS1 : ∀ (b' : Board) (a : V), a < beta → beta ≤ childAB b' a beta →
      beta ≤ childMM b') :
    ∀ (rows : List Nat) (st : V × V),
    (beta ≤ st.2 → beta ≤ M) → (beta ≤ st.1 → beta ≤ M) →
    (beta ≤ (abRowsMax size L symbol childAB b beta rows st).1 → beta ≤ M) ∧
    (beta ≤ (abRowsMax size L symbol childAB b beta rows st).2 → beta ≤ M)
  | [], st, hA, hB => ⟨hB, hA⟩
  | row :: rows, st, hA, hB => by
    simp only [abRowsMax]
    obtain ⟨c1, c2⟩ := abRowMax_p1 size L symbol childAB childMM b beta row M HM HFS1
      (List.range size) st.1 st.2 hA hB
    exact abRowsMax_p1 M HM HFS1 rows _ c2 c1

theorem abRowMax_p2 (row : Nat) (alpha : V) (hgood : alpha < beta)
    (HFS2 : ∀ b' : Board, childAB b' alpha beta ≤ alpha → childMM b' ≤ alpha) :
    ∀ (cols : List Nat) (best : V),
    (abRowMax size L symbol childAB b row beta cols best alpha).1 ≤ alpha →
    (abRowMax size L symbol childAB b row beta cols best alpha).2 = alpha ∧
    ∀ col ∈ cols, is_valid_move (G0 size L b) row col = true →
      childMM (setCell b row col symbol) ≤ alpha
  | [], best, _ => ⟨rfl, fun col hc => absurd hc (List.not_mem_nil col)⟩
  | col :: cols, best, hres => by
    simp only [abRowMax] at hres ⊢
    by_cases hv : is_valid_move (G0 size L b) row col = true
    · simp only [if_pos hv] at hres ⊢
      by_cases hva : childAB (setCell b row col symbol) alpha beta ≤ alpha
      · have hmax : max alpha (childAB (setCell b row col symbol) alpha beta) = alpha :=
          max_eq_left hva
        simp only [hmax] at hres ⊢
        simp only [if_neg (not_le.mpr hgood)] at hres ⊢
        obtain ⟨h2, hall⟩ := abRowMax_p2 row alpha hgood HFS2 cols
          (max best (childAB (setCell b row col symbol) alpha beta)) hres
        refine ⟨h2, ?_⟩
        intro c hc hvc
        rcases List.mem_cons.mp hc with rfl | hc'
        · exact HFS2 _ hva
        · exact hall c hc' hvc
      · exfalso
        rw [not_le] at hva
        by_cases hb : beta ≤ max alpha (childAB (setCell b row col symbol) alpha beta)
        · simp only [if_pos hb] at hres
          exact absurd (le_trans (le_max_right best _) hres) (not_le.mpr hva)
        · simp only [if_neg hb] at hres
          have hmono := (abRowMax_mono size L symbol childAB b beta row cols
            (max best (childAB (setCell b row col symbol) alpha beta))
            (max alpha (childAB (setCell b row col symbol) alpha beta))).1
          exact absurd (le_trans (le_trans (le_max_right best _) hmono) hres)
            (not_le.mpr hva)
    · simp only [if_neg hv] at hres ⊢
      obtain ⟨h2, hall⟩ := abRowMax_p2 row alpha hgood HFS2 cols best hres
      refine ⟨h2, ?_⟩
      intro c hc hvc
      rcases List.mem_cons.mp hc with rfl | hc'
      · exact absurd hvc hv
      · exact hall c hc' hvc

theorem abRowsMax_p2 (alpha : V) (hgood : alpha < beta)
    (HFS2 : ∀ b' : Board, childAB b' alpha beta ≤ alpha → childMM b' ≤ alpha) :
    ∀ (rows : List Nat) (best : V),
    (abRowsMax size L symbol childAB b beta rows (best, alpha)).1 ≤ alpha →
    ∀ row ∈ rows, ∀ col ∈ List.range size, is_valid_move (G0 size L b) row col = true →
      childMM (setCell b row col symbol) ≤ alpha
  | [], best, _ => fun row hr => absurd hr (List.not_mem_nil row)
  | row :: rows, best, hres => by
    simp only [abRowsMax] at hres
    have hst1 : (abRowMax size L symbol childAB b row beta (List.range size) best alpha).1 ≤
        alpha :=
      le_trans (abRowsMax_mono size L symbol childAB b beta rows
        (abRowMax size L symbol childAB b row beta (List.range size) best alpha)).1 hres
    obtain ⟨h2, hall⟩ := abRowMax_p2 size L symbol childAB childMM b beta row alpha hgood HFS2
      (List.range size) best hst1
    have heq : abRowMax size L symbol childAB b row beta (List.range size) best alpha =
        ((abRowMax size L symbol childAB b row beta (List.range size) best alpha).1, alpha) :=
      Prod.ext rfl h2
    rw [heq] at hres
    have hrec := abRowsMax_p2 alpha hgood HFS2 rows
      (abRowMax size L symbol childAB b row beta (List.range size) best alpha).1 hres
    intro r hr col hcol hvc
    rcases List.mem_cons.mp hr with rfl | hr'
    · exact hall col hcol hvc
    · exact hrec r hr' col hcol hvc

theorem abRowMax_p3 (row : Nat)
    (HFS2 : ∀ (b' : Board) (a : V), a < beta → childAB b' a beta ≤ a → childMM b' ≤ a)
    (HFS3 : ∀ (b' : Board) (a : V), a < beta → a < childAB b' a beta →
      childAB b' a beta < beta → childAB b' a beta = childMM b') :
    ∀ (cols : List Nat) (best alpha : V), alpha < beta →
    (abRowMax size L symbol childAB b row beta cols best alpha).1 < beta →
    ((abRowMax size L symbol childAB b row beta cols best alpha).1 ≤
        max (max alpha best) (mmRowMax size L symbol childMM b row cols ⊥) ∧
     mmRowMax size L symbol childMM b row cols ⊥ ≤
        max alpha (abRowMax size L symbol childAB b row beta cols best alpha).1 ∧
     (abRowMax size L symbol childAB b row beta cols best alpha).2 < beta ∧
     (abRowMax size L symbol childAB b row beta cols best alpha).2 ≤
        max alpha (abRowMax size L symbol childAB b row beta cols best alpha).1)
  | [], best, alpha, hgood, hcut => by
    simp only [abRowMax, mmRowMax]
    exact ⟨le_max_of_le_left (le_max_right _ _), bot_le, hgood, le_max_left _ _⟩
  | col :: cols, best, alpha, hgood, hcut => by
    simp only [abRowMax] at hcut ⊢
    by_cases hv : is_valid_move (G0 size L b) row col = true
    · simp only [if_pos hv] at hcut ⊢
      by_cases hb : beta ≤ max alpha (childAB (setCell b row col symbol) alpha beta)
      · exfalso
        simp only [if_pos hb] at hcut
        rcases le_max_iff.mp hb with h' | h'
        · exact absurd h' (not_le.mpr hgood)
        · exact absurd (le_trans h' (le_max_right best _)) (not_le.mpr hcut)
      · simp only [if_neg hb] at hcut ⊢
        have halpha' : max alpha (childAB (setCell b row col symbol) alpha beta) < beta :=
          not_le.mp hb
        have hvb : childAB (setCell b row col symbol) alpha beta < beta :=
          lt_of_le_of_lt (le_max_right _ _) halpha'
        obtain ⟨i1, i2, i3, i4⟩ := abRowMax_p3 row HFS2 HFS3 cols
          (max best (childAB (setCell b row col symbol) alpha beta))
          (max alpha (childAB (setCell b row col symbol) alpha beta)) halpha' hcut
        have hvres : childAB (setCell b row col symbol) alpha beta ≤
            (abRowMax size L symbol childAB b row beta cols
              (max best (childAB (setCell b row col symbol) alpha beta))
              (max alpha (childAB (setCell b row col symbol) alpha beta))).1 :=
          le_trans (le_max_right best _)
            (abRowMax_mono size L symbol childAB b beta row cols _ _).1
        have hmm : mmRowMax size L symbol childMM b row (col :: cols) ⊥ =
            max (childMM (setCell b row col symbol))
              (mmRowMax size L symbol childMM b row cols ⊥) := by
          simp only [mmRowMax, if_pos hv]
          rw [mmRowMax_hoist, max_eq_right (bot_le : (⊥ : V) ≤ _)]
        rw [hmm]
        by_cases hva : childAB (setCell b row col symbol) alpha beta ≤ alpha
        · have hcv : childMM (setCell b row col symbol) ≤ alpha :=
            HFS2 (setCell b row col symbol) alpha hgood hva
          have hmaxa : max alpha (childAB (setCell b row col symbol) alpha beta) = alpha :=
            max_eq_left hva
          rw [hmaxa] at i1 i2 i3 i4 hvres ⊢
          refine ⟨?_, ?_, i3, ?_⟩
          · refine le_trans i1 (max_le (max_le (le_max_of_le_left (le_max_left _ _)) ?_)
              (le_max_of_le_right (le_max_right _ _)))
            exact max_le (le_max_of_le_left (le_max_right _ _))
              (le_trans hva (le_max_of_le_left (le_max_left _ _)))
          · exact max_le (le_max_of_le_left hcv) i2
          · exact i4
        · rw [not_le] at hva
          have hcv : childAB (setCell b row col symbol) alpha beta =
              childMM (setCell b row col symbol) :=
            HFS3 (setCell b row col symbol) alpha hgood hva hvb
          refine ⟨?_, ?_, i3, ?_⟩
          · refine le_trans i1 (max_le (max_le ?_ ?_) ?_)
            · exact max_le (le_max_of_le_left (le_max_left _ _))
                (le_max_of_le_right (hcv ▸ le_max_left _ _))
            · exact max_le (le_max_of_le_left (le_max_right _ _))
                (le_max_of_le_right (hcv ▸ le_max_left _ _))
            · exact le_max_of_le_right (le_max_right _ _)
          · refine max_le (le_max_of_le_right (hcv ▸ hvres)) (le_trans i2 ?_)
            exact max_le (max_le (le_max_left _ _) (le_max_of_le_right hvres)) (le_max_right _ _)
          · refine le_trans i4 ?_
            exact max_le (max_le (le_max_left _ _) (le_max_of_le_right hvres)) (le_max_right _ _)
    · simp only [if_neg hv] at hcut ⊢
      have hmm : mmRowMax size L symbol childMM b row (col :: cols) ⊥ =
          mmRowMax size L symbol childMM b row cols ⊥ := by
        simp only [mmRowMax, if_neg hv]
      rw [hmm]
      exact abRowMax_p3 row HFS2 HFS3 cols best alpha hgood hcut

theorem abRowsMax_p3
    (HFS2 : ∀ (b' : Board) (a : V), a < beta → childAB b' a beta ≤ a → childMM b' ≤ a)
    (HFS3 : ∀ (b' : Board) (a : V), a < beta → a < childAB b' a beta →
      childAB b' a beta < beta → childAB b' a beta = childMM b') :
    ∀ (rows : List Nat) (best alpha : V), alpha < beta →
    (abRowsMax size L symbol childAB b beta rows (best, alpha)).1 < beta →
    ((abRowsMax size L symbol childAB b beta rows (best, alpha)).1 ≤
        max (max alpha best) (mmRowsMax size L symbol childMM b rows ⊥) ∧
     mmRowsMax size L symbol childMM b rows ⊥ ≤
        max alpha (abRowsMax size L symbol childAB b beta rows (best, alpha)).1 ∧
     (abRowsMax size L symbol childAB b beta rows (best, alpha)).2 < beta ∧
     (abRowsMax size L symbol childAB b beta rows (best, alpha)).2 ≤
        max alpha (abRowsMax size L symbol childAB b beta rows (best, alpha)).1)
  | [], best, alpha, hgood, hcut => by
    simp only [abRowsMax, mmRowsMax]
    exact ⟨le_max_of_le_left (le_max_right _ _), bot_le, hgood, le_max_left _ _⟩
  | row :: rows, best, alpha, hgood, hcut => by
    simp only [abRowsMax] at hcut ⊢
    have hst1cut : (abRowMax size L symbol childAB b row beta (List.range size) best alpha).1 <
        beta :=
      lt_of_le_of_lt (abRowsMax_mono size L symbol childAB b beta rows
        (abRowMax size L symbol childAB b row beta (List.range size) best alpha)).1 hcut
    obtain ⟨r1, r2, r3, r4⟩ := abRowMax_p3 size L symbol childAB childMM b beta row HFS2 HFS3
      (List.range size) best alpha hgood hst1cut
    have heta : abRowMax size L symbol childAB b row beta (List.range size) best alpha =
        ((abRowMax size L symbol childAB b row beta (List.range size) best alpha).1,
         (abRowMax size L symbol childAB b row beta (List.range size) best alpha).2) := rfl
    rw [heta] at hcut ⊢
    obtain ⟨j1, j2, j3, j4⟩ := abRowsMax_p3 HFS2 HFS3 rows
      (abRowMax size L symbol childAB b row beta (List.range size) best alpha).1
      (abRowMax size L symbol childAB b row beta (List.range size) best alpha).2 r3 hcut
    have hst1f : (abRowMax size L symbol childAB b row beta (List.range size) best alpha).1 ≤
        (abRowsMax size L symbol childAB b beta rows
          ((abRowMax size L symbol childAB b row beta (List.range size) best alpha).1,
           (abRowMax size L symbol childAB b row beta (List.range size) best alpha).2)).1 :=
      (abRowsMax_mono size L symbol childAB b beta rows _).1
    have hmm : mmRowsMax size L symbol childMM b (row :: rows) ⊥ =
        max (mmRowMax size L symbol childMM b row (List.range size) ⊥)
          (mmRowsMax size L symbol childMM b rows ⊥) := by
      simp only [mmRowsMax]
      rw [mmRowsMax_hoist]
    rw [hmm]
    have hb1 : (abRowMax size L symbol childAB b row beta (List.range size) best alpha).1 ≤
        max (max alpha best)
          (max (mmRowMax size L symbol childMM b row (List.range size) ⊥)
            (mmRowsMax size L symbol childMM b rows ⊥)) :=
      le_trans r1 (max_le (le_max_left _ _) (le_max_of_le_right (le_max_left _ _)))
    refine ⟨?_, ?_, j3, ?_⟩
    · refine le_trans j1 (max_le (max_le ?_ hb1) ?_)
      · exact le_trans r4 (max_le (le_max_of_le_left (le_max_left _ _)) hb1)
      · exact le_max_of_le_right (le_max_right _ _)
    · refine max_le ?_ ?_
      · exact le_trans r2 (max_le (le_max_left _ _) (le_max_of_le_right hst1f))
      · refine le_trans j2 (max_le ?_ (le_max_right _ _))
        exact le_trans r4 (max_le (le_max_left _ _) (le_max_of_le_right hst1f))
    · refine le_trans j4 (max_le ?_ (le_max_right _ _))
      exact le_trans r4 (max_le (le_max_left _ _) (le_max_of_le_right hst1f))

end MaxScanLemmas

section MinScanLemmas

variable (size L : Nat) (opponent_symbol : Char)
variable (childAB : Board → V → V → V) (childMM : Board → V)
variable (b : Board) (alpha : V)

theorem mmRowMin_hoist (row : Nat) : ∀ (cols : List Nat) (acc : V),
    mmRowMin size L opponent_symbol childMM b row cols acc =
      min acc (mmRowMin size L opponent_symbol childMM b row cols ⊤)
  | [], acc => by
    simp only [mmRowMin]
    exact (min_eq_left le_top).symm
  | col :: cols, acc => by
    simp only [mmRowMin]
    by_cases hv : is_valid_move (G0 size L b) row col = true
    · rw [if_pos hv, if_pos hv]
      rw [mmRowMin_hoist row cols (min acc (childMM (setCell b row col opponent_symbol))),
        mmRowMin_hoist row cols (min ⊤ (childMM (setCell b row col opponent_symbol))),
        min_eq_right (le_top : _ ≤ (⊤ : V)), min_assoc]
    · rw [if_neg hv, if_neg hv]
      exact mmRowMin_hoist row cols acc

theorem mmRowsMin_hoist : ∀ (rows : List Nat) (acc : V),
    mmRowsMin size L opponent_symbol childMM b rows acc =
      min acc (mmRowsMin size L opponent_symbol childMM b rows ⊤)
  | [], acc => by
    simp only [mmRowsMin]
    exact (min_eq_left le_top).symm
  | row :: rows, acc => by
    simp only [mmRowsMin]
    rw [mmRowsMin_hoist rows (mmRowMin size L opponent_symbol childMM b row (List.range size) acc),
      mmRowsMin_hoist rows (mmRowMin size L opponent_symbol childMM b row (List.range size) ⊤),
      mmRowMin_hoist size L opponent_symbol childMM b row (List.range size) acc, min_assoc]

theorem mmRowMin_mem_ge (row : Nat) : ∀ (cols : List Nat) (acc : V) (col : Nat),
    col ∈ cols → is_valid_move (G0 size L b) row col = true →
    mmRowMin size L opponent_symbol childMM b row cols acc ≤
      childMM (setCell b row col opponent_symbol)
  | [], _, col, hmem, _ => absurd hmem (List.not_mem_nil col)
  | c :: cols, acc, col, hmem, hval => by
    simp only [mmRowMin]
    rcases List.mem_cons.mp hmem with rfl | hmem'
    · rw [if_pos hval, mmRowMin_hoist]
      exact min_le_of_left_le (min_le_right _ _)
    · by_cases hv : is_valid_move (G0 size L b) row c = true
      · rw [if_pos hv]
        exact mmRowMin_mem_ge row cols _ col hmem' hval
      · rw [if_neg hv]
        exact mmRowMin_mem_ge row cols acc col hmem' hval

theorem mmRowsMin_mem_ge : ∀ (rows : List Nat) (acc : V) (row col : Nat),
    row ∈ rows → col ∈ List.range size → is_valid_move (G0 size L b) row col = true →
    mmRowsMin size L opponent_symbol childMM b rows acc ≤
      childMM (setCell b row col opponent_symbol)
  | [], _, row, _, hmem, _, _ => absurd hmem (List.not_mem_nil row)
  | r :: rows, acc, row, col, hmem, hcol, hval => by
    simp only [mmRowsMin]
    rcases List.mem_cons.mp hmem with rfl | hmem'
    · rw [mmRowsMin_hoist]
      exact min_le_of_left_le
        (mmRowMin_mem_ge size L opponent_symbol childMM b row _ acc col hcol hval)
    · exact mmRowsMin_mem_ge rows _ row col hmem' hcol hval

theorem mmRowMin_ge_of (row : Nat) (c : V) : ∀ (cols : List Nat) (acc : V),
    (∀ col ∈ cols, is_valid_move (G0 size L b) row col = true →
      c ≤ childMM (setCell b row col opponent_symbol)) → c ≤ acc →
    c ≤ mmRowMin size L opponent_symbol childMM b row cols acc
  | [], acc, _, hacc => hacc
  | col :: cols, acc, hall, hacc => by
    simp only [mmRowMin]
    by_cases hv : is_valid_move (G0 size L b) row col = true
    · rw [if_pos hv]
      exact mmRowMin_ge_of row c cols _ (fun c' hc' => hall c' (List.mem_cons_of_mem _ hc'))
        (le_min hacc (hall col (List.mem_cons_self _ _) hv))
    · rw [if_neg hv]
      exact mmRowMin_ge_of row c cols acc (fun c' hc' => hall c' (List.mem_cons_of_mem _ hc')) hacc

theorem mmRowsMin_ge_of (c : V) : ∀ (rows : List Nat) (acc : V),
    (∀ row ∈ rows, ∀ col ∈ List.range size, is_valid_move (G0 size L b) row col = true →
      c ≤ childMM (setCell b row col opponent_symbol)) → c ≤ acc →
    c ≤ mmRowsMin size L opponent_symbol childMM b rows acc
  | [], acc, _, hacc => hacc
  | row :: rows, acc, hall, hacc => by
    simp only [mmRowsMin]
    refine mmRowsMin_ge_of c rows _ (fun r hr => hall r (List.mem_cons_of_mem _ hr)) ?_
    exact mmRowMin_ge_of size L opponent_symbol childMM b row c (List.range size) acc
      (fun col hcol => hall row (List.mem_cons_self _ _) col hcol) hacc

theorem abRowMin_mono (row : Nat) : ∀ (cols : List Nat) (best beta : V),
    (abRowMin size L opponent_symbol childAB b row alpha cols best beta).1 ≤ best ∧
    (abRowMin size L opponent_symbol childAB b row alpha cols best beta).2 ≤ beta
  | [], best, beta => ⟨le_refl _, le_refl _⟩
  | col :: cols, best, beta => by
    simp only [abRowMin]
    by_cases hv : is_valid_move (G0 size L b) row col = true
    · rw [if_pos hv]
      by_cases hb : min beta (childAB (setCell b row col opponent_symbol) alpha beta) ≤ alpha
      · rw [if_pos hb]
        exact ⟨min_le_left _ _, min_le_left _ _⟩
      · rw [if_neg hb]
        obtain ⟨h1, h2⟩ := abRowMin_mono row cols
          (min best (childAB (setCell b row col opponent_symbol) alpha beta))
          (min beta (childAB (setCell b row col opponent_symbol) alpha beta))
        exact ⟨le_trans h1 (min_le_left _ _), le_trans h2 (min_le_left _ _)⟩
    · rw [if_neg hv]
      exact abRowMin_mono row cols best beta

theorem abRowsMin_mono : ∀ (rows : List Nat) (st : V × V),
    (abRowsMin size L opponent_symbol childAB b alpha rows st).1 ≤ st.1 ∧
    (abRowsMin size L opponent_symbol childAB b alpha rows st).2 ≤ st.2
  | [], st => ⟨le_refl _, le_refl _⟩
  | row :: rows, st => by
    simp only [abRowsMin]
    obtain ⟨h1, h2⟩ := abRowMin_mono size L opponent_symbol childAB b alpha row
      (List.range size) st.1 st.2
    obtain ⟨h3, h4⟩ := abRowsMin_mono rows
      (abRowMin size L opponent_symbol childAB b row alpha (List.range size) st.1 st.2)
    exact ⟨le_trans h3 h1, le_trans h4 h2⟩

theorem abRowMin_inv (row : Nat) : ∀ (cols : List Nat) (best beta : V),
    (beta ≤ alpha → best ≤ alpha) →
    ((abRowMin size L opponent_symbol childAB b row alpha cols best beta).2 ≤ alpha →
      (abRowMin size L opponent_symbol childAB b row alpha cols best beta).1 ≤ alpha)
  | [], best, beta, hinv => hinv
  | col :: cols, best, beta, hinv => by
    simp only [abRowMin]
    by_cases hv : is_valid_move (G0 size L b) row col = true
    · rw [if_pos hv]
      by_cases hb : min beta (childAB (setCell b row col opponent_symbol) alpha beta) ≤ alpha
      · rw [if_pos hb]
        intro _
        rcases min_le_iff.mp hb with h | h
        · exact min_le_of_left_le (hinv h)
        · exact min_le_of_right_le h
      · rw [if_neg hb]
        refine abRowMin_inv row cols _ _ ?_
        intro h
        exact absurd h hb
    · rw [if_neg hv]
      exact abRowMin_inv row cols best beta hinv

theorem abRowsMin_inv : ∀ (rows : List Nat) (st : V × V),
    (st.2 ≤ alpha → st.1 ≤ alpha) →
    ((abRowsMin size L opponent_symbol childAB b alpha rows st).2 ≤ alpha →
      (abRowsMin size L opponent_symbol childAB b alpha rows st).1 ≤ alpha)
  | [], st, hinv => hinv
  | row :: rows, st, hinv => by
    simp only [abRowsMin]
    refine abRowsMin_inv rows _ ?_
    intro h2
    exact abRowMin_inv size L opponent_symbol childAB b alpha row (List.range size) st.1 st.2
      (fun hba => hinv hba) h2

theorem abRowMin_p1 (row : Nat) (M : V)
    (HM : ∀ r c : Nat, is_valid_move (G0 size L b) r c = true →
      M ≤ childMM (setCell b r c opponent_symbol))
    (HFS1 : ∀ (b' : Board) (bb : V), alpha < bb → childAB b' alpha bb ≤ alpha →
      childMM b' ≤ alpha) :
    ∀ (cols : List Nat) (best beta : V),
    (beta ≤ alpha → M ≤ alpha) → (best ≤ alpha → M ≤ alpha) →
    ((abRowMin size L opponent_symbol childAB b row alpha cols best beta).1 ≤ alpha →
      M ≤ alpha) ∧
    ((abRowMin size L opponent_symbol childAB b row alpha cols best beta).2 ≤ alpha →
      M ≤ alpha)
  | [], best, beta, hA, hB => ⟨hB, hA⟩
  | col :: cols, best, beta, hA, hB => by
    simp only [abRowMin]
    by_cases hv : is_valid_move (G0 size L b) row col = true
    · simp only [if_pos hv]
      have hkeyA : min beta (childAB (setCell b row col opponent_symbol) alpha beta) ≤ alpha →
          M ≤ alpha := by
        intro h
        rcases min_le_iff.mp h with h' | h'
        · exact hA h'
        · by_cases ha : beta ≤ alpha
          · exact hA ha
          · exact le_trans (HM row col hv)
              (HFS1 (setCell b row col opponent_symbol) beta (not_le.mp ha) h')
      have hkeyB : min best (childAB (setCell b row col opponent_symbol) alpha beta) ≤ alpha →
          M ≤ alpha := by
        intro h
        rcases min_le_iff.mp h with h' | h'
        · exact hB h'
        · by_cases ha : beta ≤ alpha
          · exact hA ha
          · exact le_trans (HM row col hv)
              (HFS1 (setCell b row col opponent_symbol) beta (not_le.mp ha) h')
      by_cases hb : min beta (childAB (setCell b row col opponent_symbol) alpha beta) ≤ alpha
      · simp only [if_pos hb]
        exact ⟨hkeyB, hkeyA⟩
      · simp only [if_neg hb]
        exact abRowMin_p1 row M HM HFS1 cols _ _ hkeyA hkeyB
    · simp only [if_neg hv]
      exact abRowMin_p1 row M HM HFS1 cols best beta hA hB

theorem abRowsMin_p1 (M : V)
    (HM : ∀ r c : Nat, is_valid_move (G0 size L b) r c = true →
      M ≤ childMM (setCell b r c opponent_symbol))
    (HFS1 : ∀ (b' : Board) (bb : V), alpha < bb → childAB b' alpha bb ≤ alpha →
      childMM b' ≤ alpha) :
    ∀ (rows : List Nat) (st : V × V),
    (st.2 ≤ alpha → M ≤ alpha) → (st.1 ≤ alpha → M ≤ alpha) →
    ((abRowsMin size L opponent_symbol childAB b alpha rows st).1 ≤ alpha → M ≤ alpha) ∧
    ((abRowsMin size L opponent_symbol childAB b alpha rows st).2 ≤ alpha → M ≤ alpha)
  | [], st, hA, hB => ⟨hB, hA⟩
  | row :: rows, st, hA, hB => by
    simp only [abRowsMin]
    obtain ⟨c1, c2⟩ := abRowMin_p1 size L opponent_symbol childAB childMM b alpha row M HM HFS1
      (List.range size) st.1 st.2 hA hB
    exact abRowsMin_p1 M HM HFS1 rows _ c2 c1

theorem abRowMin_p2 (row : Nat) (beta : V) (hgood : alpha < beta)
    (HFS2 : ∀ b' : Board, beta ≤ childAB b' alpha beta → beta ≤ childMM b') :
    ∀ (cols : List Nat) (best : V),
    beta ≤ (abRowMin size L opponent_symbol childAB b row alpha cols best beta).1 →
    (abRowMin size L opponent_symbol childAB b row alpha cols best beta).2 = beta ∧
    ∀ col ∈ cols, is_valid_move (G0 size L b) row col = true →
      beta ≤ childMM (setCell b row col opponent_symbol)
  | [], best, _ => ⟨rfl, fun col hc => absurd hc (List.not_mem_nil col)⟩
  | col :: cols, best, hres => by
    simp only [abRowMin] at hres ⊢
    by_cases hv : is_valid_move (G0 size L b) row col = true
    · simp only [if_pos hv] at hres ⊢
      by_cases hva : beta ≤ childAB (setCell b row col opponent_symbol) alpha beta
      · have hmin : min beta (childAB (setCell b row col opponent_symbol) alpha beta) = beta :=
          min_eq_left hva
        simp only [hmin] at hres ⊢
        simp only [if_neg (not_le.mpr hgood)] at hres ⊢
        obtain ⟨h2, hall⟩ := abRowMin_p2 row beta hgood HFS2 cols
          (min best (childAB (setCell b row col opponent_symbol) alpha beta)) hres
        refine ⟨h2, ?_⟩
        intro c hc hvc
        rcases List.mem_cons.mp hc with rfl | hc'
        · exact HFS2 _ hva
        · exact hall c hc' hvc
      · exfalso
        rw [not_le] at hva
        by_cases hb : min beta (childAB (setCell b row col opponent_symbol) alpha beta) ≤ alpha
        · simp only [if_pos hb] at hres
          exact absurd (le_trans hres (min_le_right best _)) (not_le.mpr hva)
        · simp only [if_neg hb] at hres
          have hmono := (abRowMin_mono size L opponent_symbol childAB b alpha row cols
            (min best (childAB (setCell b row col opponent_symbol) alpha beta))
            (min beta (childAB (setCell b row col opponent_symbol) alpha beta))).1
          exact absurd (le_trans hres (le_trans hmono (min_le_right best _)))
            (not_le.mpr hva)
    · simp only [if_neg hv] at hres ⊢
      obtain ⟨h2, hall⟩ := abRowMin_p2 row beta hgood HFS2 cols best hres
      refine ⟨h2, ?_⟩
      intro c hc hvc
      rcases List.mem_cons.mp hc with rfl | hc'
      · exact absurd hvc hv
      · exact hall c hc' hvc

theorem abRowsMin_p2 (beta : V) (hgood : alpha < beta)
    (HFS2 : ∀ b' : Board, beta ≤ childAB b' alpha beta → beta ≤ childMM b') :
    ∀ (rows : List Nat) (best : V),
    beta ≤ (abRowsMin size L opponent_symbol childAB b alpha rows (best, beta)).1 →
    ∀ row ∈ rows, ∀ col ∈ List.range size, is_valid_move (G0 size L b) row col = true →
      beta ≤ childMM (setCell b row col opponent_symbol)
  | [], best, _ => fun row hr => absurd hr (List.not_mem_nil row)
  | row :: rows, best, hres => by
    simp only [abRowsMin] at hres
    have hst1 : beta ≤
        (abRowMin size L opponent_symbol childAB b row alpha (List.range size) best beta).1 :=
      le_trans hres (abRowsMin_mono size L opponent_symbol childAB b alpha rows
        (abRowMin size L opponent_symbol childAB b row alpha (List.range size) best beta)).1
    obtain ⟨h2, hall⟩ := abRowMin_p2 size L opponent_symbol childAB childMM b alpha row beta
      hgood HFS2 (List.range size) best hst1
    have heq : abRowMin size L opponent_symbol childAB b row alpha (List.range size) best beta =
        ((abRowMin size L opponent_symbol childAB b row alpha (List.range size) best beta).1,
          beta) :=
      Prod.ext rfl h2
    rw [heq] at hres
    have hrec := abRowsMin_p2 beta hgood HFS2 rows
      (abRowMin size L opponent_symbol childAB b row alpha (List.range size) best beta).1 hres
    intro r hr col hcol hvc
    rcases List.mem_cons.mp hr with rfl | hr'
    · exact hall col hcol hvc
    · exact hrec r hr' col hcol hvc

theorem abRowMin_p3 (row : Nat)
    (HFS2 : ∀ (b' : Board) (bb : V), alpha < bb → bb ≤ childAB b' alpha bb → bb ≤ childMM b')
    (HFS3 : ∀ (b' : Board) (bb : V), alpha < bb → alpha < childAB b' alpha bb →
      childAB b' alpha bb < bb → childAB b' alpha bb = childMM b') :
    ∀ (cols : List Nat) (best beta : V), alpha < beta →
    alpha < (abRowMin size L opponent_symbol childAB b row alpha cols best beta).1 →
    (min (min beta best) (mmRowMin size L opponent_symbol childMM b row cols ⊤) ≤
        (abRowMin size L opponent_symbol childAB b row alpha cols best beta).1 ∧
     min beta (abRowMin size L opponent_symbol childAB b row alpha cols best beta).1 ≤
        mmRowMin size L opponent_symbol childMM b row cols ⊤ ∧
     alpha < (abRowMin size L opponent_symbol childAB b row alpha cols best beta).2 ∧
     min beta (abRowMin size L opponent_symbol childAB b row alpha cols best beta).1 ≤
        (abRowMin size L opponent_symbol childAB b row alpha cols best beta).2)
  | [], best, beta, hgood, hcut => by
    simp only [abRowMin, mmRowMin]
    exact ⟨min_le_of_left_le (min_le_right _ _), le_top, hgood, min_le_left _ _⟩
  | col :: cols, best, beta, hgood, hcut => by
    simp only [abRowMin] at hcut ⊢
    by_cases hv : is_valid_move (G0 size L b) row col = true
    · simp only [if_pos hv] at hcut ⊢
      by_cases hb : min beta (childAB (setCell b row col opponent_symbol) alpha beta) ≤ alpha
      · exfalso
        simp only [if_pos hb] at hcut
        rcases min_le_iff.mp hb with h' | h'
        · exact absurd h' (not_le.mpr hgood)
        · exact absurd (le_trans (min_le_right best _) h') (not_le.mpr hcut)
      · simp only [if_neg hb] at hcut ⊢
        have hbeta' : alpha < min beta (childAB (setCell b row col opponent_symbol) alpha beta) :=
          not_le.mp hb
        have hvb : alpha < childAB (setCell b row col opponent_symbol) alpha beta :=
          lt_of_lt_of_le hbeta' (min_le_right _ _)
        obtain ⟨i1, i2, i3, i4⟩ := abRowMin_p3 row HFS2 HFS3 cols
          (min best (childAB (setCell b row col opponent_symbol) alpha beta))
          (min beta (childAB (setCell b row col opponent_symbol) alpha beta)) hbeta' hcut
        have hvres : (abRowMin size L opponent_symbol childAB b row alpha cols
              (min best (childAB (setCell b row col opponent_symbol) alpha beta))
              (min beta (childAB (setCell b row col opponent_symbol) alpha beta))).1 ≤
            childAB (setCell b row col opponent_symbol) alpha beta :=
          le_trans (abRowMin_mono size L opponent_symbol childAB b alpha row cols _ _).1
            (min_le_right best _)
        have hmm : mmRowMin size L opponent_symbol childMM b row (col :: cols) ⊤ =
            min (childMM (setCell b row col opponent_symbol))
              (mmRowMin size L opponent_symbol childMM b row cols ⊤) := by
          simp only [mmRowMin, if_pos hv]
          rw [mmRowMin_hoist, min_eq_right (le_top : _ ≤ (⊤ : V))]
        rw [hmm]
        by_cases hva : beta ≤ childAB (setCell b row col opponent_symbol) alpha beta
        · have hcv : beta ≤ childMM (setCell b row col opponent_symbol) :=
            HFS2 (setCell b row col opponent_symbol) beta hgood hva
          have hmina : min beta (childAB (setCell b row col opponent_symbol) alpha beta) =
              beta :=
            min_eq_left hva
          rw [hmina] at i1 i2 i3 i4 hvres ⊢
          refine ⟨?_, ?_, i3, ?_⟩
          · refine le_trans (le_min (le_min (min_le_of_left_le (min_le_left _ _)) ?_)
              (min_le_of_right_le (min_le_right _ _))) i1
            exact le_min (min_le_of_left_le (min_le_right _ _))
              (min_le_of_left_le (le_trans (min_le_left _ _) hva))
          · exact le_min (min_le_of_left_le hcv) i2
          · exact i4
        · rw [not_le] at hva
          have hcv : childAB (setCell b row col opponent_symbol) alpha beta =
              childMM (setCell b row col opponent_symbol) :=
            HFS3 (setCell b row col opponent_symbol) beta hgood hvb hva
          refine ⟨?_, ?_, i3, ?_⟩
          · refine le_trans (le_min (le_min ?_ ?_) ?_) i1
            · exact le_min (min_le_of_left_le (min_le_left _ _))
                (min_le_of_right_le (hcv ▸ min_le_left _ _))
            · exact le_min (min_le_of_left_le (min_le_right _ _))
                (min_le_of_right_le (hcv ▸ min_le_left _ _))
            · exact min_le_of_right_le (min_le_right _ _)
          · refine le_min (min_le_of_right_le (hcv ▸ hvres)) (le_trans ?_ i2)
            exact le_min (le_min (min_le_left _ _) (min_le_of_right_le hvres)) (min_le_right _ _)
          · refine le_trans ?_ i4
            exact le_min (le_min (min_le_left _ _) (min_le_of_right_le hvres)) (min_le_right _ _)
    · simp only [if_neg hv] at hcut ⊢
      have hmm : mmRowMin size L opponent_symbol childMM b row (col :: cols) ⊤ =
          mmRowMin size L opponent_symbol childMM b row cols ⊤ := by
        simp only [mmRowMin, if_neg hv]
      rw [hmm]
      exact abRowMin_p3 row HFS2 HFS3 cols best beta hgood hcut

theorem abRowsMin_p3
    (HFS2 : ∀ (b' : Board) (bb : V), alpha < bb → bb ≤ childAB b' alpha bb → bb ≤ childMM b')
    (HFS3 : ∀ (b' : Board) (bb : V), alpha < bb → alpha < childAB b' alpha bb →
      childAB b' alpha bb < bb → childAB b' alpha bb = childMM b') :
    ∀ (rows : List Nat) (best beta : V), alpha < beta →
    alpha < (abRowsMin size L opponent_symbol childAB b alpha rows (best, beta)).1 →
    (min (min beta best) (mmRowsMin size L opponent_symbol childMM b rows ⊤) ≤
        (abRowsMin size L opponent_symbol childAB b alpha rows (best, beta)).1 ∧
     min beta (abRowsMin size L opponent_symbol childAB b alpha rows (best, beta)).1 ≤
        mmRowsMin size L opponent_symbol childMM b rows ⊤ ∧
     alpha < (abRowsMin size L opponent_symbol childAB b alpha rows (best, beta)).2 ∧
     min beta (abRowsMin size L opponent_symbol childAB b alpha rows (best, beta)).1 ≤
        (abRowsMin size L opponent_symbol childAB b alpha rows (best, beta)).2)
  | [], best, beta, hgood, hcut => by
    simp only [abRowsMin, mmRowsMin]
    exact ⟨min_le_of_left_le (min_le_right _ _), le_top, hgood, min_le_left _ _⟩
  | row :: rows, best, beta, hgood, hcut => by
    simp only [abRowsMin] at hcut ⊢
    have hst1cut : alpha <
        (abRowMin size L opponent_symbol childAB b row alpha (List.range size) best beta).1 :=
      lt_of_lt_of_le hcut (abRowsMin_mono size L opponent_symbol childAB b alpha rows
        (abRowMin size L opponent_symbol childAB b row alpha (List.range size) best beta)).1
    obtain ⟨r1, r2, r3, r4⟩ := abRowMin_p3 size L opponent_symbol childAB childMM b alpha row
      HFS2 HFS3 (List.range size) best beta hgood hst1cut
    have heta : abRowMin size L opponent_symbol childAB b row alpha (List.range size)
        best beta =
        ((abRowMin size L opponent_symbol childAB b row alpha (List.range size) best beta).1,
         (abRowMin size L opponent_symbol childAB b row alpha (List.range size) best beta).2) :=
      rfl
    rw [heta] at hcut ⊢
    obtain ⟨j1, j2, j3, j4⟩ := abRowsMin_p3 HFS2 HFS3 rows
      (abRowMin size L opponent_symbol childAB b row alpha (List.range size) best beta).1
      (abRowMin size L opponent_symbol childAB b row alpha (List.range size) best beta).2
      r3 hcut
    have hst1f : (abRowsMin size L opponent_symbol childAB b alpha rows
          ((abRowMin size L opponent_symbol childAB b row alpha (List.range size) best beta).1,
           (abRowMin size L opponent_symbol childAB b row alpha (List.range size)
             best beta).2)).1 ≤
        (abRowMin size L opponent_symbol childAB b row alpha (List.range size) best beta).1 :=
      (abRowsMin_mono size L opponent_symbol childAB b alpha rows _).1
    have hmm : mmRowsMin size L opponent_symbol childMM b (row :: rows) ⊤ =
        min (mmRowMin size L opponent_symbol childMM b row (List.range size) ⊤)
          (mmRowsMin size L opponent_symbol childMM b rows ⊤) := by
      simp only [mmRowsMin]
      rw [mmRowsMin_hoist]
    rw [hmm]
    have hb1 : min (min beta best)
        (min (mmRowMin size L opponent_symbol childMM b row (List.range size) ⊤)
          (mmRowsMin size L opponent_symbol childMM b rows ⊤)) ≤
        (abRowMin size L opponent_symbol childAB b row alpha (List.range size) best beta).1 :=
      le_trans (le_min (min_le_left _ _) (min_le_of_right_le (min_le_left _ _))) r1
    refine ⟨?_, ?_, j3, ?_⟩
    · refine le_trans (le_min (le_min ?_ hb1) ?_) j1
      · exact le_trans (le_min (min_le_of_left_le (min_le_left _ _)) hb1) r4
      · exact min_le_of_right_le (min_le_right _ _)
    · refine le_min ?_ ?_
      · exact le_trans (le_min (min_le_left _ _) (min_le_of_right_le hst1f)) r2
      · refine le_trans (le_min ?_ (min_le_right _ _)) j2
        exact le_trans (le_min (min_le_left _ _) (min_le_of_right_le hst1f)) r4
    · refine le_trans (le_min ?_ (min_le_right _ _)) j4
      exact le_trans (le_min (min_le_left _ _) (min_le_of_right_le hst1f)) r4

end MinScanLemmas

/-- A valid move on a bare configuration has both coordinates below the
configured board size. -/
theorem valid_nat_lt_size (size L : Nat) (b : Board) (r c : Nat)
    (h : is_valid_move (G0 size L b) (r : ℤ) (c : ℤ) = true) : r < size ∧ c < size := by
  unfold is_valid_move G0 at h
  simp only [Bool.and_eq_true, decide_eq_true_eq] at h
  obtain ⟨⟨⟨⟨_, h2⟩, _⟩, h4⟩, _⟩ := h
  exact ⟨by exact_mod_cast h2, by exact_mod_cast h4⟩

/-- `Gomoku` is determined by its five fields. -/
theorem gomoku_eta (g : Gomoku) :
    g = ⟨g.board_size, g.win_length, g.ai_time_limit, g.board, g.nodes_expanded⟩ := rfl

/-- `evaluate_board` ignores the time limit and the node counter. -/
theorem evaluate_board_cfg (bs wl : Nat) (t t' : ℚ) (b : Board) (n n' : Nat) (sym : Char) :
    evaluate_board ⟨bs, wl, t, b, n⟩ sym = evaluate_board ⟨bs, wl, t', b, n'⟩ sym := rfl

/-- `evaluate_board` depends only on the board size, the win length and the
board contents. -/
theorem evaluate_board_congr (g g' : Gomoku) (hbs : g'.board_size = g.board_size)
    (hwl : g'.win_length = g.win_length) (hb : g'.board = g.board) (sym : Char) :
    evaluate_board g' sym = evaluate_board g sym := by
  rw [gomoku_eta g, gomoku_eta g', hbs, hwl, hb]
  exact evaluate_board_cfg _ _ _ _ _ _ _ sym

/-- `is_valid_move` depends only on the board size and the board contents. -/
theorem is_valid_move_congr (g g' : Gomoku) (hbs : g'.board_size = g.board_size)
    (hb : g'.board = g.board) (r c : ℤ) :
    is_valid_move g' r c = is_valid_move g r c := by
  unfold is_valid_move
  rw [hbs, hb]

/-- `is_full` depends only on the board contents. -/
theorem is_full_congr (g g' : Gomoku) (hb : g'.board = g.board) :
    is_full g' = is_full g := by
  unfold is_full
  rw [hb]

/-- Fail-soft invariant of the pruned pure search `abm` against the unpruned
value `mm`, for any window `alpha < beta`: (P1) a result at or above `beta`
certifies `beta ≤ mm`, (P2) a result at or below `alpha` certifies
`mm ≤ alpha`, and (P3) a result strictly inside the window equals `mm`. -/
theorem abm_fs (size L : Nat) (symbol opponent_symbol : Char) :
    ∀ (d : Nat) (b : Board) (alpha beta : V) (maxi : Bool), alpha < beta →
    ((beta ≤ abm size L symbol opponent_symbol d b alpha beta maxi →
        beta ≤ mm size L symbol opponent_symbol d b maxi) ∧
     (abm size L symbol opponent_symbol d b alpha beta maxi ≤ alpha →
        mm size L symbol opponent_symbol d b maxi ≤ alpha) ∧
     (alpha < abm size L symbol opponent_symbol d b alpha beta maxi →
        abm size L symbol opponent_symbol d b alpha beta maxi < beta →
        abm size L symbol opponent_symbol d b alpha beta maxi =
          mm size L symbol opponent_symbol d b maxi))
  | 0, b, alpha, beta, maxi, _ => by
    simp only [abm, mm]
    exact ⟨id, id, fun _ _ => trivial⟩
  | d + 1, b, alpha, beta, maxi, hgood => by
    simp only [abm, mm]
    by_cases hf : is_full (G0 size L b) = true
    · rw [if_pos hf, if_pos hf]
      exact ⟨id, id, fun _ _ => rfl⟩
    · rw [if_neg hf, if_neg hf]
      by_cases hm : maxi = true
      · rw [if_pos hm, if_pos hm]
        have HFS1 : ∀ (b' : Board) (a : V), a < beta →
            beta ≤ abm size L symbol opponent_symbol d b' a beta false →
            beta ≤ mm size L symbol opponent_symbol d b' false :=
          fun b' a ha => (abm_fs size L symbol opponent_symbol d b' a beta false ha).1
        have HFS2 : ∀ (b' : Board) (a : V), a < beta →
            abm size L symbol opponent_symbol d b' a beta false ≤ a →
            mm size L symbol opponent_symbol d b' false ≤ a :=
          fun b' a ha => (abm_fs size L symbol opponent_symbol d b' a beta false ha).2.1
        have HFS3 : ∀ (b' : Board) (a : V), a < beta →
            a < abm size L symbol opponent_symbol d b' a beta false →
            abm size L symbol opponent_symbol d b' a beta false < beta →
            abm size L symbol opponent_symbol d b' a beta false =
              mm size L symbol opponent_symbol d b' false :=
          fun b' a ha => (abm_fs size L symbol opponent_symbol d b' a beta false ha).2.2
        have HM : ∀ r c : Nat, is_valid_move (G0 size L b) (r : ℤ) (c : ℤ) = true →
            mm size L symbol opponent_symbol d (setCell b r c symbol) false ≤
              mmRowsMax size L symbol
                (fun b' => mm size L symbol opponent_symbol d b' false) b
                (List.range size) ⊥ :=
          fun r c hv => mmRowsMax_mem_le size L symbol
            (fun b' => mm size L symbol opponent_symbol d b' false) b
            (List.range size) ⊥ r c
            (List.mem_range.mpr (valid_nat_lt_size size L b r c hv).1)
            (List.mem_range.mpr (valid_nat_lt_size size L b r c hv).2) hv
        refine ⟨?_, ?_, ?_⟩
        · intro h
          exact (abRowsMax_p1 size L symbol
            (fun b' a bb => abm size L symbol opponent_symbol d b' a bb false)
            (fun b' => mm size L symbol opponent_symbol d b' false) b beta
            (mmRowsMax size L symbol
              (fun b' => mm size L symbol opponent_symbol d b' false) b
              (List.range size) ⊥)
            HM HFS1 (List.range size) (⊥, alpha)
            (fun ha => absurd ha (not_le.mpr hgood))
            (fun hb => le_trans hb bot_le)).1 h
        · intro h
          refine mmRowsMax_le_of size L symbol
            (fun b' => mm size L symbol opponent_symbol d b' false) b alpha
            (List.range size) ⊥ ?_ bot_le
          exact abRowsMax_p2 size L symbol
            (fun b' a bb => abm size L symbol opponent_symbol d b' a bb false)
            (fun b' => mm size L symbol opponent_symbol d b' false) b beta alpha hgood
            (fun b' hv => HFS2 b' alpha hgood hv) (List.range size) ⊥ h
        · intro hlo hhi
          obtain ⟨i1, i2, _, _⟩ := abRowsMax_p3 size L symbol
            (fun b' a bb => abm size L symbol opponent_symbol d b' a bb false)
            (fun b' => mm size L symbol opponent_symbol d b' false) b beta
            HFS2 HFS3 (List.range size) ⊥ alpha hgood hhi
          rw [max_eq_left (bot_le : (⊥ : V) ≤ alpha)] at i1
          refine le_antisymm ?_ ?_
          · rcases le_max_iff.mp i1 with h | h
            · exact absurd h (not_le.mpr hlo)
            · exact h
          · rcases le_max_iff.mp i2 with h | h
            · exact le_trans h (le_of_lt hlo)
            · exact h
      · rw [if_neg hm, if_neg hm]
        have HFS1 : ∀ (b' : Board) (bb : V), alpha < bb →
            bb ≤ abm size L symbol opponent_symbol d b' alpha bb true →
            bb ≤ mm size L symbol opponent_symbol d b' true :=
          fun b' bb hb => (abm_fs size L symbol opponent_symbol d b' alpha bb true hb).1
        have HFS2 : ∀ (b' : Board) (bb : V), alpha < bb →
            abm size L symbol opponent_symbol d b' alpha bb true ≤ alpha →
            mm size L symbol opponent_symbol d b' true ≤ alpha :=
          fun b' bb hb => (abm_fs size L symbol opponent_symbol d b' alpha bb true hb).2.1
        have HFS3 : ∀ (b' : Board) (bb : V), alpha < bb →
            alpha < abm size L symbol opponent_symbol d b' alpha bb true →
            abm size L symbol opponent_symbol d b' alpha bb true < bb →
            abm size L symbol opponent_symbol d b' alpha bb true =
              mm size L symbol opponent_symbol d b' true :=
          fun b' bb hb => (abm_fs size L symbol opponent_symbol d b' alpha bb true hb).2.2
        have HM : ∀ r c : Nat, is_valid_move (G0 size L b) (r : ℤ) (c : ℤ) = true →
            mmRowsMin size L opponent_symbol
                (fun b' => mm size L symbol opponent_symbol d b' true) b
                (List.range size) ⊤ ≤
              mm size L symbol opponent_symbol d (setCell b r c opponent_symbol) true :=
          fun r c hv => mmRowsMin_mem_ge size L opponent_symbol
            (fun b' => mm size L symbol opponent_symbol d b' true) b
            (List.range size) ⊤ r c
            (List.mem_range.mpr (valid_nat_lt_size size L b r c hv).1)
            (List.mem_range.mpr (valid_nat_lt_size size L b r c hv).2) hv
        refine ⟨?_, ?_, ?_⟩
        · intro h
          refine mmRowsMin_ge_of size L opponent_symbol
            (fun b' => mm size L symbol opponent_symbol d b' true) b beta
            (List.range size) ⊤ ?_ le_top
          exact abRowsMin_p2 size L opponent_symbol
            (fun b' a bb => abm size L symbol opponent_symbol d b' a bb true)
            (fun b' => mm size L symbol opponent_symbol d b' true) b alpha beta hgood
            (fun b' hv => HFS1 b' beta hgood hv) (List.range size) ⊤ h
        · intro h
          exact (abRowsMin_p1 size L opponent_symbol
            (fun b' a bb => abm size L symbol opponent_symbol d b' a bb true)
            (fun b' => mm size L symbol opponent_symbol d b' true) b alpha
            (mmRowsMin size L opponent_symbol
              (fun b' => mm size L symbol opponent_symbol d b' true) b
              (List.range size) ⊤)
            HM HFS2 (List.range size) (⊤, beta)
            (fun hb => absurd hb (not_le.mpr hgood))
            (fun ht => le_trans le_top ht)).1 h
        · intro hlo hhi
          obtain ⟨i1, i2, _, _⟩ := abRowsMin_p3 size L opponent_symbol
            (fun b' a bb => abm size L symbol opponent_symbol d b' a bb true)
            (fun b' => mm size L symbol opponent_symbol d b' true) b alpha
            HFS1 HFS3 (List.range size) ⊤ beta hgood hlo
          rw [min_eq_left (le_top : beta ≤ (⊤ : V))] at i1
          refine le_antisymm ?_ ?_
          · rw [min_eq_right (le_of_lt hhi)] at i2
            exact i2
          · rcases min_le_iff.mp i1 with h | h
            · exact absurd h (not_le.mpr hhi)
            · exact h

/-- At the full window `(-inf, +inf)` the pruned search value equals the
unpruned minimax value exactly. -/
theorem abm_full_window (size L : Nat) (symbol opponent_symbol : Char) (d : Nat) (b : Board)
    (maxi : Bool) :
    abm size L symbol opponent_symbol d b ⊥ ⊤ maxi =
      mm size L symbol opponent_symbol d b maxi := by
  obtain ⟨p1, p2, p3⟩ := abm_fs size L symbol opponent_symbol d b ⊥ ⊤ maxi bot_lt_top
  rcases le_or_lt (abm size L symbol opponent_symbol d b ⊥ ⊤ maxi) ⊥ with h | h
  · have h' := p2 h
    rw [le_bot_iff] at h h'
    rw [h, h']
  · rcases le_or_lt ⊤ (abm size L symbol opponent_symbol d b ⊥ ⊤ maxi) with h' | h'
    · have h'' := p1 h'
      rw [top_le_iff] at h' h''
      rw [h', h'']
    · exact p3 h h'

/-- The maximizing column scan of the clocked, state-threading search computes
the same value and window as the pure scan `abRowMax`, provided every child
call returns the pure child value and restores the board. -/
theorem rowMax_eq_ab (size L : Nat) (t : ℚ) (symbol : Char)
    (child : Gomoku → V → V → Nat → V × Gomoku × Nat)
    (childAB : Board → V → V → V)
    (Hval : ∀ (g' : Gomoku) (a bb : V) (k' : Nat),
      g'.board_size = size → g'.win_length = L → g'.ai_time_limit = t →
      (child g' a bb k').1 = childAB g'.board a bb)
    (Hres : ∀ (g' : Gomoku) (a bb : V) (k' : Nat), cfgbEq g' (child g' a bb k').2.1)
    (b : Board) (beta : V) (row : Nat) :
    ∀ (cols : List Nat) (g : Gomoku) (best alpha : V) (k : Nat),
    g.board_size = size → g.win_length = L → g.ai_time_limit = t → g.board = b →
    (rowMax child symbol beta row cols (g, best, alpha, k)).2.1 =
      (abRowMax size L symbol childAB b row beta cols best alpha).1 ∧
    (rowMax child symbol beta row cols (g, best, alpha, k)).2.2.1 =
      (abRowMax size L symbol childAB b row beta cols best alpha).2
  | [], g, best, alpha, k, _, _, _, _ => ⟨rfl, rfl⟩
  | col :: cols, g, best, alpha, k, h1, h2, h3, h4 => by
    simp only [rowMax, abRowMax]
    have hveq : is_valid_move g (row : ℤ) (col : ℤ) =
        is_valid_move (G0 size L b) (row : ℤ) (col : ℤ) :=
      is_valid_move_congr (G0 size L b) g h1 h4 (row : ℤ) (col : ℤ)
    by_cases hv : is_valid_move g (row : ℤ) (col : ℤ) = true
    · have hv' : is_valid_move (G0 size L b) (row : ℤ) (col : ℤ) = true := hveq ▸ hv
      rw [if_pos hv, if_pos hv']
      have hcv : (child (place g row col symbol) alpha beta k).1 =
          childAB (setCell b row col symbol) alpha beta := by
        have hb' : (place g row col symbol).board = setCell b row col symbol := by
          rw [show (place g row col symbol).board = setCell g.board row col symbol from rfl, h4]
        rw [Hval (place g row col symbol) alpha beta k h1 h2 h3, hb']
      rw [hcv]
      by_cases hb : beta ≤ max alpha (childAB (setCell b row col symbol) alpha beta)
      · rw [if_pos hb, if_pos hb]
        exact ⟨rfl, rfl⟩
      · rw [if_neg hb, if_neg hb]
        have hg3 : cfgbEq g
            (retractOn (child (place g row col symbol) alpha beta k).2.1 row col) :=
          cfgbEq_place_retract g _ row col symbol hv (Hres _ _ _ _)
        obtain ⟨e1, e2, e3, e4⟩ := hg3
        exact rowMax_eq_ab size L t symbol child childAB Hval Hres b beta row cols
          _ _ _ _ (e1.trans h1) (e2.trans h2) (e3.trans h3) (e4.trans h4)
    · have hv' : ¬ is_valid_move (G0 size L b) (row : ℤ) (col : ℤ) = true := hveq ▸ hv
      rw [if_neg hv, if_neg hv']
      exact rowMax_eq_ab size L t symbol child childAB Hval Hres b beta row cols
        g best alpha k h1 h2 h3 h4

/-- Row-level version of `rowMax_eq_ab`. -/
theorem rowsMax_eq_ab (size L : Nat) (t : ℚ) (symbol : Char)
    (child : Gomoku → V → V → Nat → V × Gomoku × Nat)
    (childAB : Board → V → V → V)
    (Hval : ∀ (g' : Gomoku) (a bb : V) (k' : Nat),
      g'.board_size = size → g'.win_length = L → g'.ai_time_limit = t →
      (child g' a bb k').1 = childAB g'.board a bb)
    (Hres : ∀ (g' : Gomoku) (a bb : V) (k' : Nat), cfgbEq g' (child g' a bb k').2.1)
    (b : Board) (beta : V) :
    ∀ (rows : List Nat) (g : Gomoku) (best alpha : V) (k : Nat),
    g.board_size = size → g.win_length = L → g.ai_time_limit = t → g.board = b →
    (rowsMax child symbol beta size rows (g, best, alpha, k)).2.1 =
      (abRowsMax size L symbol childAB b beta rows (best, alpha)).1 ∧
    (rowsMax child symbol beta size rows (g, best, alpha, k)).2.2.1 =
      (abRowsMax size L symbol childAB b beta rows (best, alpha)).2
  | [], g, best, alpha, k, _, _, _, _ => ⟨rfl, rfl⟩
  | row :: rows, g, best, alpha, k, h1, h2, h3, h4 => by
    simp only [rowsMax, abRowsMax]
    obtain ⟨v1, v2⟩ := rowMax_eq_ab size L t symbol child childAB Hval Hres b beta row
      (List.range size) g best alpha k h1 h2 h3 h4
    obtain ⟨e1, e2, e3, e4⟩ := rowMax_pres child symbol beta row
      (fun g' a bb k' => Hres g' a bb k') (List.range size) g best alpha k
    obtain ⟨ih1, ih2⟩ := rowsMax_eq_ab size L t symbol child childAB Hval Hres b beta rows
      (rowMax child symbol beta row (List.range size) (g, best, alpha, k)).1
      (rowMax child symbol beta row (List.range size) (g, best, alpha, k)).2.1
      (rowMax child symbol beta row (List.range size) (g, best, alpha, k)).2.2.1
      (rowMax child symbol beta row (List.range size) (g, best, alpha, k)).2.2.2
      (e1.trans h1) (e2.trans h2) (e3.trans h3) (e4.trans h4)
    have hst : ((rowMax child symbol beta row (List.range size) (g, best, alpha, k)).2.1,
        (rowMax child symbol beta row (List.range size) (g, best, alpha, k)).2.2.1) =
        ((abRowMax size L symbol childAB b row beta (List.range size) best alpha).1,
         (abRowMax size L symbol childAB b row beta (List.range size) best alpha).2) := by
      rw [v1, v2]
    rw [hst] at ih1 ih2
    exact ⟨ih1, ih2⟩

/-- The minimizing column scan of the clocked search computes the pure scan
`abRowMin`, under the same child hypotheses. -/
theorem rowMin_eq_ab (size L : Nat) (t : ℚ) (opponent_symbol : Char)
    (child : Gomoku → V → V → Nat → V × Gomoku × Nat)
    (childAB : Board → V → V → V)
    (Hval : ∀ (g' : Gomoku) (a bb : V) (k' : Nat),
      g'.board_size = size → g'.win_length = L → g'.ai_time_limit = t →
      (child g' a bb k').1 = childAB g'.board a bb)
    (Hres : ∀ (g' : Gomoku) (a bb : V) (k' : Nat), cfgbEq g' (child g' a bb k').2.1)
    (b : Board) (alpha : V) (row : Nat) :
    ∀ (cols : List Nat) (g : Gomoku) (best beta : V) (k : Nat),
    g.board_size = size → g.win_length = L → g.ai_time_limit = t → g.board = b →
    (rowMin child opponent_symbol alpha row cols (g, best, beta, k)).2.1 =
      (abRowMin size L opponent_symbol childAB b row alpha cols best beta).1 ∧
    (rowMin child opponent_symbol alpha row cols (g, best, beta, k)).2.2.1 =
      (abRowMin size L opponent_symbol childAB b row alpha cols best beta).2
  | [], g, best, beta, k, _, _, _, _ => ⟨rfl, rfl⟩
  | col :: cols, g, best, beta, k, h1, h2, h3, h4 => by
    simp only [rowMin, abRowMin]
    have hveq : is_valid_move g (row : ℤ) (col : ℤ) =
        is_valid_move (G0 size L b) (row : ℤ) (col : ℤ) :=
      is_valid_move_congr (G0 size L b) g h1 h4 (row : ℤ) (col : ℤ)
    by_cases hv : is_valid_move g (row : ℤ) (col : ℤ) = true
    · have hv' : is_valid_move (G0 size L b) (row : ℤ) (col : ℤ) = true := hveq ▸ hv
      rw [if_pos hv, if_pos hv']
      have hcv : (child (place g row col opponent_symbol) alpha beta k).1 =
          childAB (setCell b row col opponent_symbol) alpha beta := by
        have hb' : (place g row col opponent_symbol).board =
            setCell b row col opponent_symbol := by
          rw [show (place g row col opponent_symbol).board =
            setCell g.board row col opponent_symbol from rfl, h4]
        rw [Hval (place g row col opponent_symbol) alpha beta k h1 h2 h3, hb']
      rw [hcv]
      by_cases hb : min beta (childAB (setCell b row col opponent_symbol) alpha beta) ≤ alpha
      · rw [if_pos hb, if_pos hb]
        exact ⟨rfl, rfl⟩
      · rw [if_neg hb, if_neg hb]
        have hg3 : cfgbEq g
            (retractOn (child (place g row col opponent_symbol) alpha beta k).2.1 row col) :=
          cfgbEq_place_retract g _ row col opponent_symbol hv (Hres _ _ _ _)
        obtain ⟨e1, e2, e3, e4⟩ := hg3
        exact rowMin_eq_ab size L t opponent_symbol child childAB Hval Hres b alpha row cols
          _ _ _ _ (e1.trans h1) (e2.trans h2) (e3.trans h3) (e4.trans h4)
    · have hv' : ¬ is_valid_move (G0 size L b) (row : ℤ) (col : ℤ) = true := hveq ▸ hv
      rw [if_neg hv, if_neg hv']
      exact rowMin_eq_ab size L t opponent_symbol child childAB Hval Hres b alpha row cols
        g best beta k h1 h2 h3 h4

/-- Row-level version of `rowMin_eq_ab`. -/
theorem rowsMin_eq_ab (size L : Nat) (t : ℚ) (opponent_symbol : Char)
    (child : Gomoku → V → V → Nat → V × Gomoku × Nat)
    (childAB : Board → V → V → V)
    (Hval : ∀ (g' : Gomoku) (a bb : V) (k' : Nat),
      g'.board_size = size → g'.win_length = L → g'.ai_time_limit = t →
      (child g' a bb k').1 = childAB g'.board a bb)
    (Hres : ∀ (g' : Gomoku) (a bb : V) (k' : Nat), cfgbEq g' (child g' a bb k').2.1)
    (b : Board) (alpha : V) :
    ∀ (rows : List Nat) (g : Gomoku) (best beta : V) (k : Nat),
    g.board_size = size → g.win_length = L → g.ai_time_limit = t → g.board = b →
    (rowsMin child opponent_symbol alpha size rows (g, best, beta, k)).2.1 =
      (abRowsMin size L opponent_symbol childAB b alpha rows (best, beta)).1 ∧
    (rowsMin child opponent_symbol alpha size rows (g, best, beta, k)).2.2.1 =
      (abRowsMin size L opponent_symbol childAB b alpha rows (best, beta)).2
  | [], g, best, beta, k, _, _, _, _ => ⟨rfl, rfl⟩
  | row :: rows, g, best, beta, k, h1, h2, h3, h4 => by
    simp only [rowsMin, abRowsMin]
    obtain ⟨v1, v2⟩ := rowMin_eq_ab size L t opponent_symbol child childAB Hval Hres b alpha
      row (List.range size) g best beta k h1 h2 h3 h4
    obtain ⟨e1, e2, e3, e4⟩ := rowMin_pres child opponent_symbol alpha row
      (fun g' a bb k' => Hres g' a bb k') (List.range size) g best beta k
    obtain ⟨ih1, ih2⟩ := rowsMin_eq_ab size L t opponent_symbol child childAB Hval Hres b
      alpha rows
      (rowMin child opponent_symbol alpha row (List.range size) (g, best, beta, k)).1
      (rowMin child opponent_symbol alpha row (List.range size) (g, best, beta, k)).2.1
      (rowMin child opponent_symbol alpha row (List.range size) (g, best, beta, k)).2.2.1
      (rowMin child opponent_symbol alpha row (List.range size) (g, best, beta, k)).2.2.2
      (e1.trans h1) (e2.trans h2) (e3.trans h3) (e4.trans h4)
    have hst : ((rowMin child opponent_symbol alpha row (List.range size)
          (g, best, beta, k)).2.1,
        (rowMin child opponent_symbol alpha row (List.range size) (g, best, beta, k)).2.2.1) =
        ((abRowMin size L opponent_symbol childAB b row alpha (List.range size) best beta).1,
         (abRowMin size L opponent_symbol childAB b row alpha (List.range size) best beta).2)
      := by
      rw [v1, v2]
    rw [hst] at ih1 ih2
    exact ⟨ih1, ih2⟩

/-- A terminal evaluation is finite: strictly between the sentinels. -/
theorem toV_finite (z : ℤ) : (⊥ : V) < toV z ∧ toV z < ⊤ := by
  constructor
  · exact WithBot.bot_lt_coe _
  · rw [show (⊤ : V) = ((⊤ : WithTop ℤ) : V) from rfl]
    exact WithBot.coe_lt_coe.mpr (WithTop.coe_lt_top z)

/-- Writing one cell preserves the square shape of the board. -/
theorem WFb_setCell (size : Nat) (b : Board) (r c : Nat) (ch : Char) (hwf : WFb size b) :
    WFb size (setCell b r c ch) := by
  obtain ⟨h1, h2⟩ := hwf
  by_cases hr : r < b.length
  · refine ⟨by rw [setCell, List.length_set]; exact h1, ?_⟩
    intro row hrow
    rcases List.mem_or_eq_of_mem_set hrow with h | h
    · exact h2 row h
    · rw [h, List.length_set, List.getD_eq_getElem b [] hr]
      exact h2 _ (List.getElem_mem hr)
  · rw [show setCell b r c ch = b from
      set_of_len_le b r ((b.getD r []).set c ch) (Nat.le_of_not_lt hr)]
    exact ⟨h1, h2⟩

/-- On a well-formed board that is not full there is a valid move. -/
theorem exists_valid_of_not_full (size L : Nat) (b : Board) (hwf : WFb size b)
    (hnf : ¬ is_full (G0 size L b) = true) :
    ∃ r c : Nat, r < size ∧ c < size ∧
      is_valid_move (G0 size L b) (r : ℤ) (c : ℤ) = true := by
  unfold is_full at hnf
  rw [List.all_eq_true] at hnf
  push_neg at hnf
  obtain ⟨row, hrowmem, hrow⟩ := hnf
  simp only [ne_eq, Bool.not_eq_true, Bool.not_eq_false'] at hrow
  have hdot : '.' ∈ row := by
    rw [← List.elem_iff]
    exact hrow
  have hrowmem' : row ∈ b := hrowmem
  obtain ⟨r, hr, hbr⟩ := List.mem_iff_getElem.mp hrowmem'
  obtain ⟨c, hc, hrc⟩ := List.mem_iff_getElem.mp hdot
  have hrs : r < size := by
    rw [← hwf.1]
    exact hr
  have hcs : c < size := by
    rw [← hwf.2 row hrowmem]
    exact hc
  refine ⟨r, c, hrs, hcs, ?_⟩
  unfold is_valid_move
  simp only [Bool.and_eq_true, decide_eq_true_eq, beq_iff_eq]
  refine ⟨⟨⟨⟨Int.natCast_nonneg r, ?_⟩, Int.natCast_nonneg c⟩, ?_⟩, ?_⟩
  · show (r : ℤ) < ((G0 size L b).board_size : ℤ)
    exact_mod_cast hrs
  · show (c : ℤ) < ((G0 size L b).board_size : ℤ)
    exact_mod_cast hcs
  · show getCell b (Int.toNat (r : ℤ)) (Int.toNat (c : ℤ)) = '.'
    rw [Int.toNat_natCast, Int.toNat_natCast]
    unfold getCell
    rw [List.getD_eq_getElem b [] hr, hbr, List.getD_eq_getElem row '?' hc, hrc]

/-- A maximizing fold result is its accumulator or one of the child values. -/
theorem mmRowMax_cases (size L : Nat) (symbol : Char) (childMM : Board → V) (b : Board)
    (row : Nat) : ∀ (cols : List Nat) (acc : V),
    mmRowMax size L symbol childMM b row cols acc = acc ∨
    ∃ col : Nat, mmRowMax size L symbol childMM b row cols acc =
      childMM (setCell b row col symbol)
  | [], acc => Or.inl rfl
  | col :: cols, acc => by
    simp only [mmRowMax]
    by_cases hv : is_valid_move (G0 size L b) (row : ℤ) (col : ℤ) = true
    · rw [if_pos hv]
      rcases mmRowMax_cases size L symbol childMM b row cols
        (max acc (childMM (setCell b row col symbol))) with h | ⟨c', h⟩
      · rw [h]
        rcases max_cases acc (childMM (setCell b row col symbol)) with ⟨he, _⟩ | ⟨he, _⟩
        · exact Or.inl he
        · exact Or.inr ⟨col, he⟩
      · exact Or.inr ⟨c', h⟩
    · rw [if_neg hv]
      exact mmRowMax_cases size L symbol childMM b row cols acc

theorem mmRowsMax_cases (size L : Nat) (symbol : Char) (childMM : Board → V) (b : Board) :
    ∀ (rows : List Nat) (acc : V),
    mmRowsMax size L symbol childMM b rows acc = acc ∨
    ∃ row col : Nat, mmRowsMax size L symbol childMM b rows acc =
      childMM (setCell b row col symbol)
  | [], acc => Or.inl rfl
  | row :: rows, acc => by
    simp only [mmRowsMax]
    rcases mmRowsMax_cases size L symbol childMM b rows
      (mmRowMax size L symbol childMM b row (List.range size) acc) with h | ⟨r', c', h⟩
    · rw [h]
      rcases mmRowMax_cases size L symbol childMM b row (List.range size) acc with
        h' | ⟨c', h'⟩
      · exact Or.inl h'
      · exact Or.inr ⟨row, c', h'⟩
    · exact Or.inr ⟨r', c', h⟩

/-- A minimizing fold result is its accumulator or one of the child values. -/
theorem mmRowMin_cases (size L : Nat) (opponent_symbol : Char) (childMM : Board → V)
    (b : Board) (row : Nat) : ∀ (cols : List Nat) (acc : V),
    mmRowMin size L opponent_symbol childMM b row cols acc = acc ∨
    ∃ col : Nat, mmRowMin size L opponent_symbol childMM b row cols acc =
      childMM (setCell b row col opponent_symbol)
  | [], acc => Or.inl rfl
  | col :: cols, acc => by
    simp only [mmRowMin]
    by_cases hv : is_valid_move (G0 size L b) (row : ℤ) (col : ℤ) = true
    · rw [if_pos hv]
      rcases mmRowMin_cases size L opponent_symbol childMM b row cols
        (min acc (childMM (setCell b row col opponent_symbol))) with h | ⟨c', h⟩
      · rw [h]
        rcases min_cases acc (childMM (setCell b row col opponent_symbol)) with
          ⟨he, _⟩ | ⟨he, _⟩
        · exact Or.inl he
        · exact Or.inr ⟨col, he⟩
      · exact Or.inr ⟨c', h⟩
    · rw [if_neg hv]
      exact mmRowMin_cases size L opponent_symbol childMM b row cols acc

theorem mmRowsMin_cases (size L : Nat) (opponent_symbol : Char) (childMM : Board → V)
    (b : Board) : ∀ (rows : List Nat) (acc : V),
    mmRowsMin size L opponent_symbol childMM b rows acc = acc ∨
    ∃ row col : Nat, mmRowsMin size L opponent_symbol childMM b rows acc =
      childMM (setCell b row col opponent_symbol)
  | [], acc => Or.inl rfl
  | row :: rows, acc => by
    simp only [mmRowsMin]
    rcases mmRowsMin_cases size L opponent_symbol childMM b rows
      (mmRowMin size L opponent_symbol childMM b row (List.range size) acc) with h | ⟨r', c', h⟩
    · rw [h]
      rcases mmRowMin_cases size L opponent_symbol childMM b row (List.range size) acc with
        h' | ⟨c', h'⟩
      · exact Or.inl h'
      · exact Or.inr ⟨row, c', h'⟩
    · exact Or.inr ⟨r', c', h⟩

/-- On a well-formed board the unpruned minimax value is finite: strictly
between the `-inf` and `+inf` sentinels at every depth and polarity. -/
theorem mm_finite (size L : Nat) (symbol opponent_symbol : Char) :
    ∀ (d : Nat) (b : Board) (maxi : Bool), WFb size b →
    ⊥ < mm size L symbol opponent_symbol d b maxi ∧
    mm size L symbol opponent_symbol d b maxi < ⊤
  | 0, b, maxi, _ => by
    simp only [mm]
    exact toV_finite _
  | d + 1, b, maxi, hwf => by
    simp only [mm]
    by_cases hf : is_full (G0 size L b) = true
    · rw [if_pos hf]
      exact toV_finite _
    · rw [if_neg hf]
      obtain ⟨r, c, hrs, hcs, hval⟩ := exists_valid_of_not_full size L b hwf hf
      by_cases hm : maxi = true
      · rw [if_pos hm]
        constructor
        · refine lt_of_lt_of_le
            (mm_finite size L symbol opponent_symbol d (setCell b r c symbol) false
              (WFb_setCell size b r c symbol hwf)).1 ?_
          exact mmRowsMax_mem_le size L symbol
            (fun b' => mm size L symbol opponent_symbol d b' false) b
            (List.range size) ⊥ r c (List.mem_range.mpr hrs) (List.mem_range.mpr hcs) hval
        · rcases mmRowsMax_cases size L symbol
            (fun b' => mm size L symbol opponent_symbol d b' false) b
            (List.range size) ⊥ with h | ⟨r', c', h⟩
          · rw [h]
            exact bot_lt_top
          · rw [h]
            exact (mm_finite size L symbol opponent_symbol d (setCell b r' c' symbol) false
              (WFb_setCell size b r' c' symbol hwf)).2
      · rw [if_neg hm]
        constructor
        · rcases mmRowsMin_cases size L opponent_symbol
            (fun b' => mm size L symbol opponent_symbol d b' true) b
            (List.range size) ⊤ with h | ⟨r', c', h⟩
          · rw [h]
            exact bot_lt_top
          · rw [h]
            exact (mm_finite size L symbol opponent_symbol d
              (setCell b r' c' opponent_symbol) true
              (WFb_setCell size b r' c' opponent_symbol hwf)).1
        · refine lt_of_le_of_lt ?_
            (mm_finite size L symbol opponent_symbol d (setCell b r c opponent_symbol) true
              (WFb_setCell size b r c opponent_symbol hwf)).2
          exact mmRowsMin_mem_ge size L opponent_symbol
            (fun b' => mm size L symbol opponent_symbol d b' true) b
            (List.range size) ⊤ r c (List.mem_range.mpr hrs) (List.mem_range.mpr hcs) hval

/-- Thread/clock erasure: as long as the clock never exceeds the time limit,
the value returned by the clocked, state-threading `minimax` is the pure
pruned value `abm` of its input board. -/
theorem minimax_value_eq_abm (symbol opponent_symbol : Char) (clk : Nat → ℚ) (t : ℚ)
    (hclk : ∀ j, clk j ≤ t) :
    ∀ (depth : Nat) (g : Gomoku) (alpha beta : V) (maxi : Bool) (k : Nat),
    g.ai_time_limit = t →
    (minimax depth g alpha beta maxi symbol opponent_symbol clk k).1 =
      abm g.board_size g.win_length symbol opponent_symbol depth g.board alpha beta maxi
  | 0, g, alpha, beta, maxi, k, _ => by
    simp only [minimax, abm]
    rw [← evaluate_board_congr g (G0 g.board_size g.win_length g.board) rfl rfl rfl symbol]
  | depth + 1, g, alpha, beta, maxi, k, hg => by
    simp only [minimax, abm]
    have hfeq : is_full (G0 g.board_size g.win_length g.board) = is_full g :=
      is_full_congr g (G0 g.board_size g.win_length g.board) rfl
    by_cases hf : is_full g = true
    · rw [if_pos hf, if_pos (hfeq.trans hf)]
      rw [← evaluate_board_congr g (G0 g.board_size g.win_length g.board) rfl rfl rfl symbol]
    · have hf' : ¬ is_full (G0 g.board_size g.win_length g.board) = true := by
        rw [hfeq]
        exact hf
      rw [if_neg hf, if_neg hf']
      have ht : ¬ clk k > g.ai_time_limit := by
        rw [hg]
        exact not_lt.mpr (hclk k)
      rw [if_neg ht]
      have Hres : ∀ (g' : Gomoku) (a bb : V) (k' : Nat) (m : Bool),
          cfgbEq g' (minimax depth g' a bb m symbol opponent_symbol clk k').2.1 :=
        fun g' a bb k' m => minimax_pres depth g' a bb m symbol opponent_symbol clk k'
      by_cases hm : maxi = true
      · rw [if_pos hm, if_pos hm]
        have Hval : ∀ (g' : Gomoku) (a bb : V) (k' : Nat),
            g'.board_size = g.board_size → g'.win_length = g.win_length →
            g'.ai_time_limit = t →
            (minimax depth g' a bb false symbol opponent_symbol clk k').1 =
              abm g.board_size g.win_length symbol opponent_symbol depth g'.board a bb
                false := by
          intro g' a bb k' hh1 hh2 hh3
          have hrec := minimax_value_eq_abm symbol opponent_symbol clk t hclk depth g'
            a bb false k' hh3
          rw [hh1, hh2] at hrec
          exact hrec
        exact (rowsMax_eq_ab g.board_size g.win_length t symbol
          (fun g' a bb k' => minimax depth g' a bb false symbol opponent_symbol clk k')
          (fun b' a bb =>
            abm g.board_size g.win_length symbol opponent_symbol depth b' a bb false)
          Hval (fun g' a bb k' => Hres g' a bb k' false) g.board beta
          (List.range g.board_size) g ⊥ alpha (k + 1) rfl rfl hg rfl).1
      · rw [if_neg hm, if_neg hm]
        have Hval : ∀ (g' : Gomoku) (a bb : V) (k' : Nat),
            g'.board_size = g.board_size → g'.win_length = g.win_length →
            g'.ai_time_limit = t →
            (minimax depth g' a bb true symbol opponent_symbol clk k').1 =
              abm g.board_size g.win_length symbol opponent_symbol depth g'.board a bb
                true := by
          intro g' a bb k' hh1 hh2 hh3
          have hrec := minimax_value_eq_abm symbol opponent_symbol clk t hclk depth g'
            a bb true k' hh3
          rw [hh1, hh2] at hrec
          exact hrec
        exact (rowsMin_eq_ab g.board_size g.win_length t opponent_symbol
          (fun g' a bb k' => minimax depth g' a bb true symbol opponent_symbol clk k')
          (fun b' a bb =>
            abm g.board_size g.win_length symbol opponent_symbol depth b' a bb true)
          Hval (fun g' a bb k' => Hres g' a bb k' true) g.board alpha
          (List.range g.board_size) g ⊤ beta (k + 1) rfl rfl hg rfl).1

section SelFold

variable {α : Type} (valid : α → Bool) (f : α → V)

theorem selFold_spec : ∀ (xs : List α) (bm : Option α) (bs : V),
    (selFold valid f xs bm bs = (bm, bs) ∧ ∀ x ∈ xs, valid x = true → f x ≤ bs) ∨
    (∃ l₁ m l₂, xs = l₁ ++ m :: l₂ ∧ selFold valid f xs bm bs = (some m, f m) ∧
      valid m = true ∧ bs < f m ∧
      (∀ x ∈ l₁, valid x = true → f x < f m) ∧
      (∀ x ∈ l₂, valid x = true → f x ≤ f m))
  | [], bm, bs => Or.inl ⟨rfl, fun x hx => absurd hx (List.not_mem_nil x)⟩
  | x :: xs, bm, bs => by
    by_cases hv : valid x = true
    · by_cases hlt : bs < f x
      · rw [show selFold valid f (x :: xs) bm bs = selFold valid f xs (some x) (f x) by
          simp only [selFold]; rw [if_pos hv, if_pos hlt, if_pos hlt]]
        rcases selFold_spec xs (some x) (f x) with ⟨heq, hall⟩ |
          ⟨l₁, m, l₂, rfl, heq, hvm, hgt, hl₁, hl₂⟩
        · exact Or.inr ⟨[], x, xs, rfl, heq, hv, hlt,
            fun y hy => absurd hy (List.not_mem_nil y), hall⟩
        · exact Or.inr ⟨x :: l₁, m, l₂, rfl, heq, hvm, lt_trans hlt hgt, by
            intro y hy hvy
            rcases List.mem_cons.mp hy with rfl | hy'
            · exact hgt
            · exact hl₁ y hy' hvy, hl₂⟩
      · rw [show selFold valid f (x :: xs) bm bs = selFold valid f xs bm bs by
          simp only [selFold]; rw [if_pos hv, if_neg hlt, if_neg hlt]]
        rcases selFold_spec xs bm bs with ⟨heq, hall⟩ |
          ⟨l₁, m, l₂, rfl, heq, hvm, hgt, hl₁, hl₂⟩
        · refine Or.inl ⟨heq, ?_⟩
          intro y hy hvy
          rcases List.mem_cons.mp hy with rfl | hy'
          · exact not_lt.mp hlt
          · exact hall y hy' hvy
        · exact Or.inr ⟨x :: l₁, m, l₂, rfl, heq, hvm, hgt, by
            intro y hy hvy
            rcases List.mem_cons.mp hy with rfl | hy'
            · exact lt_of_le_of_lt (not_lt.mp hlt) hgt
            · exact hl₁ y hy' hvy, hl₂⟩
    · rw [show selFold valid f (x :: xs) bm bs = selFold valid f xs bm bs by
        simp only [selFold]; rw [if_neg hv]]
      rcases selFold_spec xs bm bs with ⟨heq, hall⟩ |
        ⟨l₁, m, l₂, rfl, heq, hvm, hgt, hl₁, hl₂⟩
      · refine Or.inl ⟨heq, ?_⟩
        intro y hy hvy
        rcases List.mem_cons.mp hy with rfl | hy'
        · exact absurd hvy hv
        · exact hall y hy' hvy
      · exact Or.inr ⟨x :: l₁, m, l₂, rfl, heq, hvm, hgt, by
          intro y hy hvy
          rcases List.mem_cons.mp hy with rfl | hy'
          · exact absurd hvy hv
          · exact hl₁ y hy' hvy, hl₂⟩

end SelFold

/-- Value erasure for the sweep: with an unexpired clock, the sweep's
selection state evolves exactly as the pure selection fold over the unpruned
root values (using that each root `minimax` call is a full-window search). -/
theorem idSweep_eq_selFold (symbol opponent_symbol : Char) (clk : Nat → ℚ) (t : ℚ)
    (hclk : ∀ j, clk j ≤ t) (depth : Nat) (size L : Nat) (b : Board) :
    ∀ (xs : List (Nat × Nat)) (g : Gomoku) (k : Nat) (cur : Option (Nat × Nat)) (sc : V),
    g.board_size = size → g.win_length = L → g.ai_time_limit = t → g.board = b →
    (idSweep symbol opponent_symbol clk depth xs g k cur sc).2.2.1 =
      (selFold (fun x => is_valid_move (G0 size L b) (x.1 : ℤ) (x.2 : ℤ))
        (rootVal size L symbol opponent_symbol depth b) xs cur sc).1 ∧
    (idSweep symbol opponent_symbol clk depth xs g k cur sc).2.2.2 =
      (selFold (fun x => is_valid_move (G0 size L b) (x.1 : ℤ) (x.2 : ℤ))
        (rootVal size L symbol opponent_symbol depth b) xs cur sc).2
  | [], g, k, cur, sc, _, _, _, _ => ⟨rfl, rfl⟩
  | x :: xs, g, k, cur, sc, h1, h2, h3, h4 => by
    simp only [idSweep, selFold, rootVal]
    have hveq : is_valid_move g (x.1 : ℤ) (x.2 : ℤ) =
        is_valid_move (G0 size L b) (x.1 : ℤ) (x.2 : ℤ) :=
      is_valid_move_congr (G0 size L b) g h1 h4 (x.1 : ℤ) (x.2 : ℤ)
    by_cases hv : is_valid_move g (x.1 : ℤ) (x.2 : ℤ) = true
    · have hv' : is_valid_move (G0 size L b) (x.1 : ℤ) (x.2 : ℤ) = true := hveq ▸ hv
      rw [if_pos hv, if_pos hv']
      have hval : (minimax (depth - 1) (place g x.1 x.2 symbol) ⊥ ⊤ false symbol
          opponent_symbol clk k).1 =
          mm size L symbol opponent_symbol (depth - 1) (setCell b x.1 x.2 symbol) false := by
        have h := minimax_value_eq_abm symbol opponent_symbol clk t hclk (depth - 1)
          (place g x.1 x.2 symbol) ⊥ ⊤ false k h3
        rw [show (place g x.1 x.2 symbol).board_size = size from h1,
            show (place g x.1 x.2 symbol).win_length = L from h2,
            show (place g x.1 x.2 symbol).board = setCell b x.1 x.2 symbol from by
              rw [show (place g x.1 x.2 symbol).board =
                setCell g.board x.1 x.2 symbol from rfl, h4],
            abm_full_window] at h
        exact h
      rw [hval]
      have hg3 : cfgbEq g (retractOn (minimax (depth - 1) (place g x.1 x.2 symbol) ⊥ ⊤
          false symbol opponent_symbol clk k).2.1 x.1 x.2) :=
        cfgbEq_place_retract g _ x.1 x.2 symbol hv
          (minimax_pres (depth - 1) (place g x.1 x.2 symbol) ⊥ ⊤ false symbol
            opponent_symbol clk k)
      obtain ⟨e1, e2, e3, e4⟩ := hg3
      exact idSweep_eq_selFold symbol opponent_symbol clk t hclk depth size L b xs
        _ _ _ _ (e1.trans h1) (e2.trans h2) (e3.trans h3) (e4.trans h4)
    · have hv' : ¬ is_valid_move (G0 size L b) (x.1 : ℤ) (x.2 : ℤ) = true := hveq ▸ hv
      rw [if_neg hv, if_neg hv']
      exact idSweep_eq_selFold symbol opponent_symbol clk t hclk depth size L b xs
        g k cur sc h1 h2 h3 h4

/-- C2: with an unexpired time budget, the root move selected by the
alpha-beta-pruned sweep of `iterative_deepening` equals the root move
selected by the UNPRUNED minimax of the same depth under the same strict
first-in-row-major tie-break (`selFold` over `rootVal`), and on a
well-formed board with at least one valid move that common move is exactly
the first cell in row-major order maximising the unpruned minimax value. -/
theorem C2_pruned_equals_unpruned_root (g : Gomoku) (symbol opponent_symbol : Char)
    (clk : Nat → ℚ) (depth k : Nat) (hclk : ∀ j, clk j ≤ g.ai_time_limit) :
    (idSweep symbol opponent_symbol clk depth (rowMajor g.board_size) g k none ⊥).2.2.1 =
      (selFold (fun x => is_valid_move g (x.1 : ℤ) (x.2 : ℤ))
        (rootVal g.board_size g.win_length symbol opponent_symbol depth g.board)
        (rowMajor g.board_size) none ⊥).1 ∧
    (WF g → (∃ v : Nat × Nat, v.1 < g.board_size ∧ v.2 < g.board_size ∧
        is_valid_move g (v.1 : ℤ) (v.2 : ℤ) = true) →
      ∃ m : Nat × Nat,
        (idSweep symbol opponent_symbol clk depth (rowMajor g.board_size) g k
          none ⊥).2.2.1 = some m ∧
        m.1 < g.board_size ∧ m.2 < g.board_size ∧
        is_valid_move g (m.1 : ℤ) (m.2 : ℤ) = true ∧
        ∀ x : Nat × Nat, x.1 < g.board_size → x.2 < g.board_size →
          is_valid_move g (x.1 : ℤ) (x.2 : ℤ) = true →
          rootVal g.board_size g.win_length symbol opponent_symbol depth g.board x ≤
            rootVal g.board_size g.win_length symbol opponent_symbol depth g.board m ∧
          (rootVal g.board_size g.win_length symbol opponent_symbol depth g.board x =
            rootVal g.board_size g.win_length symbol opponent_symbol depth g.board m →
            rmIndex g.board_size m ≤ rmIndex g.board_size x)) := by
  have hfeq : (fun x : Nat × Nat =>
      is_valid_move (G0 g.board_size g.win_length g.board) (x.1 : ℤ) (x.2 : ℤ)) =
      fun x : Nat × Nat => is_valid_move g (x.1 : ℤ) (x.2 : ℤ) := by
    funext x
    exact is_valid_move_congr g (G0 g.board_size g.win_length g.board) rfl rfl
      (x.1 : ℤ) (x.2 : ℤ)
  have hA : (idSweep symbol opponent_symbol clk depth (rowMajor g.board_size) g k
      none ⊥).2.2.1 =
      (selFold (fun x => is_valid_move g (x.1 : ℤ) (x.2 : ℤ))
        (rootVal g.board_size g.win_length symbol opponent_symbol depth g.board)
        (rowMajor g.board_size) none ⊥).1 := by
    have h := (idSweep_eq_selFold symbol opponent_symbol clk g.ai_time_limit hclk depth
      g.board_size g.win_length g.board (rowMajor g.board_size) g k none ⊥
      rfl rfl rfl rfl).1
    rw [h, hfeq]
  refine ⟨hA, ?_⟩
  intro hwf hmove
  obtain ⟨v, hv1, hv2, hvv⟩ := hmove
  rw [hA]
  rcases selFold_spec (fun x : Nat × Nat => is_valid_move g (x.1 : ℤ) (x.2 : ℤ))
      (rootVal g.board_size g.win_length symbol opponent_symbol depth g.board)
      (rowMajor g.board_size) none ⊥ with ⟨heq, hall⟩ |
      ⟨l₁, m, l₂, hdec, heq, hvm, _, hl₁, hl₂⟩
  · exfalso
    have hmem : v ∈ rowMajor g.board_size := (mem_rowMajor _ _).mpr ⟨hv1, hv2⟩
    have hle := hall v hmem hvv
    have hfin : (⊥ : V) <
        rootVal g.board_size g.win_length symbol opponent_symbol depth g.board v := by
      unfold rootVal
      exact (mm_finite g.board_size g.win_length symbol opponent_symbol (depth - 1)
        (setCell g.board v.1 v.2 symbol) false
        (WFb_setCell g.board_size g.board v.1 v.2 symbol hwf)).1
    exact absurd hle (not_le.mpr hfin)
  · have hmmem : m ∈ rowMajor g.board_size :=
      hdec ▸ List.mem_append_right _ (List.mem_cons_self _ _)
    obtain ⟨hm1, hm2⟩ := (mem_rowMajor _ _).mp hmmem
    refine ⟨m, by rw [heq], hm1, hm2, hvm, ?_⟩
    intro x hx1 hx2 hxv
    have hxmem : x ∈ rowMajor g.board_size := (mem_rowMajor _ _).mpr ⟨hx1, hx2⟩
    rw [hdec] at hxmem
    rcases List.mem_append.mp hxmem with hx | hx
    · have hlt := hl₁ x hx hxv
      exact ⟨le_of_lt hlt, fun he => absurd he (ne_of_lt hlt)⟩
    · rcases List.mem_cons.mp hx with rfl | hx
      · exact ⟨le_refl _, fun _ => le_refl _⟩
      · have hle := hl₂ x hx hxv
        refine ⟨hle, fun _ => le_of_lt ?_⟩
        exact pairwise_decomp l₁ m l₂ (hdec ▸ rowMajor_pairwise g.board_size) x hx

/-- C2 witness: the 2×2 game with the constant-zero clock (never expired)
at sweep depth 1, discharging the hypotheses concretely. -/
theorem C2_pruned_equals_unpruned_root_witness :
    (∀ j : Nat, (fun _ : Nat => (0 : ℚ)) j ≤ gW.ai_time_limit) ∧
    ((idSweep 'X' 'O' (fun _ : Nat => (0 : ℚ)) 1 (rowMajor gW.board_size) gW 0
        none ⊥).2.2.1 =
      (selFold (fun x => is_valid_move gW (x.1 : ℤ) (x.2 : ℤ))
        (rootVal gW.board_size gW.win_length 'X' 'O' 1 gW.board)
        (rowMajor gW.board_size) none ⊥).1 ∧
     (WF gW → (∃ v : Nat × Nat, v.1 < gW.board_size ∧ v.2 < gW.board_size ∧
        is_valid_move gW (v.1 : ℤ) (v.2 : ℤ) = true) →
      ∃ m : Nat × Nat,
        (idSweep 'X' 'O' (fun _ : Nat => (0 : ℚ)) 1 (rowMajor gW.board_size) gW 0
          none ⊥).2.2.1 = some m ∧
        m.1 < gW.board_size ∧ m.2 < gW.board_size ∧
        is_valid_move gW (m.1 : ℤ) (m.2 : ℤ) = true ∧
        ∀ x : Nat × Nat, x.1 < gW.board_size → x.2 < gW.board_size →
          is_valid_move gW (x.1 : ℤ) (x.2 : ℤ) = true →
          rootVal gW.board_size gW.win_length 'X' 'O' 1 gW.board x ≤
            rootVal gW.board_size gW.win_length 'X' 'O' 1 gW.board m ∧
          (rootVal gW.board_size gW.win_length 'X' 'O' 1 gW.board x =
            rootVal gW.board_size gW.win_length 'X' 'O' 1 gW.board m →
            rmIndex gW.board_size m ≤ rmIndex gW.board_size x))) :=
  ⟨fun _ => by norm_num [gW],
   C2_pruned_equals_unpruned_root gW 'X' 'O' (fun _ => 0) 1 0
     (fun _ => by norm_num [gW])⟩

end Gomoku
